import Mathlib

/-! # Organisational hierarchy (`orgStruct.js`)

A shallow embedding of the two classes of `orgStruct.js`.

JavaScript objects have identity: two `Employee` objects are compared with `===`
(by reference), and an object that was removed from the registry can still be
referred to by the `manager` field of another object.  The embedding therefore
keeps an explicit object store: a reference is the allocation index of an
object (a `Nat`), `OrgStruct.heap` lists every `Employee` object ever created (in
allocation order) and `OrgStruct.employees` is the private array `#employees`
of references.

Ids are natural numbers (the identifiers used by the program); the optional
`managerId` parameter is an `Option Nat` whose `none` is the JavaScript default
`null`.  A `throw` keeps the store as it is at that moment, so every operation
returns the store together with its outcome.  The two recursive traversals
(`#recursiveCountHelper` and `Employee.print`) have no cycle guard and need not
terminate; they are given a recursion budget and return `none` when it runs out.
`console.log` is modelled by a console, the list of the lines logged so far.
-/

namespace OrgChart

/-- The private fields of `class Employee`. -/
structure Employee where
  id : Nat
  name : String
  manager : Option Nat
  reports : List Nat
  deriving DecidableEq

instance : Inhabited Employee := ⟨⟨0, "", none, []⟩⟩

namespace Employee

/-- Method `addReport(report)`: `this.#reports.push(report)`. -/
def addReport (e : Employee) (report : Nat) : Employee :=
  { e with reports := e.reports ++ [report] }

/-- Method `addReports(reports)`: `this.#reports.push(...reports)`; the argument is spread
before the call, so it is the list as it was when the call was made. -/
def addReports (e : Employee) (reports : List Nat) : Employee :=
  { e with reports := e.reports ++ reports }

/-- Method `removeReport(report)`: splice out the first entry that is `=== report`, if any. -/
def removeReport (e : Employee) (report : Nat) : Employee :=
  { e with reports := e.reports.erase report }

/-- Setter `set manager(newManager)`. -/
def setManager (e : Employee) (newManager : Option Nat) : Employee :=
  { e with manager := newManager }

end Employee

/-- The two kinds of `Error` the registry throws: the one of `add` ("Employee Id is
already taken") and the one of `#getEmployeeFromId` ("ID does not match any existing
employees"). -/
inductive Error where
  | DuplicateId
  | NotFound
  deriving DecidableEq

/-- The registry `class OrgStruct` together with the object store. -/
structure OrgStruct where
  heap : List Employee
  employees : List Nat
  deriving DecidableEq

/-- Outcome of a registry method: normal return with a value, or a thrown error;
in both cases with the store as the method left it. -/
inductive Result (α : Type) where
  | ok (value : α) (state : OrgStruct)
  | error (err : Error) (state : OrgStruct)
  deriving DecidableEq

namespace OrgStruct

/-- The registry built by `new OrgStruct()`. -/
def empty : OrgStruct := ⟨[], []⟩

/-- Dereference: the object a reference points to. -/
def get (s : OrgStruct) (r : Nat) : Employee :=
  (s.heap[r]?).getD default

/-- In-place mutation of the object behind reference `r`. -/
def update (s : OrgStruct) (r : Nat) (f : Employee → Employee) : OrgStruct :=
  { s with heap := s.heap.set r (f (s.get r)) }

/-- The statement `this.#employees.push(new Employee(...))`: allocate the object and track
it. -/
def push (s : OrgStruct) (e : Employee) : OrgStruct :=
  { heap := s.heap ++ [e], employees := s.employees ++ [s.heap.length] }

/-- Method `#isEmployee(targetEmployee)`: is the object one of `#employees` (by reference)? -/
def isEmployee (s : OrgStruct) (targetEmployee : Nat) : Bool :=
  s.employees.any (fun employee => targetEmployee == employee)

/-- Method `#getEmployeeFromId(id)`: the first tracked employee whose id is `=== id`, or the
thrown error.  The argument may be the `null` default of `managerId`, which is equal to
no id. -/
def getEmployeeFromId (s : OrgStruct) (id : Option Nat) : Except Error Nat :=
  match s.employees.find? (fun employee => decide (id = some (s.get employee).id)) with
  | some employee => .ok employee
  | none => .error .NotFound

/-- Method `add(employeeId, name, managerId)`. -/
def add (s : OrgStruct) (employeeId : Nat) (name : String) (managerId : Option Nat) :
    Result Unit :=
  if s.employees.any (fun employee => (s.get employee).id == employeeId) then
    .error .DuplicateId s
  else
    match s.getEmployeeFromId managerId with
    | .error _ => .ok () (s.push ⟨employeeId, name, none, []⟩)
    | .ok _ =>
      match s.getEmployeeFromId managerId with
      | .error err => .error err s
      | .ok manager =>
        let s1 := s.push ⟨employeeId, name, some manager, []⟩
        match s1.getEmployeeFromId (some employeeId) with
        | .error err => .error err s1
        | .ok employee => .ok () (s1.update manager (fun m => m.addReport employee))

/-- The statement `if (employee.manager !== null) employee.manager.removeReport(employee)`
of `move`. -/
def detach (s : OrgStruct) (employee : Nat) : OrgStruct :=
  match (s.get employee).manager with
  | some oldManager => s.update oldManager (fun m => m.removeReport employee)
  | none => s

/-- Method `move(employeeId, newManagerId)`. -/
def move (s : OrgStruct) (employeeId newManagerId : Nat) : Result Unit :=
  match s.getEmployeeFromId (some employeeId) with
  | .error err => .error err s
  | .ok employee =>
    match s.getEmployeeFromId (some newManagerId) with
    | .error err => .error err s
    | .ok newManager =>
      let s1 := s.detach employee
      let s2 := s1.update employee (fun e => e.setManager (some newManager))
      .ok () (s2.update newManager (fun m => m.addReport employee))

/-- The loop `for (let report of employee.reports) report.manager = employee.manager`
of `remove`; `employee.manager` is read again at every iteration. -/
def reassignReports (s : OrgStruct) (employee : Nat) (reports : List Nat) : OrgStruct :=
  reports.foldl
    (fun st report => st.update report (fun r => r.setManager (st.get employee).manager)) s

/-- The loop `for (let report of employee.reports) report.manager = null` of `remove`. -/
def orphanReports (s : OrgStruct) (reports : List Nat) : OrgStruct :=
  reports.foldl (fun st report => st.update report (fun r => r.setManager none)) s

/-- The statement `if (employee.manager !== null) { ... } else { ... }` of `remove`: hand
the reports of `employee` over to its manager, or make them roots. -/
def unlink (s : OrgStruct) (employee : Nat) : OrgStruct :=
  match (s.get employee).manager with
  | some manager =>
    let s1 := s.update manager (fun m => m.removeReport employee)
    let s2 := s1.update manager (fun m => m.addReports (s1.get employee).reports)
    s2.reassignReports employee (s2.get employee).reports
  | none => s.orphanReports (s.get employee).reports

/-- Method `remove(employeeId)`; the final loop splices the first entry of `#employees`
that is `=== employee`. -/
def remove (s : OrgStruct) (employeeId : Nat) : Result Unit :=
  match s.getEmployeeFromId (some employeeId) with
  | .error err => .error err s
  | .ok employee =>
    let s3 := s.unlink employee
    .ok () { s3 with employees := s3.employees.erase employee }

/-- The loop of `#recursiveCountHelper`: starting from `count = 1`, add the count of every
report that passes the `#isEmployee` check; `recurse` is the recursive call, which yields
`none` when it does not finish. -/
def countLoop (s : OrgStruct) (recurse : Nat → Option Nat) (reports : List Nat) : Option Nat :=
  reports.foldl
    (fun acc report =>
      match acc with
      | none => none
      | some count =>
        if s.isEmployee report then
          match recurse report with
          | none => none
          | some c => some (count + c)
        else some count)
    (some 1)

/-- Method `#recursiveCountHelper(employee)`.  The JavaScript recursion has no cycle guard and
need not terminate, so the embedding is given a recursion budget: `none` means the
budget ran out before the traversal finished. -/
def recursiveCountHelper (s : OrgStruct) : Nat → Nat → Option Nat
  | 0, _ => none
  | fuel + 1, employee =>
    if (s.get employee).reports.length = 0 then
      some 1
    else
      s.countLoop (recursiveCountHelper s fuel) (s.get employee).reports

/-- Method `countReports(employeeId)`: the number written into the logged sentence, i.e. the
helper's count minus one.  `none` means the recursion budget ran out. -/
def countReports (s : OrgStruct) (fuel : Nat) (employeeId : Nat) : Option (Result Nat) :=
  match s.getEmployeeFromId (some employeeId) with
  | .error err => some (.error err s)
  | .ok employee =>
    match s.recursiveCountHelper fuel employee with
    | none => none
    | some count => some (.ok (count - 1) s)

/-! ### State predicates used by the specification -/

/-- Some tracked employee has this id. -/
def Tracked (s : OrgStruct) (id : Nat) : Prop :=
  ∃ r ∈ s.employees, (s.get r).id = id

/-- Store validity (a fact of every JavaScript heap): every reference held by the
registry or by an object points to an allocated object. -/
def WF (s : OrgStruct) : Prop :=
  (∀ r ∈ s.employees, r < s.heap.length) ∧
  ∀ e ∈ s.heap, (∀ m ∈ e.manager, m < s.heap.length) ∧ ∀ x ∈ e.reports, x < s.heap.length

/-- Invariant 1: the ids of the tracked employees are pairwise distinct. -/
def UniqueIds (s : OrgStruct) : Prop :=
  (s.employees.map (fun r => (s.get r).id)).Nodup

/-- Invariant 2: a non-null manager of a tracked node is tracked and lists the node
exactly once in its reports. -/
def ManagerListsNode (s : OrgStruct) : Prop :=
  ∀ x ∈ s.employees, ∀ m ∈ (s.get x).manager,
    m ∈ s.employees ∧ (s.get m).reports.count x = 1

/-- Invariant 3: a tracked node without manager appears in no tracked node's reports. -/
def RootsUnlisted (s : OrgStruct) : Prop :=
  ∀ x ∈ s.employees, (s.get x).manager = none →
    ∀ q ∈ s.employees, x ∉ (s.get q).reports

/-- The converse link consistency: every entry of a tracked node's reports list is a
tracked node whose manager is that node. -/
def ReportsMirrorManagers (s : OrgStruct) : Prop :=
  ∀ q ∈ s.employees, ∀ x ∈ (s.get q).reports,
    x ∈ s.employees ∧ (s.get x).manager = some q

/-- The node reached from `r` by following `k` manager links, if the chain is that long. -/
def ancestor (s : OrgStruct) : Nat → Nat → Option Nat
  | 0, r => some r
  | k + 1, r =>
    match (s.get r).manager with
    | none => none
    | some m => ancestor s k m

/-- Manager links are acyclic: no tracked node is reached from itself by following one or
more manager links. -/
def Acyclic (s : OrgStruct) : Prop :=
  ∀ x ∈ s.employees, ∀ k, 0 < k → s.ancestor k x ≠ some x

/-- Every chain of manager links that starts at a tracked node ends at a node without
manager after fewer than `heap.length` links (a decidable test for acyclicity). -/
def ChainsEnd (s : OrgStruct) : Prop :=
  ∀ x ∈ s.employees, s.ancestor s.heap.length x = none

/-- The chain of manager links of `x` reaches `e` (in zero or more steps). -/
def Reaches (s : OrgStruct) (x e : Nat) : Prop :=
  ∃ k ∈ List.range (s.heap.length + 1), s.ancestor k x = some e

instance (s : OrgStruct) : Decidable s.WF := by unfold WF; infer_instance
instance (s : OrgStruct) : Decidable s.UniqueIds := by unfold UniqueIds; infer_instance
instance (s : OrgStruct) : Decidable s.ManagerListsNode := by
  unfold ManagerListsNode; infer_instance
instance (s : OrgStruct) : Decidable s.RootsUnlisted := by unfold RootsUnlisted; infer_instance
instance (s : OrgStruct) : Decidable s.ReportsMirrorManagers := by
  unfold ReportsMirrorManagers; infer_instance
instance (s : OrgStruct) : Decidable s.ChainsEnd := by unfold ChainsEnd; infer_instance
instance (s : OrgStruct) (x e : Nat) : Decidable (s.Reaches x e) := by
  unfold Reaches; infer_instance
instance (s : OrgStruct) (id : Nat) : Decidable (s.Tracked id) := by
  unfold Tracked; infer_instance

/-- The number of tracked nodes other than `e` whose chain of manager links reaches `e`. -/
def descendantCount (s : OrgStruct) (e : Nat) : Nat :=
  s.employees.countP (fun x => decide (x ≠ e ∧ s.Reaches x e))

/-- The number of tracked nodes whose chain of manager links reaches `e`, the node `e`
itself included. -/
def subtreeSize (s : OrgStruct) (e : Nat) : Nat :=
  s.employees.countP (fun x => decide (s.Reaches x e))

end OrgStruct

end OrgChart

/-! ## Concrete registries used as test inputs -/

namespace OrgChart

/-- The store a method call leaves behind, whether it returned or threw. -/
def stateOf : Result Unit → OrgStruct
  | .ok _ s => s
  | .error _ s => s

/-- State after `add(1,"Bob"); add(3,"Tim",1); add(4,"Ralph",3)`. -/
def chain3 : OrgStruct :=
  stateOf ((stateOf ((stateOf (OrgStruct.empty.add 1 "Bob" none)).add 3 "Tim" (some 1))).add
    4 "Ralph" (some 3))

/-- Three tracked objects: roots P (id 1) and Q (id 2), and X (id 3) whose manager is P.
Both P and Q list X in their reports; the entry in Q's list has no matching manager
link. -/
def staleLink : OrgStruct :=
  { heap := [⟨1, "P", none, [2]⟩, ⟨2, "Q", none, [2]⟩, ⟨3, "X", some 0, []⟩],
    employees := [0, 1, 2] }

/-- State after `add(1,"Ann"); add(2,"Ben",1); move(1,1)`: Ann is her own manager and an
entry of her own reports, next to Ben. -/
def selfManaged : OrgStruct :=
  stateOf ((stateOf ((stateOf (OrgStruct.empty.add 1 "Ann" none)).add 2 "Ben" (some 1))).move
    1 1)

/-- The three-node chain Bob(1) -> Tim(3) -> Ralph(4) with the further root Kevin(2). -/
def chain3Kevin : OrgStruct :=
  stateOf (chain3.add 2 "Kevin" none)

end OrgChart

/-! ## Post-states, weaker invariants and reachability -/

namespace OrgChart.OrgStruct

/-- The three mutations of `move` that follow the two lookups. -/
def relink (s : OrgStruct) (employee newManager : Nat) : OrgStruct :=
  ((s.detach employee).update employee (fun e => e.setManager (some newManager))).update
    newManager (fun m => m.addReport employee)

/-- The store `remove` leaves behind once its lookup succeeded. -/
def removeState (s : OrgStruct) (employee : Nat) : OrgStruct :=
  { s.unlink employee with employees := (s.unlink employee).employees.erase employee }

/-- First half of invariant 2: the manager of a tracked node is tracked. -/
def ManagersTracked (s : OrgStruct) : Prop :=
  ∀ x ∈ s.employees, ∀ m ∈ (s.get x).manager, m ∈ s.employees

/-- Second half of invariant 2, for tracked managers only: a tracked manager lists the
node exactly once. -/
def ListedOnce (s : OrgStruct) : Prop :=
  ∀ x ∈ s.employees, ∀ m ∈ (s.get x).manager, m ∈ s.employees →
    (s.get m).reports.count x = 1

instance (s : OrgStruct) : Decidable s.ManagersTracked := by
  unfold ManagersTracked; infer_instance
instance (s : OrgStruct) : Decidable s.ListedOnce := by unfold ListedOnce; infer_instance

/-- The registry states that can be produced from `new OrgStruct()` by calls of `add`,
`move` and `remove`, whether they return or throw. -/
inductive Reachable : OrgStruct → Prop where
  | empty : Reachable OrgStruct.empty
  | add (s : OrgStruct) (employeeId : Nat) (name : String) (managerId : Option Nat) :
      Reachable s → Reachable (stateOf (s.add employeeId name managerId))
  | move (s : OrgStruct) (employeeId newManagerId : Nat) :
      Reachable s → Reachable (stateOf (s.move employeeId newManagerId))
  | remove (s : OrgStruct) (employeeId : Nat) :
      Reachable s → Reachable (stateOf (s.remove employeeId))

/-- The registry states produced from `new OrgStruct()` by calls of `add`, `remove` and
only those calls `move(e, m)` in which the chain of manager links of `m` does not reach
`e` (so `m` is neither `e` nor below `e`). -/
inductive ReachableGuarded : OrgStruct → Prop where
  | empty : ReachableGuarded OrgStruct.empty
  | add (s : OrgStruct) (employeeId : Nat) (name : String) (managerId : Option Nat) :
      ReachableGuarded s → ReachableGuarded (stateOf (s.add employeeId name managerId))
  | move (s : OrgStruct) (employeeId newManagerId : Nat) :
      ReachableGuarded s →
      (∀ e m, s.getEmployeeFromId (some employeeId) = .ok e →
        s.getEmployeeFromId (some newManagerId) = .ok m → ¬ s.Reaches m e) →
      ReachableGuarded (stateOf (s.move employeeId newManagerId))
  | remove (s : OrgStruct) (employeeId : Nat) :
      ReachableGuarded s → ReachableGuarded (stateOf (s.remove employeeId))

/-- The link consistency that every call of `add`, `move` and `remove` keeps, cycles or
not: a valid store, unique ids, reports lists that mirror manager links, and tracked
managers listing their nodes exactly once. -/
def Sound (s : OrgStruct) : Prop :=
  s.WF ∧ s.UniqueIds ∧ s.ReportsMirrorManagers ∧ s.ListedOnce

/-- The store `add` leaves behind when the manager id resolved to `manager`: the new
object is allocated with that manager and appended to the manager's reports. -/
def attach (s : OrgStruct) (id : Nat) (name : String) (manager : Nat) : OrgStruct :=
  (s.push ⟨id, name, some manager, []⟩).update manager (fun x => x.addReport s.heap.length)

/-- The loop of the count as the specification words it: every entry of `reports` is
followed, with no membership check. -/
def specCountLoop (recurse : Nat → Option Nat) (reports : List Nat) : Option Nat :=
  reports.foldl
    (fun acc report =>
      match acc with
      | none => none
      | some count =>
        match recurse report with
        | none => none
        | some c => some (count + c))
    (some 1)

/-- The count as the specification words it: a depth-first traversal of `reports` that
recurses into every entry, without cycle guard, and counts the node itself; `none` means
the recursion budget ran out. -/
def specCount (s : OrgStruct) : Nat → Nat → Option Nat
  | 0, _ => none
  | fuel + 1, employee => specCountLoop (specCount s fuel) (s.get employee).reports

/-- The registry is a forest: consistent links, tracked managers, no cycle. -/
def Forest (s : OrgStruct) : Prop :=
  s.Sound ∧ s.ManagersTracked ∧ s.Acyclic

end OrgChart.OrgStruct

/-! ## Printing -/

namespace OrgChart

/-- The text `print` logs for an employee: `numSpaces` blanks, then `name [id]`. -/
def Employee.line (e : Employee) (numSpaces : Nat) : String :=
  String.mk (List.replicate numSpaces ' ') ++ (e.name ++ " [" ++ toString e.id ++ "]")

/-- The loop `for (let report of this.#reports) report.print(numSpaces + 2)`; `recurse` is
the recursive call, which takes the console (the lines logged so far) and yields `none`
when it does not finish. -/
def Employee.printLoop (recurse : Nat → List String → Option (List String))
    (reports : List Nat) (console : List String) : Option (List String) :=
  reports.foldl
    (fun acc report =>
      match acc with
      | none => none
      | some out => recurse report out)
    (some console)

/-- Method `print(numSpaces)` of `class Employee`, on the object behind `employee`: log
the own line, then print every report with two more blanks.  The console is passed
along; `none` means the recursion budget ran out. -/
def Employee.print (s : OrgStruct) : Nat → Nat → Nat → List String → Option (List String)
  | 0, _, _, _ => none
  | fuel + 1, employee, numSpaces, console =>
    Employee.printLoop (fun report out => Employee.print s fuel report (numSpaces + 2) out)
      (s.get employee).reports (console ++ [(s.get employee).line numSpaces])

namespace OrgStruct

/-- Method `print()` of `class OrgStruct`: every tracked employee without manager is
printed with `numSpaces = 0`, in the order of `#employees`. -/
def print (s : OrgStruct) (fuel : Nat) (console : List String) : Option (List String) :=
  s.employees.foldl
    (fun acc employee =>
      match acc with
      | none => none
      | some out =>
        if (s.get employee).manager = none then Employee.print s fuel employee 0 out
        else some out)
    (some console)

/-- The line of a node at depth `d` below its root, as the specification words it:
exactly `2 * d` space characters followed by `name [id]`. -/
def specLine (s : OrgStruct) (d node : Nat) : String :=
  String.mk (List.replicate (2 * d) ' ') ++
    ((s.get node).name ++ " [" ++ toString (s.get node).id ++ "]")

/-- Concatenation of the listings of the given nodes, in the given order. -/
def preorderAll (recurse : Nat → Option (List (Nat × Nat))) :
    List Nat → Option (List (Nat × Nat))
  | [] => some []
  | c :: cs =>
    match recurse c, preorderAll recurse cs with
    | some a, some b => some (a ++ b)
    | _, _ => none

/-- The pre-order depth-first listing of the subtree of `node`, which lies at depth `d`:
the node itself, then the listings of its children in stored `reports` order, one level
deeper.  Entries are pairs (depth, node); `none` means the recursion budget ran out. -/
def preorder (s : OrgStruct) : Nat → Nat → Nat → Option (List (Nat × Nat))
  | 0, _, _ => none
  | fuel + 1, d, node =>
    match preorderAll (preorder s fuel (d + 1)) (s.get node).reports with
    | none => none
    | some below => some ((d, node) :: below)

/-- The nodes of `employees` without manager, in `employees` order. -/
def roots (s : OrgStruct) : List Nat :=
  s.employees.filter (fun r => decide ((s.get r).manager = none))

/-- The pre-order listing of the whole forest: the listings of the roots, concatenated
in `employees` order. -/
def forestListing (s : OrgStruct) (fuel : Nat) : Option (List (Nat × Nat)) :=
  preorderAll (preorder s fuel 0) s.roots

/-- The output the specification describes for `print()`: the forest listing, each node
rendered by its line. -/
def specPrint (s : OrgStruct) (fuel : Nat) : Option (List String) :=
  match s.forestListing fuel with
  | none => none
  | some visits => some (visits.map (fun p => s.specLine p.1 p.2))

end OrgStruct

end OrgChart

/-! ## Basic facts about the object store -/

namespace OrgChart.OrgStruct

@[simp]
theorem update_employees (s : OrgStruct) (r : Nat) (f : Employee → Employee) :
    (s.update r f).employees = s.employees := rfl

@[simp]
theorem update_heap_length (s : OrgStruct) (r : Nat) (f : Employee → Employee) :
    (s.update r f).heap.length = s.heap.length := by
  simp [update]

theorem get_update_self (s : OrgStruct) (r : Nat) (f : Employee → Employee)
    (h : r < s.heap.length) : (s.update r f).get r = f (s.get r) := by
  simp [update, get, List.getElem?_set, h]

theorem get_update_ne (s : OrgStruct) (r r' : Nat) (f : Employee → Employee)
    (h : r ≠ r') : (s.update r f).get r' = s.get r' := by
  simp [update, get, List.getElem?_set, h]

theorem get_update (s : OrgStruct) (r r' : Nat) (f : Employee → Employee)
    (h : r < s.heap.length) :
    (s.update r f).get r' = if r = r' then f (s.get r) else s.get r' := by
  split
  · next h' => subst h'; exact get_update_self s r f h
  · next h' => exact get_update_ne s r r' f h'

theorem get_update_oob (s : OrgStruct) (r r' : Nat) (f : Employee → Employee)
    (h : ¬ r < s.heap.length) : (s.update r f).get r' = s.get r' := by
  simp [update, List.set_eq_of_length_le (Nat.le_of_not_lt h), get]

/-- A mutation that keeps the id keeps the id of every object. -/
theorem id_update (s : OrgStruct) (r r' : Nat) (f : Employee → Employee)
    (hf : ∀ x, (f x).id = x.id) : ((s.update r f).get r').id = (s.get r').id := by
  by_cases hlt : r < s.heap.length
  · rw [get_update _ _ _ _ hlt]
    split
    · next h => subst h; exact hf _
    · rfl
  · rw [get_update_oob _ _ _ _ hlt]

/-- A mutation that keeps the reports keeps the reports of every object. -/
theorem reports_update (s : OrgStruct) (r r' : Nat) (f : Employee → Employee)
    (hf : ∀ x, (f x).reports = x.reports) :
    ((s.update r f).get r').reports = (s.get r').reports := by
  by_cases hlt : r < s.heap.length
  · rw [get_update _ _ _ _ hlt]
    split
    · next h => subst h; exact hf _
    · rfl
  · rw [get_update_oob _ _ _ _ hlt]

/-- A mutation that keeps the manager link keeps the manager link of every object. -/
theorem manager_update (s : OrgStruct) (r r' : Nat) (f : Employee → Employee)
    (hf : ∀ x, (f x).manager = x.manager) :
    ((s.update r f).get r').manager = (s.get r').manager := by
  by_cases hlt : r < s.heap.length
  · rw [get_update _ _ _ _ hlt]
    split
    · next h => subst h; exact hf _
    · rfl
  · rw [get_update_oob _ _ _ _ hlt]

theorem get_push_lt (s : OrgStruct) (e : Employee) (r : Nat) (h : r < s.heap.length) :
    (s.push e).get r = s.get r := by
  simp [push, get, List.getElem?_append_left, h]

theorem get_push_new (s : OrgStruct) (e : Employee) :
    (s.push e).get s.heap.length = e := by
  simp [push, get]

theorem getEmployeeFromId_ok {s : OrgStruct} {i : Option Nat} {r : Nat}
    (h : s.getEmployeeFromId i = .ok r) : r ∈ s.employees ∧ i = some (s.get r).id := by
  unfold getEmployeeFromId at h
  split at h
  · next e he =>
    cases h
    exact ⟨List.mem_of_find?_eq_some he, by simpa using List.find?_some he⟩
  · cases h

theorem getEmployeeFromId_error {s : OrgStruct} {i : Option Nat} {err : Error}
    (h : s.getEmployeeFromId i = .error err) :
    err = .NotFound ∧ ∀ r ∈ s.employees, i ≠ some (s.get r).id := by
  unfold getEmployeeFromId at h
  split at h
  · cases h
  · next he =>
    cases h
    refine ⟨rfl, fun r hr => ?_⟩
    simpa using List.find?_eq_none.mp he r hr

theorem getEmployeeFromId_of_untracked {s : OrgStruct} {i : Option Nat}
    (h : ∀ r ∈ s.employees, i ≠ some (s.get r).id) :
    s.getEmployeeFromId i = .error .NotFound := by
  unfold getEmployeeFromId
  have : s.employees.find? (fun employee => decide (i = some (s.get employee).id)) = none := by
    rw [List.find?_eq_none]
    intro r hr
    simpa using h r hr
  rw [this]

theorem getEmployeeFromId_of_tracked {s : OrgStruct} {id : Nat} (h : s.Tracked id) :
    ∃ r, s.getEmployeeFromId (some id) = .ok r := by
  obtain ⟨r, hr, hid⟩ := h
  cases hres : s.getEmployeeFromId (some id) with
  | ok r' => exact ⟨r', rfl⟩
  | error err => exact absurd (by rw [hid]) ((getEmployeeFromId_error hres).2 r hr)

theorem idCheck_eq_false {s : OrgStruct} {id : Nat} (h : ¬ s.Tracked id) :
    s.employees.any (fun employee => (s.get employee).id == id) = false := by
  rw [List.any_eq_false]
  intro r hr
  simpa using fun hid => h ⟨r, hr, hid⟩

theorem get_mem_heap {s : OrgStruct} {r : Nat} (h : r < s.heap.length) : s.get r ∈ s.heap := by
  have : s.get r = s.heap[r] := by simp [get, List.getElem?_eq_getElem h]
  rw [this]
  exact List.getElem_mem h

theorem WF.tracked_lt {s : OrgStruct} (hwf : s.WF) {r : Nat} (h : r ∈ s.employees) :
    r < s.heap.length := hwf.1 r h

theorem WF.reports_lt {s : OrgStruct} (hwf : s.WF) {r x : Nat} (h : r < s.heap.length)
    (hx : x ∈ (s.get r).reports) : x < s.heap.length :=
  (hwf.2 _ (get_mem_heap h)).2 x hx

theorem WF.manager_lt {s : OrgStruct} (hwf : s.WF) {r m : Nat} (h : r < s.heap.length)
    (hm : (s.get r).manager = some m) : m < s.heap.length :=
  (hwf.2 _ (get_mem_heap h)).1 m (by simp [hm])

@[simp]
theorem detach_employees (s : OrgStruct) (e : Nat) :
    (s.detach e).employees = s.employees := by
  unfold detach; split <;> rfl

@[simp]
theorem detach_heap_length (s : OrgStruct) (e : Nat) :
    (s.detach e).heap.length = s.heap.length := by
  unfold detach; split <;> simp

theorem get_detach_ne (s : OrgStruct) (e r : Nat) (h : (s.get e).manager ≠ some r) :
    (s.detach e).get r = s.get r := by
  unfold detach
  split
  · next p hp => exact get_update_ne _ _ _ _ (fun hEq => h (by rw [hp, hEq]))
  · rfl

theorem detach_manager (s : OrgStruct) (e r : Nat) :
    ((s.detach e).get r).manager = (s.get r).manager := by
  unfold detach
  split
  · next p hp => exact manager_update s p r (fun m => m.removeReport e) (fun _ => rfl)
  · rfl

theorem get_detach_manager (s : OrgStruct) (e p : Nat) (hp : (s.get e).manager = some p)
    (hlt : p < s.heap.length) : (s.detach e).get p = (s.get p).removeReport e := by
  unfold detach
  rw [hp]
  exact get_update_self _ _ _ hlt

theorem employees_nodup {s : OrgStruct} (h : s.UniqueIds) : s.employees.Nodup :=
  List.Nodup.of_map _ h

theorem eq_of_id_eq {s : OrgStruct} (h : s.UniqueIds) {a b : Nat} (ha : a ∈ s.employees)
    (hb : b ∈ s.employees) (hid : (s.get a).id = (s.get b).id) : a = b :=
  List.inj_on_of_nodup_map h ha hb hid

theorem tracked_iff_getEmployeeFromId (s : OrgStruct) (id : Nat) :
    s.Tracked id ↔ ∃ r, s.getEmployeeFromId (some id) = .ok r := by
  constructor
  · exact getEmployeeFromId_of_tracked
  · rintro ⟨r, hr⟩
    have := getEmployeeFromId_ok hr
    exact ⟨r, this.1, (Option.some.inj this.2).symm⟩

theorem getEmployeeFromId_untracked {s : OrgStruct} {id : Nat} (h : ¬ s.Tracked id) :
    s.getEmployeeFromId (some id) = .error .NotFound :=
  getEmployeeFromId_of_untracked (fun r hr hEq => h ⟨r, hr, (Option.some.inj hEq).symm⟩)

theorem getEmployeeFromId_push_new {s : OrgStruct} (hwf : s.WF) (e : Employee)
    (hid : ¬ s.Tracked e.id) :
    (s.push e).getEmployeeFromId (some e.id) = .ok s.heap.length := by
  have h1 : s.employees.find?
      (fun employee => decide (some e.id = some ((s.push e).get employee).id)) = none := by
    rw [List.find?_eq_none]
    intro r hr
    rw [get_push_lt s e r (hwf.tracked_lt hr)]
    simpa using fun hEq => hid ⟨r, hr, hEq.symm⟩
  unfold getEmployeeFromId
  have h2 : (s.push e).employees = s.employees ++ [s.heap.length] := rfl
  rw [h2, List.find?_append, h1]
  simp [get_push_new]

/-! ### The loops of `remove` -/

theorem setManager_loop_employees (mgr : Option Nat) (L : List Nat) (s : OrgStruct) :
    (L.foldl (fun st x => st.update x (fun y => y.setManager mgr)) s).employees =
      s.employees := by
  induction L generalizing s with
  | nil => rfl
  | cons x L ih => rw [List.foldl_cons, ih]; rfl

theorem setManager_loop_length (mgr : Option Nat) (L : List Nat) (s : OrgStruct) :
    (L.foldl (fun st x => st.update x (fun y => y.setManager mgr)) s).heap.length =
      s.heap.length := by
  induction L generalizing s with
  | nil => rfl
  | cons x L ih => rw [List.foldl_cons, ih]; simp

/-- After the loop, the objects of the list have the new manager link and are otherwise
as before; every other object is untouched. -/
theorem setManager_loop_get (mgr : Option Nat) (L : List Nat) (s : OrgStruct)
    (hL : ∀ r ∈ L, r < s.heap.length) (r : Nat) :
    (L.foldl (fun st x => st.update x (fun y => y.setManager mgr)) s).get r =
      if r ∈ L then (s.get r).setManager mgr else s.get r := by
  induction L generalizing s with
  | nil => simp
  | cons x L ih =>
    have hx : x < s.heap.length := hL x (List.mem_cons_self _ _)
    rw [List.foldl_cons, ih _ (fun r hr => by
      simpa using hL r (List.mem_cons_of_mem _ hr)), get_update _ _ _ _ hx]
    by_cases hrL : r ∈ L
    · simp only [hrL, List.mem_cons, or_true, if_true]
      split
      · next h => subst h; rfl
      · rfl
    · by_cases hxr : x = r
      · subst hxr; simp [hrL]
      · simp [hrL, hxr, Ne.symm hxr]

theorem manager_update_setManager (s : OrgStruct) (x e : Nat) (mgr : Option Nat)
    (h : (s.get e).manager = mgr) :
    ((s.update x (fun y => y.setManager mgr)).get e).manager = mgr := by
  by_cases hlt : x < s.heap.length
  · rw [get_update _ _ _ _ hlt]
    split
    · rfl
    · exact h
  · rw [get_update_oob _ _ _ _ hlt]; exact h

/-- The manager link read inside the loop of `remove` is the same at every iteration. -/
theorem reassignReports_eq (s : OrgStruct) (e : Nat) (L : List Nat) (mgr : Option Nat)
    (h : (s.get e).manager = mgr) :
    s.reassignReports e L =
      L.foldl (fun st x => st.update x (fun y => y.setManager mgr)) s := by
  unfold reassignReports
  induction L generalizing s with
  | nil => rfl
  | cons x L ih =>
    rw [List.foldl_cons, List.foldl_cons, h]
    exact ih _ (manager_update_setManager s x e mgr h)

theorem unlink_employees (s : OrgStruct) (e : Nat) : (s.unlink e).employees = s.employees := by
  unfold unlink
  split
  · next m hm =>
    simp only
    rw [reassignReports_eq _ _ _ _ rfl, setManager_loop_employees]
    rfl
  · exact setManager_loop_employees _ _ _

theorem unlink_heap_length (s : OrgStruct) (e : Nat) :
    (s.unlink e).heap.length = s.heap.length := by
  unfold unlink
  split
  · next m hm =>
    simp only
    rw [reassignReports_eq _ _ _ _ rfl, setManager_loop_length]
    simp
  · exact setManager_loop_length _ _ _

theorem id_setManager_loop (mgr : Option Nat) (L : List Nat) (s : OrgStruct) (r : Nat) :
    ((L.foldl (fun st x => st.update x (fun y => y.setManager mgr)) s).get r).id =
      (s.get r).id := by
  induction L generalizing s with
  | nil => rfl
  | cons x L ih =>
    rw [List.foldl_cons, ih, id_update s x r (fun y => y.setManager mgr) (fun _ => rfl)]

theorem reports_setManager_loop (mgr : Option Nat) (L : List Nat) (s : OrgStruct) (r : Nat) :
    ((L.foldl (fun st x => st.update x (fun y => y.setManager mgr)) s).get r).reports =
      (s.get r).reports := by
  induction L generalizing s with
  | nil => rfl
  | cons x L ih =>
    rw [List.foldl_cons, ih, reports_update s x r (fun y => y.setManager mgr) (fun _ => rfl)]

/-- Method `remove` never changes an id. -/
theorem id_unlink (s : OrgStruct) (e r : Nat) : ((s.unlink e).get r).id = (s.get r).id := by
  unfold unlink
  split
  · next m hm =>
    simp only
    rw [reassignReports_eq _ _ _ _ rfl, id_setManager_loop,
      id_update _ m r (fun x => x.addReports _) (fun _ => rfl),
      id_update s m r (fun x => x.removeReport e) (fun _ => rfl)]
  · exact id_setManager_loop _ _ _ _

/-- What `remove` leaves in the store when the employee has no manager. -/
theorem get_unlink_root (s : OrgStruct) (e : Nat) (hwf : s.WF) (he : e < s.heap.length)
    (hroot : (s.get e).manager = none) (r : Nat) :
    (s.unlink e).get r =
      if r ∈ (s.get e).reports then (s.get r).setManager none else s.get r := by
  unfold unlink
  rw [hroot]
  exact setManager_loop_get none _ s (fun x hx => hwf.reports_lt he hx) r

/-- What `remove` leaves in the store when the employee has a manager other than itself. -/
theorem get_unlink_managed (s : OrgStruct) (e m : Nat) (hwf : s.WF) (he : e < s.heap.length)
    (hm : (s.get e).manager = some m) (hne : m ≠ e) (r : Nat) :
    (s.unlink e).get r =
      if r ∈ (s.get e).reports then
        ((if r = m then ((s.get m).removeReport e).addReports (s.get e).reports
          else s.get r).setManager (some m))
      else if r = m then ((s.get m).removeReport e).addReports (s.get e).reports
      else s.get r := by
  have hmlt : m < s.heap.length := hwf.manager_lt he hm
  have h1 : (s.update m (fun x => x.removeReport e)).get e = s.get e :=
    get_update_ne _ _ _ _ hne
  have h2 : ∀ x, ((s.update m (fun x => x.removeReport e)).update m
      (fun y => y.addReports (s.get e).reports)).get x =
      if x = m then ((s.get m).removeReport e).addReports (s.get e).reports else s.get x := by
    intro x
    rw [get_update _ _ _ _ (by simpa using hmlt)]
    by_cases hx : m = x
    · subst hx; simp [get_update_self _ _ _ hmlt]
    · simp [hx, Ne.symm hx, get_update_ne _ _ _ _ hx]
  unfold unlink
  rw [hm]
  simp only [h1]
  have h2e := h2 e
  rw [if_neg (Ne.symm hne)] at h2e
  rw [reassignReports_eq _ _ _ (some m) (by rw [h2e, hm]), h2e,
    setManager_loop_get (some m) _ _ (fun x hx => by
      simpa using hwf.reports_lt he hx) r, h2 r]

/-! ### Chains of manager links -/

theorem ancestor_add (s : OrgStruct) (i j x : Nat) :
    s.ancestor (i + j) x = (s.ancestor i x).bind (s.ancestor j) := by
  induction i generalizing x with
  | zero => simp [ancestor]
  | succ i ih =>
    rw [Nat.succ_add]
    simp only [ancestor]
    cases (s.get x).manager with
    | none => rfl
    | some m => exact ih m

theorem ancestor_one (s : OrgStruct) (x : Nat) : s.ancestor 1 x = (s.get x).manager := by
  simp only [ancestor]
  cases (s.get x).manager <;> rfl

theorem ancestor_succ_last (s : OrgStruct) (k x : Nat) :
    s.ancestor (k + 1) x = (s.ancestor k x).bind (fun y => (s.get y).manager) := by
  rw [ancestor_add]
  congr 1
  funext y
  exact ancestor_one s y

theorem ancestor_none_mono (s : OrgStruct) {i j x : Nat} (h : s.ancestor i x = none)
    (hij : i ≤ j) : s.ancestor j x = none := by
  obtain ⟨d, rfl⟩ := Nat.exists_eq_add_of_le hij
  rw [ancestor_add, h]
  rfl

/-- With invariant 2, a chain that starts at a tracked node only visits tracked nodes. -/
theorem ancestor_tracked {s : OrgStruct} (h2 : s.ManagerListsNode) {k x y : Nat}
    (hx : x ∈ s.employees) (h : s.ancestor k x = some y) : y ∈ s.employees := by
  induction k generalizing y with
  | zero => simp only [ancestor] at h; cases h; exact hx
  | succ k ih =>
    rw [ancestor_succ_last] at h
    cases hk : s.ancestor k x with
    | none => rw [hk] at h; cases h
    | some z =>
      rw [hk] at h
      exact (h2 z (ih hk) y (by simpa using h)).1

/-- A registry whose chains all end is acyclic. -/
theorem ChainsEnd.acyclic {s : OrgStruct} (h : s.ChainsEnd) : s.Acyclic := by
  intro x hx k hk hcyc
  have hrep : ∀ j, s.ancestor (j * k) x = some x := by
    intro j
    induction j with
    | zero => simp [ancestor]
    | succ j ih => rw [Nat.succ_mul, ancestor_add, ih]; exact hcyc
  have hnone : s.ancestor (s.heap.length * k) x = none :=
    ancestor_none_mono s (h x hx) (Nat.le_mul_of_pos_right _ hk)
  rw [hrep] at hnone
  cases hnone

/-- In a valid store satisfying invariant 2, an acyclic registry has only chains that
end: a chain of `heap.length` links visits `heap.length + 1` tracked objects, two of
which coincide. -/
theorem Acyclic.chainsEnd {s : OrgStruct} (hacyc : s.Acyclic) (hwf : s.WF)
    (h2 : s.ManagerListsNode) : s.ChainsEnd := by
  intro x hx
  by_contra hne
  have hdef : ∀ k, k ≤ s.heap.length → ∃ y, s.ancestor k x = some y := by
    intro k hk
    cases hk' : s.ancestor k x with
    | none => exact absurd (ancestor_none_mono s hk' hk) hne
    | some y => exact ⟨y, rfl⟩
  let f : Fin (s.heap.length + 1) → Fin s.heap.length := fun i =>
    ⟨(s.ancestor i.1 x).getD 0, by
      obtain ⟨y, hy⟩ := hdef i.1 (Nat.lt_succ_iff.mp i.2)
      rw [hy]
      exact hwf.tracked_lt (ancestor_tracked h2 hx hy)⟩
  obtain ⟨a, b, hab, hfab⟩ := Fintype.exists_ne_map_eq_of_card_lt f (by simp)
  have key : ∀ i j : Fin (s.heap.length + 1), i.1 < j.1 → f i = f j → False := by
    intro i j hij hf
    obtain ⟨y, hy⟩ := hdef i.1 (Nat.lt_succ_iff.mp i.2)
    obtain ⟨z, hz⟩ := hdef j.1 (Nat.lt_succ_iff.mp j.2)
    have hyz : y = z := by
      have := congrArg Fin.val hf
      simpa [f, hy, hz] using this
    subst hyz
    obtain ⟨d, hd⟩ := Nat.exists_eq_add_of_lt hij
    have hstep : s.ancestor (d + 1) y = some y := by
      have := hz
      rw [hd, Nat.add_assoc, ancestor_add, hy] at this
      exact this
    exact hacyc y (ancestor_tracked h2 hx hy) (d + 1) (Nat.succ_pos d) hstep
  rcases Nat.lt_or_gt_of_ne (fun h => hab (Fin.ext h)) with h | h
  · exact key a b h hfab
  · exact key b a h hfab.symm

/-- In an acyclic registry no tracked node is its own manager. -/
theorem Acyclic.manager_ne {s : OrgStruct} (hacyc : s.Acyclic) {e m : Nat}
    (he : e ∈ s.employees) (hm : (s.get e).manager = some m) : m ≠ e := by
  rintro rfl
  exact hacyc m he 1 Nat.one_pos (by rw [ancestor_one, hm])

/-! ### Counting the nodes below a node -/

theorem countP_or_of_disjoint {α : Type} (p q : α → Bool) (l : List α)
    (h : ∀ x ∈ l, ¬ (p x = true ∧ q x = true)) :
    l.countP (fun x => p x || q x) = l.countP p + l.countP q := by
  induction l with
  | nil => rfl
  | cons a l ih =>
    have ih' := ih (fun x hx => h x (List.mem_cons_of_mem _ hx))
    have ha := h a (List.mem_cons_self _ _)
    simp only [List.countP_cons, ih']
    cases hp : p a <;> cases hq : q a <;> simp_all <;> omega

theorem countP_any_of_disjoint {α β : Type} (R : α → β → Bool) (l : List α) (L : List β)
    (h : L.Pairwise (fun c c' => ∀ x ∈ l, ¬ (R x c = true ∧ R x c' = true))) :
    l.countP (fun x => L.any (fun c => R x c)) =
      (L.map (fun c => l.countP (fun x => R x c))).sum := by
  induction L with
  | nil => simp
  | cons c L ih =>
    rw [List.pairwise_cons] at h
    simp only [List.any_cons, List.map_cons, List.sum_cons]
    rw [countP_or_of_disjoint (fun x => R x c) (fun x => L.any (fun c => R x c)) l, ih h.2]
    rintro x hx ⟨h1, h2⟩
    obtain ⟨c', hc', hR⟩ := List.any_eq_true.mp h2
    exact h.1 c' hc' x hx ⟨h1, hR⟩

theorem isEmployee_iff (s : OrgStruct) (r : Nat) : s.isEmployee r = true ↔ r ∈ s.employees := by
  simp [isEmployee]

theorem reaches_of_ancestor {s : OrgStruct} (hce : s.ChainsEnd) {x e k : Nat}
    (hx : x ∈ s.employees) (h : s.ancestor k x = some e) : s.Reaches x e := by
  refine ⟨k, ?_, h⟩
  rw [List.mem_range]
  by_contra hk
  have := ancestor_none_mono s (hce x hx) (by omega : s.heap.length ≤ k)
  rw [h] at this
  cases this

theorem reaches_iff {s : OrgStruct} (hce : s.ChainsEnd) {x : Nat} (hx : x ∈ s.employees)
    (e : Nat) : s.Reaches x e ↔ ∃ k, s.ancestor k x = some e :=
  ⟨fun ⟨k, _, hk⟩ => ⟨k, hk⟩, fun ⟨_, hk⟩ => reaches_of_ancestor hce hx hk⟩

/-- A node managed by `e` is not above `e`. -/
theorem Acyclic.not_ancestor_of_report {s : OrgStruct} (hacyc : s.Acyclic) {e c d : Nat}
    (he : e ∈ s.employees) (hc : (s.get c).manager = some e) :
    s.ancestor d e ≠ some c := by
  intro h
  refine hacyc e he (d + 1) (Nat.succ_pos d) ?_
  rw [ancestor_succ_last, h]
  exact hc

/-- Two different nodes managed by `e` have no common node below them. -/
theorem Acyclic.reports_disjoint {s : OrgStruct} (hacyc : s.Acyclic) {e c c' x j j' : Nat}
    (he : e ∈ s.employees) (hc : (s.get c).manager = some e)
    (hc' : (s.get c').manager = some e) (hj : s.ancestor j x = some c)
    (hj' : s.ancestor j' x = some c') : c = c' := by
  have key : ∀ (a b i i' : Nat), (s.get a).manager = some e → (s.get b).manager = some e →
      s.ancestor i x = some a → s.ancestor i' x = some b → i < i' → False := by
    intro a b i i' ha hb hi hi' hlt
    obtain ⟨d, hd⟩ := Nat.exists_eq_add_of_lt hlt
    have h1 : s.ancestor (d + 1) a = some b := by
      have := hi'
      rw [hd, Nat.add_assoc, ancestor_add, hi] at this
      exact this
    have h2 : s.ancestor d e = some b := by
      rw [Nat.add_comm, ancestor_add, ancestor_one, ha] at h1
      exact h1
    exact hacyc.not_ancestor_of_report he hb h2
  rcases Nat.lt_trichotomy j j' with h | h | h
  · exact (key c c' j j' hc hc' hj hj' h).elim
  · subst h
    rw [hj] at hj'
    exact Option.some.inj hj'
  · exact (key c' c j' j hc' hc hj' hj h).elim

theorem reports_nodup {s : OrgStruct} (h2 : s.ManagerListsNode)
    (hmirror : s.ReportsMirrorManagers) {e : Nat} (he : e ∈ s.employees) :
    (s.get e).reports.Nodup := by
  rw [List.nodup_iff_count_eq_one]
  intro c hc
  have := hmirror e he c hc
  exact (h2 c this.1 e (by simp [this.2])).2

/-- The nodes at or below `e` are `e` itself and, separately for every report `c` of `e`,
the nodes at or below `c`. -/
theorem subtreeSize_eq {s : OrgStruct} (hwf : s.WF) (h1 : s.UniqueIds)
    (h2 : s.ManagerListsNode) (hmirror : s.ReportsMirrorManagers) (hacyc : s.Acyclic)
    {e : Nat} (he : e ∈ s.employees) :
    s.subtreeSize e = 1 + ((s.get e).reports.map s.subtreeSize).sum := by
  have hce := hacyc.chainsEnd hwf h2
  have hcongr : s.subtreeSize e = s.employees.countP (fun x =>
      (x == e) || (s.get e).reports.any (fun c => decide (s.Reaches x c))) := by
    apply List.countP_congr
    intro x hx
    simp only [decide_eq_true_eq, Bool.or_eq_true, beq_iff_eq, List.any_eq_true]
    constructor
    · intro hr
      obtain ⟨k, hk⟩ := (reaches_iff hce hx e).1 hr
      cases k with
      | zero => left; simpa [ancestor] using hk
      | succ k =>
        right
        rw [ancestor_succ_last] at hk
        cases hkx : s.ancestor k x with
        | none => rw [hkx] at hk; cases hk
        | some c =>
          rw [hkx] at hk
          have hc : c ∈ s.employees := ancestor_tracked h2 hx hkx
          have hmem : c ∈ (s.get e).reports :=
            List.count_pos_iff.mp (by
              rw [(h2 c hc e (by simpa using hk)).2]; exact Nat.one_pos)
          exact ⟨c, hmem, reaches_of_ancestor hce hx hkx⟩
    · rintro (rfl | ⟨c, hc, hr⟩)
      · exact reaches_of_ancestor hce hx (show s.ancestor 0 x = some x from rfl)
      · obtain ⟨k, hk⟩ := (reaches_iff hce hx c).1 hr
        refine reaches_of_ancestor hce hx (show s.ancestor (k + 1) x = some e from ?_)
        rw [ancestor_succ_last, hk]
        exact (hmirror e he c hc).2
  rw [hcongr, countP_or_of_disjoint (fun x => x == e)
    (fun x => (s.get e).reports.any (fun c => decide (s.Reaches x c)))]
  · have hone : s.employees.countP (fun x => x == e) = 1 := by
      have := List.count_eq_one_of_mem (employees_nodup h1) he
      rw [List.count_eq_countP] at this
      rw [← this]
    rw [hone, countP_any_of_disjoint (fun x c => decide (s.Reaches x c))]
    · rfl
    · refine List.Pairwise.imp_of_mem ?_ (reports_nodup h2 hmirror he)
      intro c c' hc hc' hne x hx hboth
      simp only [decide_eq_true_eq] at hboth
      obtain ⟨j, hj⟩ := (reaches_iff hce hx c).1 hboth.1
      obtain ⟨j', hj'⟩ := (reaches_iff hce hx c').1 hboth.2
      exact hne (hacyc.reports_disjoint he (hmirror e he c hc).2 (hmirror e he c' hc').2 hj hj')
  · rintro x hx ⟨hxe, hany⟩
    simp only [beq_iff_eq] at hxe
    subst hxe
    obtain ⟨c, hc, hr⟩ := List.any_eq_true.mp hany
    simp only [decide_eq_true_eq] at hr
    obtain ⟨k, hk⟩ := (reaches_iff hce hx c).1 hr
    exact hacyc.not_ancestor_of_report he (hmirror x he c hc).2 hk

/-- The nodes at or below `e` are `e` and the nodes counted by `descendantCount`. -/
theorem subtreeSize_eq_succ {s : OrgStruct} (h1 : s.UniqueIds) {e : Nat}
    (he : e ∈ s.employees) : s.subtreeSize e = s.descendantCount e + 1 := by
  have hpart : s.subtreeSize e = s.employees.countP (fun x =>
      decide (x ≠ e ∧ s.Reaches x e) || (x == e)) := by
    apply List.countP_congr
    intro x _
    simp only [decide_eq_true_eq, Bool.or_eq_true, beq_iff_eq]
    constructor
    · intro hr
      by_cases hxe : x = e
      · exact Or.inr hxe
      · exact Or.inl ⟨hxe, hr⟩
    · rintro (h | rfl)
      · exact h.2
      · exact ⟨0, by simp, rfl⟩
  rw [hpart, countP_or_of_disjoint (fun x => decide (x ≠ e ∧ s.Reaches x e)) (fun x => x == e)]
  · have hone : s.employees.countP (fun x => x == e) = 1 := by
      have := List.count_eq_one_of_mem (employees_nodup h1) he
      rw [List.count_eq_countP] at this
      rw [← this]
    rw [hone]
    rfl
  · rintro x _ ⟨h, hxe⟩
    simp only [decide_eq_true_eq] at h
    simp only [beq_iff_eq] at hxe
    exact h.1 hxe

theorem countLoop_eq (s : OrgStruct) (recurse : Nat → Option Nat) (g : Nat → Nat)
    (L : List Nat)
    (h : ∀ r ∈ L, s.isEmployee r = true ∧ recurse r = some (g r)) :
    s.countLoop recurse L = some (1 + (L.map g).sum) := by
  unfold countLoop
  suffices H : ∀ (a : Nat), L.foldl
      (fun acc report =>
        match acc with
        | none => none
        | some count =>
          if s.isEmployee report then
            match recurse report with
            | none => none
            | some c => some (count + c)
          else some count)
      (some a) = some (a + (L.map g).sum) from H 1
  induction L with
  | nil => intro a; rfl
  | cons r L ih =>
    intro a
    have hr := h r (List.mem_cons_self _ _)
    rw [List.foldl_cons]
    simp only [hr.1, hr.2, if_true]
    rw [ih (fun r' hr' => h r' (List.mem_cons_of_mem _ hr'))]
    simp [Nat.add_assoc]

/-- With enough recursion budget the helper returns the number of nodes at or below the
employee. -/
theorem recursiveCountHelper_eq {s : OrgStruct} (hwf : s.WF) (h1 : s.UniqueIds)
    (h2 : s.ManagerListsNode) (hmirror : s.ReportsMirrorManagers) (hacyc : s.Acyclic)
    (fuel : Nat) : ∀ e ∈ s.employees,
      (∀ x ∈ s.employees, ∀ k, s.ancestor k x = some e → k < fuel) →
      s.recursiveCountHelper fuel e = some (s.subtreeSize e) := by
  induction fuel with
  | zero =>
    intro e he hbound
    exact absurd (hbound e he 0 rfl) (Nat.lt_irrefl 0)
  | succ fuel ih =>
    intro e he hbound
    have hsize := subtreeSize_eq hwf h1 h2 hmirror hacyc he
    have hloop : s.countLoop (s.recursiveCountHelper fuel) (s.get e).reports =
        some (1 + ((s.get e).reports.map s.subtreeSize).sum) := by
      apply countLoop_eq
      intro c hc
      have hcm := hmirror e he c hc
      refine ⟨(isEmployee_iff s c).2 hcm.1, ih c hcm.1 ?_⟩
      intro x hx k hk
      have : s.ancestor (k + 1) x = some e := by
        rw [ancestor_succ_last, hk]; exact hcm.2
      exact Nat.lt_of_succ_lt_succ (hbound x hx (k + 1) this)
    simp only [recursiveCountHelper]
    split
    · next hlen =>
      have hnil : (s.get e).reports = [] := List.length_eq_zero.mp hlen
      rw [hsize, hnil]
      rfl
    · rw [hloop, hsize]

/-! ### The post-states of `add`, `move` and `remove`, field by field -/

theorem move_ok {s : OrgStruct} {employeeId newManagerId e m : Nat}
    (he : s.getEmployeeFromId (some employeeId) = .ok e)
    (hm : s.getEmployeeFromId (some newManagerId) = .ok m) :
    s.move employeeId newManagerId = .ok () (s.relink e m) := by
  simp only [move, he, hm, relink]

theorem remove_ok {s : OrgStruct} {employeeId e : Nat}
    (he : s.getEmployeeFromId (some employeeId) = .ok e) :
    s.remove employeeId = .ok () (s.removeState e) := by
  simp only [remove, he, removeState]

theorem add_ok_root {s : OrgStruct} {id : Nat} (name : String) {managerId : Option Nat}
    (hid : ¬ s.Tracked id) (hm : s.getEmployeeFromId managerId = .error .NotFound) :
    s.add id name managerId = .ok () (s.push ⟨id, name, none, []⟩) := by
  simp [add, idCheck_eq_false hid, hm]

theorem add_ok_managed {s : OrgStruct} {id : Nat} (name : String) {managerId : Option Nat}
    {m : Nat} (hwf : s.WF) (hid : ¬ s.Tracked id) (hm : s.getEmployeeFromId managerId = .ok m) :
    s.add id name managerId =
      .ok () ((s.push ⟨id, name, some m, []⟩).update m (fun x => x.addReport s.heap.length)) := by
  have hnew := getEmployeeFromId_push_new hwf ⟨id, name, some m, []⟩ hid
  simp only [add, idCheck_eq_false hid, hm]
  simp only at hnew
  simp [hnew]

@[simp]
theorem relink_employees (s : OrgStruct) (e m : Nat) : (s.relink e m).employees = s.employees := by
  simp [relink]

@[simp]
theorem relink_heap_length (s : OrgStruct) (e m : Nat) :
    (s.relink e m).heap.length = s.heap.length := by
  simp [relink]

theorem id_relink (s : OrgStruct) (e m r : Nat) : ((s.relink e m).get r).id = (s.get r).id := by
  unfold relink
  rw [id_update _ m r (fun x => x.addReport e) (fun _ => rfl),
    id_update _ e r (fun x => x.setManager (some m)) (fun _ => rfl)]
  unfold detach
  split
  · next p hp => exact id_update s p r (fun x => x.removeReport e) (fun _ => rfl)
  · rfl

theorem manager_relink (s : OrgStruct) (e m r : Nat) (he : e < s.heap.length) :
    ((s.relink e m).get r).manager = if r = e then some m else (s.get r).manager := by
  unfold relink
  rw [manager_update _ m r (fun x => x.addReport e) (fun _ => rfl),
    get_update _ _ _ _ (by simpa using he)]
  by_cases h : e = r
  · subst h; simp [Employee.setManager]
  · simp [h, Ne.symm h, detach_manager]

theorem reports_relink (s : OrgStruct) (e m r : Nat) (hwf : s.WF) (he : e < s.heap.length)
    (hm : m < s.heap.length) :
    ((s.relink e m).get r).reports =
      (if (s.get e).manager = some r then (s.get r).reports.erase e else (s.get r).reports) ++
        (if r = m then [e] else []) := by
  have hbase : ((s.detach e).get r).reports =
      if (s.get e).manager = some r then (s.get r).reports.erase e else (s.get r).reports := by
    split
    · next hp => rw [get_detach_manager s e r hp (hwf.manager_lt he hp)]; rfl
    · next hp => rw [get_detach_ne s e r hp]
  unfold relink
  rw [get_update _ _ _ _ (by simpa using hm)]
  by_cases h : m = r
  · subst h
    simp only [if_true, Employee.addReport]
    rw [reports_update _ e m (fun x => x.setManager (some m)) (fun _ => rfl), hbase]
  · simp only [h, Ne.symm h, if_false, List.append_nil]
    rw [reports_update _ e r (fun x => x.setManager (some m)) (fun _ => rfl), hbase]

@[simp]
theorem removeState_employees (s : OrgStruct) (e : Nat) :
    (s.removeState e).employees = s.employees.erase e := by
  simp [removeState, unlink_employees]

@[simp]
theorem removeState_heap_length (s : OrgStruct) (e : Nat) :
    (s.removeState e).heap.length = s.heap.length := by
  simp [removeState, unlink_heap_length]

theorem get_removeState (s : OrgStruct) (e r : Nat) :
    (s.removeState e).get r = (s.unlink e).get r := rfl

theorem id_removeState (s : OrgStruct) (e r : Nat) :
    ((s.removeState e).get r).id = (s.get r).id := id_unlink s e r

/-- What `remove` leaves in the store when the employee is its own manager: the spread
argument of `addReports` is the employee's own reports list, which is thereby doubled. -/
theorem get_unlink_self (s : OrgStruct) (e : Nat) (hwf : s.WF) (he : e < s.heap.length)
    (hm : (s.get e).manager = some e) (r : Nat) :
    (s.unlink e).get r =
      if r ∈ (s.get e).reports.erase e then
        ((if r = e then ((s.get e).removeReport e).addReports ((s.get e).reports.erase e)
          else s.get r).setManager (some e))
      else if r = e then ((s.get e).removeReport e).addReports ((s.get e).reports.erase e)
      else s.get r := by
  have h1 : (s.update e (fun x => x.removeReport e)).get e = (s.get e).removeReport e :=
    get_update_self _ _ _ he
  have h2 : ∀ x, ((s.update e (fun x => x.removeReport e)).update e
      (fun y => y.addReports ((s.get e).reports.erase e))).get x =
      if x = e then ((s.get e).removeReport e).addReports ((s.get e).reports.erase e)
      else s.get x := by
    intro x
    rw [get_update _ _ _ _ (by simpa using he)]
    by_cases hx : e = x
    · subst hx; simp [h1]
    · simp [hx, Ne.symm hx, get_update_ne _ _ _ _ hx]
  have hL : ∀ x ∈ (s.get e).reports.erase e ++ (s.get e).reports.erase e,
      x < s.heap.length := by
    intro x hx
    rcases List.mem_append.mp hx with h | h <;>
      exact hwf.reports_lt he (List.mem_of_mem_erase h)
  unfold unlink
  rw [hm]
  simp only [h1]
  have h1r : ((s.get e).removeReport e).reports = (s.get e).reports.erase e := rfl
  rw [h1r]
  have h2e := h2 e
  rw [if_pos rfl] at h2e
  rw [reassignReports_eq _ _ _ (some e) (by rw [h2e]; exact hm), h2e,
    setManager_loop_get (some e) _ _ (fun x hx => by
      simpa using hL x (by simpa [Employee.addReports, Employee.removeReport] using hx)) r, h2 r]
  simp [Employee.addReports, Employee.removeReport]

/-- Method `remove` changes no reports list except the one of the employee's manager. -/
theorem reports_removeState (s : OrgStruct) (e r : Nat) (hwf : s.WF) (he : e < s.heap.length) :
    ((s.removeState e).get r).reports =
      if (s.get e).manager = some r then
        (s.get r).reports.erase e ++
          (if r = e then (s.get e).reports.erase e else (s.get e).reports)
      else (s.get r).reports := by
  rw [get_removeState]
  cases hm : (s.get e).manager with
  | none =>
    rw [get_unlink_root s e hwf he hm r]
    simp only [reduceCtorEq, if_false]
    split <;> rfl
  | some m =>
    by_cases hme : m = e
    · subst hme
      rw [get_unlink_self s m hwf he hm r]
      by_cases hr : r = m
      · subst hr
        simp only [if_true]
        split <;> rfl
      · have : ¬ (some m = some r) := fun h => hr (Option.some.inj h).symm
        simp only [hr, this, if_false]
        split <;> rfl
    · rw [get_unlink_managed s e m hwf he hm hme r]
      by_cases hr : r = m
      · subst hr
        have hre : ¬ r = e := hme
        simp only [if_true, hre, if_false]
        split <;> rfl
      · have : ¬ (some m = some r) := fun h => hr (Option.some.inj h).symm
        simp only [hr, this, if_false]
        split <;> rfl

/-- Method `remove` keeps the manager link of every object that is not an entry of the
employee's reports. -/
theorem manager_removeState_of_not_mem (s : OrgStruct) (e r : Nat) (hwf : s.WF)
    (he : e < s.heap.length) (hr : r ∉ (s.get e).reports) :
    ((s.removeState e).get r).manager = (s.get r).manager := by
  rw [get_removeState]
  cases hm : (s.get e).manager with
  | none => rw [get_unlink_root s e hwf he hm r, if_neg hr]
  | some m =>
    by_cases hme : m = e
    · subst hme
      rw [get_unlink_self s m hwf he hm r,
        if_neg (fun h => hr (List.mem_of_mem_erase h))]
      split
      · next h => subst h; rfl
      · rfl
    · rw [get_unlink_managed s e m hwf he hm hme r, if_neg hr]
      split
      · next h => subst h; rfl
      · rfl

/-- Method `remove` gives every entry of the employee's reports the employee's manager,
unless the employee is its own manager. -/
theorem manager_removeState_of_mem (s : OrgStruct) (e r : Nat) (hwf : s.WF)
    (he : e < s.heap.length) (hself : (s.get e).manager ≠ some e)
    (hr : r ∈ (s.get e).reports) :
    ((s.removeState e).get r).manager = (s.get e).manager := by
  rw [get_removeState]
  cases hm : (s.get e).manager with
  | none => rw [get_unlink_root s e hwf he hm r, if_pos hr]; rfl
  | some m =>
    have hme : m ≠ e := fun h => hself (by rw [hm, h])
    rw [get_unlink_managed s e m hwf he hm hme r, if_pos hr]
    rfl

/-- When the employee is its own manager, `remove` writes into a manager link only the
reference to the employee itself. -/
theorem manager_removeState_self (s : OrgStruct) (e r : Nat) (hwf : s.WF)
    (he : e < s.heap.length) (hm : (s.get e).manager = some e) :
    ((s.removeState e).get r).manager =
      if r ∈ (s.get e).reports.erase e then some e else (s.get r).manager := by
  rw [get_removeState, get_unlink_self s e hwf he hm r]
  split
  · rfl
  · split
    · next h => subst h; rfl
    · rfl

/-! ### Preservation of the link consistency -/

theorem get_eq_getElem {s : OrgStruct} {r : Nat} (h : r < s.heap.length) :
    s.get r = s.heap[r] := by
  simp [get, List.getElem?_eq_getElem h]

theorem wf_iff (s : OrgStruct) :
    s.WF ↔ (∀ r ∈ s.employees, r < s.heap.length) ∧
      ∀ r, r < s.heap.length →
        (∀ m, (s.get r).manager = some m → m < s.heap.length) ∧
        ∀ x ∈ (s.get r).reports, x < s.heap.length := by
  constructor
  · intro hwf
    exact ⟨hwf.1, fun r hr => ⟨fun m hm => hwf.manager_lt hr hm, fun x hx => hwf.reports_lt hr hx⟩⟩
  · rintro ⟨h1, h2⟩
    refine ⟨h1, fun e he => ?_⟩
    obtain ⟨r, hr, hre⟩ := List.getElem_of_mem he
    have hget : s.get r = e := by rw [get_eq_getElem hr]; exact hre
    have := h2 r hr
    rw [hget] at this
    exact ⟨fun m hm => this.1 m (by simpa using hm), this.2⟩

theorem mem_erase_iff_of_unique {s : OrgStruct} (h1 : s.UniqueIds) {x e : Nat} :
    x ∈ s.employees.erase e ↔ x ≠ e ∧ x ∈ s.employees :=
  List.Nodup.mem_erase_iff (employees_nodup h1)

theorem sound_empty : OrgStruct.empty.Sound := by
  refine ⟨?_, ?_, ?_, ?_⟩
  · exact ⟨fun r hr => (by cases hr), fun e he => (by cases he)⟩
  · exact List.nodup_nil
  · intro q hq; cases hq
  · intro x hx; cases hx

theorem push_heap_length (s : OrgStruct) (e : Employee) :
    (s.push e).heap.length = s.heap.length + 1 := by
  simp [push]

theorem push_employees (s : OrgStruct) (e : Employee) :
    (s.push e).employees = s.employees ++ [s.heap.length] := rfl

theorem get_push (s : OrgStruct) (e : Employee) (r : Nat) (hr : r ≤ s.heap.length) :
    (s.push e).get r = if r = s.heap.length then e else s.get r := by
  split
  · next h => subst h; exact get_push_new s e
  · next h => exact get_push_lt s e r (Nat.lt_of_le_of_ne hr h)

theorem uniqueIds_push {s : OrgStruct} (hwf : s.WF) (h1 : s.UniqueIds) (e : Employee)
    (hid : ¬ s.Tracked e.id) : (s.push e).UniqueIds := by
  unfold UniqueIds
  rw [push_employees, List.map_append, List.map_singleton, get_push_new]
  have hmap : s.employees.map (fun r => ((s.push e).get r).id) =
      s.employees.map (fun r => (s.get r).id) :=
    List.map_congr_left (fun r hr => by rw [get_push_lt s e r (hwf.tracked_lt hr)])
  rw [hmap, List.nodup_append]
  refine ⟨h1, List.nodup_singleton _, ?_⟩
  intro a ha hb
  rw [List.mem_singleton] at hb
  subst hb
  obtain ⟨r, hr, hre⟩ := List.mem_map.mp ha
  exact hid ⟨r, hr, hre⟩

/-- Adding a root keeps the link consistency. -/
theorem sound_push_root {s : OrgStruct} (h : s.Sound) (id : Nat) (name : String)
    (hid : ¬ s.Tracked id) : (s.push ⟨id, name, none, []⟩).Sound := by
  obtain ⟨hwf, h1, hmir, hlo⟩ := h
  have hget := get_push s ⟨id, name, none, []⟩
  refine ⟨?_, uniqueIds_push hwf h1 _ hid, ?_, ?_⟩
  · rw [wf_iff]
    rw [push_heap_length]
    refine ⟨?_, ?_⟩
    · intro r hr
      rw [push_employees, List.mem_append, List.mem_singleton] at hr
      rcases hr with hr | hr
      · exact Nat.lt_succ_of_lt (hwf.tracked_lt hr)
      · omega
    · intro r hr
      rw [hget r (Nat.lt_succ_iff.mp hr)]
      split
      · exact ⟨fun m hm => (by cases hm), fun x hx => (by cases hx)⟩
      · next hne =>
        have hlt : r < s.heap.length := by omega
        exact ⟨fun m hm => Nat.lt_succ_of_lt (hwf.manager_lt hlt hm),
          fun x hx => Nat.lt_succ_of_lt (hwf.reports_lt hlt hx)⟩
  · intro q hq x hx
    rw [push_employees, List.mem_append, List.mem_singleton] at hq
    rcases hq with hq | hq
    · have hqlt := hwf.tracked_lt hq
      rw [get_push_lt _ _ _ hqlt] at hx
      have := hmir q hq x hx
      rw [push_employees, get_push_lt _ _ _ (hwf.tracked_lt this.1)]
      exact ⟨List.mem_append_left _ this.1, this.2⟩
    · subst hq
      rw [get_push_new] at hx
      cases hx
  · intro x hx m hm hmem
    rw [push_employees, List.mem_append, List.mem_singleton] at hx
    rcases hx with hx | hx
    · have hxlt := hwf.tracked_lt hx
      rw [get_push_lt _ _ _ hxlt] at hm
      have hmlt : m < s.heap.length := hwf.manager_lt hxlt (by simpa using hm)
      rw [push_employees, List.mem_append, List.mem_singleton] at hmem
      rcases hmem with hmem | hmem
      · rw [get_push_lt _ _ _ hmlt]
        exact hlo x hx m hm hmem
      · omega
    · subst hx
      rw [get_push_new] at hm
      cases hm

theorem add_ok_attach {s : OrgStruct} {id : Nat} (name : String) {managerId : Option Nat}
    {m : Nat} (hwf : s.WF) (hid : ¬ s.Tracked id) (hm : s.getEmployeeFromId managerId = .ok m) :
    s.add id name managerId = .ok () (s.attach id name m) :=
  add_ok_managed name hwf hid hm

theorem attach_heap_length (s : OrgStruct) (id : Nat) (name : String) (m : Nat) :
    (s.attach id name m).heap.length = s.heap.length + 1 := by
  simp [attach, push]

theorem attach_employees (s : OrgStruct) (id : Nat) (name : String) (m : Nat) :
    (s.attach id name m).employees = s.employees ++ [s.heap.length] := rfl

theorem get_attach (s : OrgStruct) (id : Nat) (name : String) (m r : Nat)
    (hm : m < s.heap.length) (hr : r ≤ s.heap.length) :
    (s.attach id name m).get r =
      if r = s.heap.length then ⟨id, name, some m, []⟩
      else if r = m then (s.get m).addReport s.heap.length else s.get r := by
  unfold attach
  rw [get_update _ _ _ _ (by rw [push_heap_length]; omega)]
  by_cases h : m = r
  · subst h
    have : ¬ m = s.heap.length := by omega
    simp [this, get_push_lt _ _ _ hm]
  · by_cases h' : r = s.heap.length
    · subst h'; simp [h, get_push_new]
    · have hlt : r < s.heap.length := by omega
      simp [h, h', Ne.symm h, get_push_lt _ _ _ hlt]

theorem id_attach (s : OrgStruct) (id : Nat) (name : String) (m r : Nat) :
    ((s.attach id name m).get r).id = ((s.push ⟨id, name, some m, []⟩).get r).id :=
  id_update _ m r (fun x => x.addReport s.heap.length) (fun _ => rfl)

/-- Adding a node under a tracked manager keeps the link consistency. -/
theorem sound_attach {s : OrgStruct} (h : s.Sound) (id : Nat) (name : String) {m : Nat}
    (hm : m ∈ s.employees) (hid : ¬ s.Tracked id) : (s.attach id name m).Sound := by
  obtain ⟨hwf, h1, hmir, hlo⟩ := h
  have hmlt := hwf.tracked_lt hm
  have hget := fun r hr => get_attach s id name m r hmlt hr
  have hgetold : ∀ r, r < s.heap.length → r ≠ m → (s.attach id name m).get r = s.get r := by
    intro r hr hrm
    rw [hget r (Nat.le_of_lt hr), if_neg (Nat.ne_of_lt hr), if_neg hrm]
  have hmgrold : ∀ r, r < s.heap.length →
      ((s.attach id name m).get r).manager = (s.get r).manager := by
    intro r hr
    rw [hget r (Nat.le_of_lt hr), if_neg (Nat.ne_of_lt hr)]
    split
    · next h => subst h; rfl
    · rfl
  have hrepold : ∀ r, r < s.heap.length → ((s.attach id name m).get r).reports =
      (s.get r).reports ++ (if r = m then [s.heap.length] else []) := by
    intro r hr
    rw [hget r (Nat.le_of_lt hr), if_neg (Nat.ne_of_lt hr)]
    split
    · next h => subst h; rfl
    · simp
  have hnew : (s.attach id name m).get s.heap.length = ⟨id, name, some m, []⟩ := by
    rw [hget _ (Nat.le_refl _), if_pos rfl]
  refine ⟨?_, ?_, ?_, ?_⟩
  · rw [wf_iff, attach_heap_length]
    refine ⟨?_, ?_⟩
    · intro r hr
      rw [attach_employees, List.mem_append, List.mem_singleton] at hr
      rcases hr with hr | hr
      · exact Nat.lt_succ_of_lt (hwf.tracked_lt hr)
      · omega
    · intro r hr
      by_cases hrn : r = s.heap.length
      · subst hrn
        rw [hnew]
        exact ⟨fun m' hm' => by cases hm'; omega, fun x hx => (by cases hx)⟩
      · have hlt : r < s.heap.length := by omega
        rw [hmgrold r hlt, hrepold r hlt]
        refine ⟨fun m' hm' => Nat.lt_succ_of_lt (hwf.manager_lt hlt hm'), fun x hx => ?_⟩
        rcases List.mem_append.mp hx with hx | hx
        · exact Nat.lt_succ_of_lt (hwf.reports_lt hlt hx)
        · split at hx
          · rw [List.mem_singleton] at hx; omega
          · cases hx
  · have hu := uniqueIds_push hwf h1 ⟨id, name, some m, []⟩ hid
    unfold UniqueIds at hu ⊢
    rw [attach_employees]
    rw [push_employees] at hu
    have : (s.employees ++ [s.heap.length]).map (fun r => ((s.attach id name m).get r).id) =
        (s.employees ++ [s.heap.length]).map
          (fun r => ((s.push ⟨id, name, some m, []⟩).get r).id) :=
      List.map_congr_left (fun r _ => id_attach s id name m r)
    rw [this]
    exact hu
  · intro q hq x hx
    rw [attach_employees, List.mem_append, List.mem_singleton] at hq
    rcases hq with hq | hq
    · have hqlt := hwf.tracked_lt hq
      rw [hrepold q hqlt] at hx
      rcases List.mem_append.mp hx with hx | hx
      · have := hmir q hq x hx
        rw [attach_employees, hmgrold x (hwf.tracked_lt this.1)]
        exact ⟨List.mem_append_left _ this.1, this.2⟩
      · split at hx
        · next hqm =>
          rw [List.mem_singleton] at hx
          subst hx; subst hqm
          rw [hnew, attach_employees]
          exact ⟨List.mem_append_right _ (List.mem_singleton_self _), rfl⟩
        · cases hx
    · subst hq
      rw [hnew] at hx
      cases hx
  · intro x hx m' hm' hmem
    rw [attach_employees, List.mem_append, List.mem_singleton] at hx
    rcases hx with hx | hx
    · have hxlt := hwf.tracked_lt hx
      rw [hmgrold x hxlt] at hm'
      have hm'lt : m' < s.heap.length := hwf.manager_lt hxlt (by simpa using hm')
      rw [attach_employees, List.mem_append, List.mem_singleton] at hmem
      rcases hmem with hmem | hmem
      · rw [hrepold m' hm'lt, List.count_append, hlo x hx m' hm' hmem]
        split
        · rw [List.count_singleton, if_neg (by simpa using Nat.ne_of_gt hxlt)]
        · rfl
      · omega
    · subst hx
      rw [hnew] at hm'
      have hmm : m = m' := by simpa using hm'
      subst hmm
      rw [hrepold m hmlt, if_pos rfl, List.count_append, List.count_singleton_self]
      have : (s.get m).reports.count s.heap.length = 0 :=
        List.count_eq_zero.mpr (fun hmem' => Nat.lt_irrefl _ (hwf.reports_lt hmlt hmem'))
      omega

/-- Method `move` keeps the link consistency, whatever the two tracked nodes are. -/
theorem sound_relink {s : OrgStruct} (h : s.Sound) {e m : Nat} (he : e ∈ s.employees)
    (hm : m ∈ s.employees) : (s.relink e m).Sound := by
  obtain ⟨hwf, h1, hmir, hlo⟩ := h
  have helt := hwf.tracked_lt he
  have hmlt := hwf.tracked_lt hm
  have hmgr := fun r => manager_relink s e m r helt
  have hrep := fun r => reports_relink s e m r hwf helt hmlt
  have hbase : ∀ r x, x ∈ (if (s.get e).manager = some r then (s.get r).reports.erase e
      else (s.get r).reports) → x ∈ (s.get r).reports := by
    intro r x hx
    split at hx
    · exact List.mem_of_mem_erase hx
    · exact hx
  have hbase_e : ∀ r, r ∈ s.employees →
      e ∉ (if (s.get e).manager = some r then (s.get r).reports.erase e
        else (s.get r).reports) := by
    intro r hr hmem
    split at hmem
    · next hp =>
      have hc : (s.get r).reports.count e = 1 := hlo e he r (by simp [hp]) hr
      have h0 : ((s.get r).reports.erase e).count e = 0 := by
        rw [List.count_erase_self, hc]
      exact (List.count_eq_zero.mp h0) hmem
    · next hp => exact hp (hmir r hr e hmem).2
  refine ⟨?_, ?_, ?_, ?_⟩
  · rw [wf_iff, relink_heap_length, relink_employees]
    refine ⟨fun r hr => hwf.tracked_lt hr, fun r hr => ⟨fun m' hm' => ?_, fun x hx => ?_⟩⟩
    · rw [hmgr r] at hm'
      split at hm'
      · cases hm'; exact hmlt
      · exact hwf.manager_lt hr hm'
    · rw [hrep r] at hx
      rcases List.mem_append.mp hx with hx | hx
      · exact hwf.reports_lt hr (hbase r x hx)
      · split at hx
        · rw [List.mem_singleton] at hx; subst hx; exact helt
        · cases hx
  · unfold UniqueIds
    rw [relink_employees]
    have : s.employees.map (fun r => ((s.relink e m).get r).id) =
        s.employees.map (fun r => (s.get r).id) :=
      List.map_congr_left (fun r _ => id_relink s e m r)
    rw [this]
    exact h1
  · intro q hq x hx
    rw [relink_employees] at hq ⊢
    rw [hrep q] at hx
    rw [hmgr x]
    rcases List.mem_append.mp hx with hx | hx
    · have hxe : x ≠ e := fun hxe => hbase_e q hq (hxe ▸ hx)
      have := hmir q hq x (hbase q x hx)
      rw [if_neg hxe]
      exact this
    · split at hx
      · next hqm =>
        rw [List.mem_singleton] at hx
        subst hx; subst hqm
        rw [if_pos rfl]
        exact ⟨he, rfl⟩
      · cases hx
  · intro x hx m' hm' hmem
    rw [relink_employees] at hx hmem
    rw [hmgr x] at hm'
    rw [hrep m', List.count_append]
    by_cases hxe : x = e
    · subst hxe
      rw [if_pos rfl] at hm'
      have hmm : m = m' := by simpa using hm'
      subst hmm
      rw [if_pos rfl, List.count_singleton_self,
        List.count_eq_zero.mpr (hbase_e m hm)]
    · rw [if_neg hxe] at hm'
      have hc := hlo x hx m' hm' hmem
      have h0 : (if m' = m then [e] else []).count x = 0 := by
        split
        · rw [List.count_singleton, if_neg (by simpa using Ne.symm hxe)]
        · rfl
      rw [h0]
      split
      · rw [List.count_erase_of_ne hxe, hc]
      · rw [hc]

/-- Method `remove` keeps the link consistency, also when the removed node is its own
manager or its manager is no longer tracked. -/
theorem sound_removeState {s : OrgStruct} (h : s.Sound) {e : Nat} (he : e ∈ s.employees) :
    (s.removeState e).Sound := by
  obtain ⟨hwf, h1, hmir, hlo⟩ := h
  have helt := hwf.tracked_lt he
  have hrep := fun r => reports_removeState s e r hwf helt
  have hmem' : ∀ {x}, x ∈ (s.removeState e).employees ↔ x ≠ e ∧ x ∈ s.employees := by
    intro x
    rw [removeState_employees]
    exact mem_erase_iff_of_unique h1
  -- the manager link after the call, for a node that stays tracked
  have hmgr_in : ∀ x, x ∈ (s.get e).reports → (s.get e).manager ≠ some e →
      ((s.removeState e).get x).manager = (s.get e).manager :=
    fun x hx hself => manager_removeState_of_mem s e x hwf helt hself hx
  have hmgr_out : ∀ x, x ∉ (s.get e).reports →
      ((s.removeState e).get x).manager = (s.get x).manager :=
    fun x hx => manager_removeState_of_not_mem s e x hwf helt hx
  have hmgr_self : (s.get e).manager = some e → ∀ x,
      ((s.removeState e).get x).manager = (s.get x).manager := by
    intro hself x
    rw [manager_removeState_self s e x hwf helt hself]
    split
    · next hx => exact ((hmir e he x (List.mem_of_mem_erase hx)).2).symm
    · rfl
  refine ⟨?_, ?_, ?_, ?_⟩
  · rw [wf_iff, removeState_heap_length]
    refine ⟨fun r hr => hwf.tracked_lt (hmem'.1 hr).2, fun r hr => ⟨fun m' hm' => ?_, fun x hx => ?_⟩⟩
    · by_cases hself : (s.get e).manager = some e
      · rw [hmgr_self hself r] at hm'
        exact hwf.manager_lt hr hm'
      · by_cases hrin : r ∈ (s.get e).reports
        · rw [hmgr_in r hrin hself] at hm'
          exact hwf.manager_lt helt hm'
        · rw [hmgr_out r hrin] at hm'
          exact hwf.manager_lt hr hm'
    · rw [hrep r] at hx
      split at hx
      · rcases List.mem_append.mp hx with hx | hx
        · exact hwf.reports_lt hr (List.mem_of_mem_erase hx)
        · split at hx
          · exact hwf.reports_lt helt (List.mem_of_mem_erase hx)
          · exact hwf.reports_lt helt hx
      · exact hwf.reports_lt hr hx
  · unfold UniqueIds
    rw [removeState_employees]
    have : (s.employees.erase e).map (fun r => ((s.removeState e).get r).id) =
        (s.employees.erase e).map (fun r => (s.get r).id) :=
      List.map_congr_left (fun r _ => id_removeState s e r)
    rw [this]
    exact List.Nodup.sublist (List.Sublist.map _ (List.erase_sublist e s.employees)) h1
  · intro q hq0 x hx
    obtain ⟨hqe, hq⟩ := hmem'.1 hq0
    have hrepq : ((s.removeState e).get q).reports =
        if (s.get e).manager = some q then (s.get q).reports.erase e ++ (s.get e).reports
        else (s.get q).reports := by
      rw [hrep q]; simp only [if_neg hqe]
    rw [hrepq] at hx
    -- `x` comes from the old reports of `q`, or was handed over by `e`
    have hold : x ∈ (s.get q).reports → x ≠ e →
        x ∈ (s.removeState e).employees ∧ ((s.removeState e).get x).manager = some q := by
      intro hxq hxe
      have := hmir q hq x hxq
      have hxout : x ∉ (s.get e).reports := fun hin => by
        have h2 := (hmir e he x hin).2
        rw [this.2] at h2
        exact hqe (Option.some.inj h2)
      exact ⟨hmem'.2 ⟨hxe, this.1⟩, by rw [hmgr_out x hxout]; exact this.2⟩
    by_cases hp : (s.get e).manager = some q
    · rw [if_pos hp] at hx
      rcases List.mem_append.mp hx with hx | hx
      · refine hold (List.mem_of_mem_erase hx) ?_
        intro hxe
        have hc : (s.get q).reports.count e = 1 := hlo e he q (by simp [hp]) hq
        have h0 : ((s.get q).reports.erase e).count e = 0 := by
          rw [List.count_erase_self, hc]
        exact (List.count_eq_zero.mp h0) (hxe ▸ hx)
      · have := hmir e he x hx
        have hself : (s.get e).manager ≠ some e := by
          rw [hp]; exact fun h => hqe (Option.some.inj h)
        have hxe : x ≠ e := by
          intro hxe
          rw [hxe] at this
          exact hself this.2
        exact ⟨hmem'.2 ⟨hxe, this.1⟩, by rw [hmgr_in x hx hself]; exact hp⟩
    · rw [if_neg hp] at hx
      refine hold hx ?_
      intro hxe
      rw [hxe] at hx
      exact hp (hmir q hq e hx).2
  · intro x hx0 m' hm' hmem0
    obtain ⟨hxe, hx⟩ := hmem'.1 hx0
    obtain ⟨hme, hmem⟩ := hmem'.1 hmem0
    have hrepm : ((s.removeState e).get m').reports =
        if (s.get e).manager = some m' then (s.get m').reports.erase e ++ (s.get e).reports
        else (s.get m').reports := by
      rw [hrep m']; simp only [if_neg hme]
    rw [hrepm]
    by_cases hxin : x ∈ (s.get e).reports
    · have hxm := (hmir e he x hxin).2
      by_cases hself : (s.get e).manager = some e
      · rw [hmgr_self hself x, hxm] at hm'
        exact absurd (by simpa using hm') (Ne.symm hme)
      · rw [hmgr_in x hxin hself] at hm'
        have hp : (s.get e).manager = some m' := by simpa using hm'
        rw [if_pos hp, List.count_append, List.count_erase_of_ne hxe]
        have h0 : (s.get m').reports.count x = 0 :=
          List.count_eq_zero.mpr (fun hin => by
            have h2 := (hmir m' hmem x hin).2
            rw [hxm] at h2
            exact hme (Option.some.inj h2).symm)
        rw [h0, hlo x hx e (by simp [hxm]) he]
    · rw [hmgr_out x hxin] at hm'
      have hc := hlo x hx m' hm' hmem
      split
      · rw [List.count_append, List.count_erase_of_ne hxe, hc,
          List.count_eq_zero.mpr hxin]
      · exact hc

/-! ### The three methods, case by case -/

theorem getEmployeeFromId_mem {s : OrgStruct} {i : Option Nat} {r : Nat}
    (h : s.getEmployeeFromId i = .ok r) : r ∈ s.employees := (getEmployeeFromId_ok h).1

theorem stateOf_add_cases (s : OrgStruct) (hwf : s.WF) (id : Nat) (name : String)
    (managerId : Option Nat) :
    stateOf (s.add id name managerId) = s ∨
    (¬ s.Tracked id ∧ s.add id name managerId = .ok () (s.push ⟨id, name, none, []⟩)) ∨
    ∃ m, ¬ s.Tracked id ∧ s.getEmployeeFromId managerId = .ok m ∧
      s.add id name managerId = .ok () (s.attach id name m) := by
  by_cases hid : s.Tracked id
  · left
    obtain ⟨r, hr, hrid⟩ := hid
    have : s.employees.any (fun employee => (s.get employee).id == id) = true := by
      rw [List.any_eq_true]
      exact ⟨r, hr, by simpa using hrid⟩
    simp [add, this, stateOf]
  · right
    cases hm : s.getEmployeeFromId managerId with
    | error err =>
      have := (getEmployeeFromId_error hm).1
      subst this
      exact Or.inl ⟨hid, add_ok_root name hid hm⟩
    | ok m => exact Or.inr ⟨m, hid, rfl, add_ok_attach name hwf hid hm⟩

theorem stateOf_move_cases (s : OrgStruct) (employeeId newManagerId : Nat) :
    stateOf (s.move employeeId newManagerId) = s ∨
    ∃ e m, s.getEmployeeFromId (some employeeId) = .ok e ∧
      s.getEmployeeFromId (some newManagerId) = .ok m ∧
      s.move employeeId newManagerId = .ok () (s.relink e m) := by
  cases he : s.getEmployeeFromId (some employeeId) with
  | error err => left; simp only [move, he, stateOf]
  | ok e =>
    cases hm : s.getEmployeeFromId (some newManagerId) with
    | error err => left; simp only [move, he, hm, stateOf]
    | ok m => exact Or.inr ⟨e, m, rfl, rfl, move_ok he hm⟩

theorem stateOf_remove_cases (s : OrgStruct) (employeeId : Nat) :
    stateOf (s.remove employeeId) = s ∨
    ∃ e, s.getEmployeeFromId (some employeeId) = .ok e ∧
      s.remove employeeId = .ok () (s.removeState e) := by
  cases he : s.getEmployeeFromId (some employeeId) with
  | error err => left; simp only [remove, he, stateOf]
  | ok e => exact Or.inr ⟨e, rfl, remove_ok he⟩

theorem sound_add {s : OrgStruct} (h : s.Sound) (id : Nat) (name : String)
    (managerId : Option Nat) : (stateOf (s.add id name managerId)).Sound := by
  rcases stateOf_add_cases s h.1 id name managerId with h' | ⟨hid, h'⟩ | ⟨m, hid, hm, h'⟩
  · rw [h']; exact h
  · rw [h']; exact sound_push_root h id name hid
  · rw [h']; exact sound_attach h id name (getEmployeeFromId_mem hm) hid

theorem sound_move {s : OrgStruct} (h : s.Sound) (employeeId newManagerId : Nat) :
    (stateOf (s.move employeeId newManagerId)).Sound := by
  rcases stateOf_move_cases s employeeId newManagerId with h' | ⟨e, m, he, hm, h'⟩
  · rw [h']; exact h
  · rw [h']; exact sound_relink h (getEmployeeFromId_mem he) (getEmployeeFromId_mem hm)

theorem sound_remove {s : OrgStruct} (h : s.Sound) (employeeId : Nat) :
    (stateOf (s.remove employeeId)).Sound := by
  rcases stateOf_remove_cases s employeeId with h' | ⟨e, he, h'⟩
  · rw [h']; exact h
  · rw [h']; exact sound_removeState h (getEmployeeFromId_mem he)

/-- Every reachable registry state has consistent links. -/
theorem Reachable.sound {s : OrgStruct} (h : s.Reachable) : s.Sound := by
  induction h with
  | empty => exact sound_empty
  | add s id name managerId _ ih => exact sound_add ih id name managerId
  | move s a b _ ih => exact sound_move ih a b
  | remove s a _ ih => exact sound_remove ih a

/-! ### The membership check of the count -/

theorem countLoop_eq_specCountLoop (s : OrgStruct) (f g : Nat → Option Nat) (L : List Nat)
    (h : ∀ r ∈ L, s.isEmployee r = true ∧ f r = g r) :
    s.countLoop f L = specCountLoop g L := by
  unfold countLoop specCountLoop
  generalize (some 1 : Option Nat) = acc
  induction L generalizing acc with
  | nil => rfl
  | cons r L ih =>
    have hr := h r (List.mem_cons_self _ _)
    rw [List.foldl_cons, List.foldl_cons]
    have hstep : (match acc with
        | none => none
        | some count =>
          if s.isEmployee r then
            match f r with
            | none => none
            | some c => some (count + c)
          else some count) =
        (match acc with
        | none => none
        | some count =>
          match g r with
          | none => none
          | some c => some (count + c)) := by
      cases acc with
      | none => rfl
      | some count => simp only [hr.1, hr.2, if_true]
    rw [hstep]
    exact ih (fun r' hr' => h r' (List.mem_cons_of_mem _ hr')) _

/-- When the entries of tracked reports lists are tracked, the guarded count of the code
and the unguarded count of the specification agree, budget for budget. -/
theorem recursiveCountHelper_eq_specCount {s : OrgStruct} (hmir : s.ReportsMirrorManagers)
    (fuel : Nat) : ∀ e ∈ s.employees, s.recursiveCountHelper fuel e = s.specCount fuel e := by
  induction fuel with
  | zero => intro e _; rfl
  | succ fuel ih =>
    intro e he
    simp only [recursiveCountHelper, specCount]
    split
    · next hlen =>
      rw [List.length_eq_zero.mp hlen]
      rfl
    · apply countLoop_eq_specCountLoop
      intro r hr
      have := (hmir e he r hr).1
      exact ⟨(isEmployee_iff s r).2 this, ih r this⟩

/-! ### Store validity after `add`, and the lookup of the new id -/

theorem wf_push_root {s : OrgStruct} (hwf : s.WF) (id : Nat) (name : String) :
    (s.push ⟨id, name, none, []⟩).WF := by
  have hget := get_push s ⟨id, name, none, []⟩
  rw [wf_iff, push_heap_length]
  refine ⟨?_, ?_⟩
  · intro r hr
    rw [push_employees, List.mem_append, List.mem_singleton] at hr
    rcases hr with hr | hr
    · exact Nat.lt_succ_of_lt (hwf.tracked_lt hr)
    · omega
  · intro r hr
    rw [hget r (Nat.lt_succ_iff.mp hr)]
    split
    · exact ⟨fun m hm => (by cases hm), fun x hx => (by cases hx)⟩
    · next hne =>
      have hlt : r < s.heap.length := by omega
      exact ⟨fun m hm => Nat.lt_succ_of_lt (hwf.manager_lt hlt hm),
        fun x hx => Nat.lt_succ_of_lt (hwf.reports_lt hlt hx)⟩

theorem wf_attach {s : OrgStruct} (hwf : s.WF) (id : Nat) (name : String) {m : Nat}
    (hmlt : m < s.heap.length) : (s.attach id name m).WF := by
  have hget := fun r hr => get_attach s id name m r hmlt hr
  rw [wf_iff, attach_heap_length]
  refine ⟨?_, ?_⟩
  · intro r hr
    rw [attach_employees, List.mem_append, List.mem_singleton] at hr
    rcases hr with hr | hr
    · exact Nat.lt_succ_of_lt (hwf.tracked_lt hr)
    · omega
  · intro r hr
    rw [hget r (Nat.lt_succ_iff.mp hr)]
    by_cases hrn : r = s.heap.length
    · rw [if_pos hrn]
      exact ⟨fun m' hm' => by cases hm'; omega, fun x hx => (by cases hx)⟩
    · have hlt : r < s.heap.length := by omega
      rw [if_neg hrn]
      split
      · next hrm =>
        subst hrm
        refine ⟨fun m' hm' => Nat.lt_succ_of_lt (hwf.manager_lt hlt hm'), fun x hx => ?_⟩
        rcases List.mem_append.mp hx with hx | hx
        · exact Nat.lt_succ_of_lt (hwf.reports_lt hlt hx)
        · rw [List.mem_singleton] at hx; omega
      · exact ⟨fun m' hm' => Nat.lt_succ_of_lt (hwf.manager_lt hlt hm'),
          fun x hx => Nat.lt_succ_of_lt (hwf.reports_lt hlt hx)⟩

/-- The lookup depends only on the `employees` array and on the ids. -/
theorem getEmployeeFromId_congr {s t : OrgStruct} (hemp : t.employees = s.employees)
    (hid : ∀ r, (t.get r).id = (s.get r).id) (i : Option Nat) :
    t.getEmployeeFromId i = s.getEmployeeFromId i := by
  unfold getEmployeeFromId
  rw [hemp]
  have : (fun employee => decide (i = some (t.get employee).id)) =
      (fun employee => decide (i = some (s.get employee).id)) := by
    funext r; rw [hid r]
  rw [this]

theorem getEmployeeFromId_attach_new {s : OrgStruct} (hwf : s.WF) (id : Nat) (name : String)
    (m : Nat) (hid : ¬ s.Tracked id) :
    (s.attach id name m).getEmployeeFromId (some id) = .ok s.heap.length := by
  rw [getEmployeeFromId_congr (show (s.attach id name m).employees =
    (s.push ⟨id, name, some m, []⟩).employees from rfl) (fun r => id_attach s id name m r)]
  exact getEmployeeFromId_push_new hwf ⟨id, name, some m, []⟩ hid

theorem erase_append_new (l : List Nat) (n : Nat) (h : n ∉ l) : (l ++ [n]).erase n = l := by
  rw [List.erase_append_right _ h]
  simp

/-! ### Invariants 2 and 3 -/

theorem managerListsNode_iff (s : OrgStruct) :
    s.ManagerListsNode ↔ s.ManagersTracked ∧ s.ListedOnce :=
  ⟨fun h => ⟨fun x hx m hm => (h x hx m hm).1, fun x hx m hm _ => (h x hx m hm).2⟩,
    fun h x hx m hm => ⟨h.1 x hx m hm, h.2 x hx m hm (h.1 x hx m hm)⟩⟩

theorem rootsUnlisted_of_mirror {s : OrgStruct} (hmir : s.ReportsMirrorManagers) :
    s.RootsUnlisted := by
  intro x _ hroot q hq hmem
  have := (hmir q hq x hmem).2
  rw [hroot] at this
  cases this

theorem sound_of_invariants {s : OrgStruct} (hwf : s.WF) (h1 : s.UniqueIds)
    (h2 : s.ManagerListsNode) (hmir : s.ReportsMirrorManagers) : s.Sound :=
  ⟨hwf, h1, hmir, ((managerListsNode_iff s).1 h2).2⟩

theorem managersTracked_push_root {s : OrgStruct} (hwf : s.WF) (h : s.ManagersTracked)
    (id : Nat) (name : String) : (s.push ⟨id, name, none, []⟩).ManagersTracked := by
  intro x hx m hm
  rw [push_employees, List.mem_append, List.mem_singleton] at hx
  rw [push_employees]
  rcases hx with hx | hx
  · rw [get_push_lt _ _ _ (hwf.tracked_lt hx)] at hm
    exact List.mem_append_left _ (h x hx m hm)
  · subst hx
    rw [get_push_new] at hm
    cases hm

theorem managersTracked_attach {s : OrgStruct} (hwf : s.WF) (h : s.ManagersTracked)
    (id : Nat) (name : String) {m : Nat} (hm : m ∈ s.employees) :
    (s.attach id name m).ManagersTracked := by
  have hmlt := hwf.tracked_lt hm
  intro x hx m' hm'
  rw [attach_employees, List.mem_append, List.mem_singleton] at hx
  rw [attach_employees]
  rcases hx with hx | hx
  · have hxlt := hwf.tracked_lt hx
    rw [get_attach s id name m x hmlt (Nat.le_of_lt hxlt), if_neg (Nat.ne_of_lt hxlt)] at hm'
    have : m' ∈ (s.get x).manager := by
      split at hm'
      · next hxm => subst hxm; exact hm'
      · exact hm'
    exact List.mem_append_left _ (h x hx m' this)
  · subst hx
    rw [get_attach s id name m _ hmlt (Nat.le_refl _), if_pos rfl] at hm'
    have : m = m' := by simpa using hm'
    subst this
    exact List.mem_append_left _ hm

theorem managersTracked_relink {s : OrgStruct} (hwf : s.WF) (h : s.ManagersTracked)
    {e m : Nat} (he : e ∈ s.employees) (hm : m ∈ s.employees) :
    (s.relink e m).ManagersTracked := by
  intro x hx m' hm'
  rw [relink_employees] at hx ⊢
  rw [manager_relink s e m x (hwf.tracked_lt he)] at hm'
  split at hm'
  · have : m = m' := by simpa using hm'
    subst this; exact hm
  · exact h x hx m' hm'

theorem managersTracked_removeState {s : OrgStruct} (hs : s.Sound) (h : s.ManagersTracked)
    {e : Nat} (he : e ∈ s.employees) (hself : (s.get e).manager ≠ some e) :
    (s.removeState e).ManagersTracked := by
  obtain ⟨hwf, h1, hmir, hlo⟩ := hs
  have helt := hwf.tracked_lt he
  intro x hx m' hm'
  rw [removeState_employees] at hx ⊢
  obtain ⟨hxe, hx⟩ := (mem_erase_iff_of_unique h1).1 hx
  rw [mem_erase_iff_of_unique h1]
  by_cases hxin : x ∈ (s.get e).reports
  · rw [manager_removeState_of_mem s e x hwf helt hself hxin] at hm'
    refine ⟨?_, h e he m' hm'⟩
    intro hme
    rw [hme] at hm'
    exact hself (by simpa using hm')
  · rw [manager_removeState_of_not_mem s e x hwf helt hxin] at hm'
    refine ⟨?_, h x hx m' hm'⟩
    intro hme
    rw [hme] at hm'
    have hc := hlo x hx e hm' he
    exact hxin (List.count_pos_iff.mp (by rw [hc]; exact Nat.one_pos))

/-! ### Acyclicity is kept by `add`, by `remove` and by guarded calls of `move` -/

/-- Two stores whose manager links agree on a set of objects that is closed under
manager links have the same chains from that set. -/
theorem ancestor_eq_of_agree (s t : OrgStruct) (P : Nat → Prop)
    (hagree : ∀ r, P r → (t.get r).manager = (s.get r).manager)
    (hclosed : ∀ r m, P r → (s.get r).manager = some m → P m) :
    ∀ k x, P x → t.ancestor k x = s.ancestor k x := by
  intro k
  induction k with
  | zero => intro x _; rfl
  | succ k ih =>
    intro x hx
    simp only [ancestor]
    rw [hagree x hx]
    cases hm : (s.get x).manager with
    | none => rfl
    | some m => exact ih m (hclosed x m hx hm)

theorem ancestor_lt {s : OrgStruct} (hwf : s.WF) {k x y : Nat} (hx : x < s.heap.length)
    (h : s.ancestor k x = some y) : y < s.heap.length := by
  induction k generalizing x with
  | zero => simp only [ancestor] at h; cases h; exact hx
  | succ k ih =>
    simp only [ancestor] at h
    cases hm : (s.get x).manager with
    | none => rw [hm] at h; cases h
    | some m => rw [hm] at h; exact ih (hwf.manager_lt hx hm) h

/-- Two stores whose manager links differ at most at `e` have the same chain from `x` as
long as the chain does not pass through `e`. -/
theorem ancestor_eq_of_avoid (s t : OrgStruct) (e : Nat)
    (hagree : ∀ r, r ≠ e → (t.get r).manager = (s.get r).manager) (x : Nat) :
    ∀ k, (∀ j, j < k → s.ancestor j x ≠ some e) → t.ancestor k x = s.ancestor k x := by
  intro k
  induction k with
  | zero => intro _; rfl
  | succ k ih =>
    intro havoid
    rw [ancestor_succ_last, ancestor_succ_last,
      ih (fun j hj => havoid j (Nat.lt_succ_of_lt hj))]
    cases hk : s.ancestor k x with
    | none => rfl
    | some y =>
      have hye : y ≠ e := fun h => havoid k (Nat.lt_succ_self k) (by rw [hk, h])
      exact hagree y hye

/-- A chain that passes through `e` in one store passes through `e` in the other. -/
theorem hits_of_hits (s t : OrgStruct) (e : Nat)
    (hagree : ∀ r, r ≠ e → (t.get r).manager = (s.get r).manager) {x k : Nat}
    (h : t.ancestor k x = some e) : ∃ i, i ≤ k ∧ s.ancestor i x = some e := by
  by_cases havoid : ∀ j, j < k → s.ancestor j x ≠ some e
  · exact ⟨k, Nat.le_refl k, by rw [← ancestor_eq_of_avoid s t e hagree x k havoid]; exact h⟩
  · push_neg at havoid
    obtain ⟨j, hj, hje⟩ := havoid
    exact ⟨j, Nat.le_of_lt hj, hje⟩

/-- The first time a chain passes through `e`. -/
theorem first_hit (s : OrgStruct) (e x : Nat) {k : Nat} (h : s.ancestor k x = some e) :
    ∃ i, i ≤ k ∧ s.ancestor i x = some e ∧ ∀ j, j < i → s.ancestor j x ≠ some e := by
  induction k using Nat.strong_induction_on with
  | _ k ih =>
    by_cases havoid : ∀ j, j < k → s.ancestor j x ≠ some e
    · exact ⟨k, Nat.le_refl k, h, havoid⟩
    · push_neg at havoid
      obtain ⟨j, hj, hje⟩ := havoid
      obtain ⟨i, hi, hie, hmin⟩ := ih j hj hje
      exact ⟨i, Nat.le_trans hi (Nat.le_of_lt hj), hie, hmin⟩

theorem acyclic_push_root {s : OrgStruct} (hwf : s.WF) (hacyc : s.Acyclic) (id : Nat)
    (name : String) : (s.push ⟨id, name, none, []⟩).Acyclic := by
  intro x hx k hk
  rw [push_employees, List.mem_append, List.mem_singleton] at hx
  rcases hx with hx | hx
  · rw [ancestor_eq_of_agree s _ (fun r => r < s.heap.length)
      (fun r hr => by rw [get_push_lt _ _ _ hr])
      (fun r m hr hm => hwf.manager_lt hr hm) k x (hwf.tracked_lt hx)]
    exact hacyc x hx k hk
  · subst hx
    obtain ⟨k, rfl⟩ := Nat.exists_eq_succ_of_ne_zero (Nat.pos_iff_ne_zero.mp hk)
    simp only [ancestor, get_push_new]
    exact fun h => by cases h

theorem acyclic_attach {s : OrgStruct} (hwf : s.WF) (hacyc : s.Acyclic) (id : Nat)
    (name : String) {m : Nat} (hm : m ∈ s.employees) : (s.attach id name m).Acyclic := by
  have hmlt := hwf.tracked_lt hm
  have hold : ∀ k x, x < s.heap.length →
      (s.attach id name m).ancestor k x = s.ancestor k x :=
    ancestor_eq_of_agree s _ (fun r => r < s.heap.length)
      (fun r hr => by
        rw [get_attach s id name m r hmlt (Nat.le_of_lt hr), if_neg (Nat.ne_of_lt hr)]
        split
        · next h => subst h; rfl
        · rfl)
      (fun r m' hr hm' => hwf.manager_lt hr hm')
  intro x hx k hk
  rw [attach_employees, List.mem_append, List.mem_singleton] at hx
  rcases hx with hx | hx
  · rw [hold k x (hwf.tracked_lt hx)]
    exact hacyc x hx k hk
  · subst hx
    obtain ⟨k, rfl⟩ := Nat.exists_eq_succ_of_ne_zero (Nat.pos_iff_ne_zero.mp hk)
    simp only [ancestor]
    rw [get_attach s id name m _ hmlt (Nat.le_refl _), if_pos rfl]
    simp only
    rw [hold k m hmlt]
    intro h
    exact Nat.lt_irrefl _ (ancestor_lt hwf hmlt h)

theorem Forest.managerListsNode {s : OrgStruct} (h : s.Forest) : s.ManagerListsNode :=
  (managerListsNode_iff s).2 ⟨h.2.1, h.1.2.2.2⟩

theorem Forest.allChainsEnd {s : OrgStruct} (h : s.Forest) : s.ChainsEnd :=
  h.2.2.chainsEnd h.1.1 h.managerListsNode

/-- A call of `move` whose new manager is not at or below the employee keeps the
registry acyclic. -/
theorem acyclic_relink {s : OrgStruct} (hf : s.Forest) {e m : Nat} (he : e ∈ s.employees)
    (hm : m ∈ s.employees) (hguard : ¬ s.Reaches m e) : (s.relink e m).Acyclic := by
  have hwf := hf.1.1
  have helt := hwf.tracked_lt he
  have hagree : ∀ r, r ≠ e → ((s.relink e m).get r).manager = (s.get r).manager :=
    fun r hr => by rw [manager_relink s e m r helt, if_neg hr]
  intro x hx k hk hcyc
  rw [relink_employees] at hx
  by_cases havoid : ∀ j, j < k → s.ancestor j x ≠ some e
  · rw [ancestor_eq_of_avoid s _ e hagree x k havoid] at hcyc
    exact hf.2.2 x hx k hk hcyc
  · push_neg at havoid
    obtain ⟨j, _, hje⟩ := havoid
    obtain ⟨i, _, hie, hmin⟩ := first_hit s e x hje
    have hti : (s.relink e m).ancestor i x = some e := by
      rw [ancestor_eq_of_avoid s _ e hagree x i hmin]; exact hie
    have hke : (s.relink e m).ancestor k e = some e := by
      have h1 : (s.relink e m).ancestor (i + k) x = (s.relink e m).ancestor k e := by
        rw [ancestor_add, hti]; rfl
      have h2 : (s.relink e m).ancestor (k + i) x = some e := by
        rw [ancestor_add, hcyc]; exact hti
      rw [← h1, Nat.add_comm]; exact h2
    obtain ⟨k', rfl⟩ := Nat.exists_eq_succ_of_ne_zero (Nat.pos_iff_ne_zero.mp hk)
    have hkm : (s.relink e m).ancestor k' m = some e := by
      have := hke
      simp only [ancestor] at this
      rw [manager_relink s e m e helt, if_pos rfl] at this
      exact this
    obtain ⟨i', _, hi'⟩ := hits_of_hits s _ e hagree hkm
    exact hguard (reaches_of_ancestor hf.allChainsEnd hm hi')

/-- Every chain of the registry after `remove` is a chain of the registry before it with
the removed node skipped. -/
theorem ancestor_removeState {s : OrgStruct} (hf : s.Forest) {e x : Nat}
    (he : e ∈ s.employees) (hx : x ∈ s.employees) (hxe : x ≠ e) :
    ∀ k y, (s.removeState e).ancestor k x = some y →
      y ∈ s.employees ∧ y ≠ e ∧ ∃ k', k ≤ k' ∧ s.ancestor k' x = some y := by
  obtain ⟨⟨hwf, h1, hmir, hlo⟩, hmt, hacyc⟩ := hf
  have helt := hwf.tracked_lt he
  have hself : (s.get e).manager ≠ some e := fun h => hacyc.manager_ne he h rfl
  intro k
  induction k with
  | zero =>
    intro y hy
    simp only [ancestor] at hy
    cases hy
    exact ⟨hx, hxe, 0, Nat.le_refl 0, rfl⟩
  | succ k ih =>
    intro y hy
    rw [ancestor_succ_last] at hy
    cases hz : (s.removeState e).ancestor k x with
    | none => rw [hz] at hy; cases hy
    | some z =>
      rw [hz] at hy
      have hy' : ((s.removeState e).get z).manager = some y := hy
      obtain ⟨hzmem, hze, k1, hk1, hsz⟩ := ih z hz
      by_cases hzin : z ∈ (s.get e).reports
      · rw [manager_removeState_of_mem s e z hwf helt hself hzin] at hy'
        have hzm := (hmir e he z hzin).2
        refine ⟨hmt e he y (by simp [hy']), ?_, k1 + 1 + 1, by omega, ?_⟩
        · intro hye
          exact hself (by rw [hy', hye])
        · rw [ancestor_succ_last, ancestor_succ_last, hsz]
          show ((s.get z).manager).bind (fun y => (s.get y).manager) = some y
          rw [hzm]
          exact hy'
      · rw [manager_removeState_of_not_mem s e z hwf helt hzin] at hy'
        refine ⟨hmt z hzmem y (by simp [hy']), ?_, k1 + 1, by omega, ?_⟩
        · intro hye
          rw [hye] at hy'
          have hc := hlo z hzmem e (by simp [hy']) he
          exact hzin (List.count_pos_iff.mp (by rw [hc]; exact Nat.one_pos))
        · rw [ancestor_succ_last, hsz]
          exact hy'

theorem acyclic_removeState {s : OrgStruct} (hf : s.Forest) {e : Nat}
    (he : e ∈ s.employees) : (s.removeState e).Acyclic := by
  intro x hx k hk hcyc
  rw [removeState_employees] at hx
  obtain ⟨hxe, hx⟩ := (mem_erase_iff_of_unique hf.1.2.1).1 hx
  obtain ⟨_, _, k', hk', hs⟩ := ancestor_removeState hf he hx hxe k x hcyc
  exact hf.2.2 x hx k' (Nat.lt_of_lt_of_le hk hk') hs

theorem forest_empty : OrgStruct.empty.Forest :=
  ⟨sound_empty, fun x hx => (by cases hx), fun x hx => (by cases hx)⟩

theorem forest_relink {s : OrgStruct} (hf : s.Forest) {e m : Nat} (he : e ∈ s.employees)
    (hm : m ∈ s.employees) (hguard : ¬ s.Reaches m e) : (s.relink e m).Forest :=
  ⟨sound_relink hf.1 he hm, managersTracked_relink hf.1.1 hf.2.1 he hm,
    acyclic_relink hf he hm hguard⟩

theorem forest_removeState {s : OrgStruct} (hf : s.Forest) {e : Nat}
    (he : e ∈ s.employees) : (s.removeState e).Forest :=
  ⟨sound_removeState hf.1 he,
    managersTracked_removeState hf.1 hf.2.1 he (fun h => hf.2.2.manager_ne he h rfl),
    acyclic_removeState hf he⟩

theorem forest_add {s : OrgStruct} (hf : s.Forest) (id : Nat) (name : String)
    (managerId : Option Nat) : (stateOf (s.add id name managerId)).Forest := by
  rcases stateOf_add_cases s hf.1.1 id name managerId with h | ⟨hid, h⟩ | ⟨m, hid, hm, h⟩
  · rw [h]; exact hf
  · rw [h]
    exact ⟨sound_push_root hf.1 id name hid, managersTracked_push_root hf.1.1 hf.2.1 id name,
      acyclic_push_root hf.1.1 hf.2.2 id name⟩
  · rw [h]
    have hmem := getEmployeeFromId_mem hm
    exact ⟨sound_attach hf.1 id name hmem hid, managersTracked_attach hf.1.1 hf.2.1 id name hmem,
      acyclic_attach hf.1.1 hf.2.2 id name hmem⟩

/-- Every registry state reached with guarded moves is a forest. -/
theorem ReachableGuarded.forest {s : OrgStruct} (h : s.ReachableGuarded) : s.Forest := by
  induction h with
  | empty => exact forest_empty
  | add s id name managerId _ ih => exact forest_add ih id name managerId
  | move s a b _ hguard ih =>
    rcases stateOf_move_cases s a b with h' | ⟨e, m, he, hm, h'⟩
    · rw [h']; exact ih
    · rw [h']
      exact forest_relink ih (getEmployeeFromId_mem he) (getEmployeeFromId_mem hm)
        (hguard e m he hm)
  | remove s a _ ih =>
    rcases stateOf_remove_cases s a with h' | ⟨e, he, h'⟩
    · rw [h']; exact ih
    · rw [h']; exact forest_removeState ih (getEmployeeFromId_mem he)

/-- In a forest `countReports` of a tracked id returns the number of nodes below it, for
every recursion budget of at least the size of the store. -/
theorem countReports_of_forest {s : OrgStruct} (hf : s.Forest) {employeeId e : Nat}
    (he : s.getEmployeeFromId (some employeeId) = .ok e) {fuel : Nat}
    (hfuel : s.heap.length ≤ fuel) :
    s.countReports fuel employeeId = some (.ok (s.descendantCount e) s) := by
  have hemem := getEmployeeFromId_mem he
  have hce := hf.allChainsEnd
  have hhelper := recursiveCountHelper_eq hf.1.1 hf.1.2.1 hf.managerListsNode hf.1.2.2.1
    hf.2.2 fuel e hemem
    (fun x hx k hk => by
      by_contra hlt
      have := ancestor_none_mono s (hce x hx) (by omega : s.heap.length ≤ k)
      rw [hk] at this
      cases this)
  simp only [countReports, he, hhelper, subtreeSize_eq_succ hf.1.2.1 hemem, Nat.add_sub_cancel]

/-! ### The counts after a guarded `move` -/

theorem ancestor_sub {s : OrgStruct} {x a b j k : Nat} (hj : s.ancestor j x = some a)
    (hk : s.ancestor k x = some b) (hjk : j ≤ k) : s.ancestor (k - j) a = some b := by
  obtain ⟨d, rfl⟩ := Nat.exists_eq_add_of_le hjk
  rw [ancestor_add, hj] at hk
  rw [Nat.add_sub_cancel_left]
  exact hk

/-- After a guarded `move(e, m)` the nodes at or below `e` are the same as before. -/
theorem reaches_relink_employee {s : OrgStruct} (hf : s.Forest) {e m : Nat}
    (he : e ∈ s.employees) (hm : m ∈ s.employees) (hguard : ¬ s.Reaches m e) {x : Nat}
    (hx : x ∈ s.employees) : (s.relink e m).Reaches x e ↔ s.Reaches x e := by
  have helt := hf.1.1.tracked_lt he
  have hft := forest_relink hf he hm hguard
  have hagree : ∀ r, r ≠ e → ((s.relink e m).get r).manager = (s.get r).manager :=
    fun r hr => by rw [manager_relink s e m r helt, if_neg hr]
  have hx' : x ∈ (s.relink e m).employees := by rw [relink_employees]; exact hx
  rw [reaches_iff hft.allChainsEnd hx', reaches_iff hf.allChainsEnd hx]
  constructor
  · rintro ⟨k, hk⟩
    obtain ⟨i, _, hi⟩ := hits_of_hits s _ e hagree hk
    exact ⟨i, hi⟩
  · rintro ⟨k, hk⟩
    obtain ⟨i, _, hi⟩ := hits_of_hits _ s e (fun r hr => (hagree r hr).symm) hk
    exact ⟨i, hi⟩

/-- After a guarded `move(e, m)` between unrelated nodes, the nodes at or below `m` are
those that were at or below `m` and those that were at or below `e`. -/
theorem reaches_relink_manager {s : OrgStruct} (hf : s.Forest) {e m : Nat}
    (he : e ∈ s.employees) (hm : m ∈ s.employees) (hguard : ¬ s.Reaches m e)
    (hguard' : ¬ s.Reaches e m) {x : Nat} (hx : x ∈ s.employees) :
    (s.relink e m).Reaches x m ↔ (s.Reaches x m ∨ s.Reaches x e) := by
  have helt := hf.1.1.tracked_lt he
  have hft := forest_relink hf he hm hguard
  have hagree : ∀ r, r ≠ e → ((s.relink e m).get r).manager = (s.get r).manager :=
    fun r hr => by rw [manager_relink s e m r helt, if_neg hr]
  have hx' : x ∈ (s.relink e m).employees := by rw [relink_employees]; exact hx
  rw [reaches_iff hft.allChainsEnd hx', reaches_iff hf.allChainsEnd hx, reaches_iff hf.allChainsEnd hx]
  constructor
  · rintro ⟨k, hk⟩
    by_cases havoid : ∀ j, j < k → s.ancestor j x ≠ some e
    · rw [ancestor_eq_of_avoid s _ e hagree x k havoid] at hk
      exact Or.inl ⟨k, hk⟩
    · push_neg at havoid
      obtain ⟨j, _, hje⟩ := havoid
      exact Or.inr ⟨j, hje⟩
  · rintro (⟨k, hk⟩ | ⟨j, hj⟩)
    · by_cases havoid : ∀ j, j < k → s.ancestor j x ≠ some e
      · exact ⟨k, by rw [ancestor_eq_of_avoid s _ e hagree x k havoid]; exact hk⟩
      · push_neg at havoid
        obtain ⟨j, hjk, hje⟩ := havoid
        exact absurd (reaches_of_ancestor hf.allChainsEnd he
          (ancestor_sub hje hk (Nat.le_of_lt hjk))) hguard'
    · obtain ⟨i, _, hi⟩ := hits_of_hits _ s e (fun r hr => (hagree r hr).symm) hj
      refine ⟨i + 1, ?_⟩
      rw [ancestor_succ_last, hi]
      show ((s.relink e m).get e).manager = some m
      rw [manager_relink s e m e helt, if_pos rfl]

theorem subtreeSize_relink_employee {s : OrgStruct} (hf : s.Forest) {e m : Nat}
    (he : e ∈ s.employees) (hm : m ∈ s.employees) (hguard : ¬ s.Reaches m e) :
    (s.relink e m).subtreeSize e = s.subtreeSize e := by
  unfold subtreeSize
  rw [relink_employees]
  apply List.countP_congr
  intro x hx
  simp only [decide_eq_true_eq]
  exact reaches_relink_employee hf he hm hguard hx

theorem subtreeSize_relink_manager {s : OrgStruct} (hf : s.Forest) {e m : Nat}
    (he : e ∈ s.employees) (hm : m ∈ s.employees) (hguard : ¬ s.Reaches m e)
    (hguard' : ¬ s.Reaches e m) :
    (s.relink e m).subtreeSize m = s.subtreeSize m + s.subtreeSize e := by
  have hcongr : (s.relink e m).subtreeSize m = s.employees.countP
      (fun x => decide (s.Reaches x m) || decide (s.Reaches x e)) := by
    unfold subtreeSize
    rw [relink_employees]
    apply List.countP_congr
    intro x hx
    simp only [decide_eq_true_eq, Bool.or_eq_true]
    exact reaches_relink_manager hf he hm hguard hguard' hx
  rw [hcongr, countP_or_of_disjoint (fun x => decide (s.Reaches x m))
    (fun x => decide (s.Reaches x e))]
  · rfl
  · rintro x hx ⟨h1, h2⟩
    simp only [decide_eq_true_eq] at h1 h2
    obtain ⟨k, hk⟩ := (reaches_iff hf.allChainsEnd hx m).1 h1
    obtain ⟨j, hj⟩ := (reaches_iff hf.allChainsEnd hx e).1 h2
    rcases Nat.le_total k j with hkj | hjk
    · exact hguard (reaches_of_ancestor hf.allChainsEnd hm (ancestor_sub hk hj hkj))
    · exact hguard' (reaches_of_ancestor hf.allChainsEnd he (ancestor_sub hj hk hjk))

theorem getEmployeeFromId_relink (s : OrgStruct) (e m : Nat) (i : Option Nat) :
    (s.relink e m).getEmployeeFromId i = s.getEmployeeFromId i :=
  getEmployeeFromId_congr (relink_employees s e m) (fun r => id_relink s e m r) i

/-! ### Printing refines the pre-order listing -/

theorem foldl_none_stays {α β : Type} (step : Option α → β → Option α)
    (hstep : ∀ b, step none b = none) (L : List β) : L.foldl step none = none := by
  induction L with
  | nil => rfl
  | cons b L ih => rw [List.foldl_cons, hstep, ih]

theorem printLoop_eq (s : OrgStruct) (f : Nat → List String → Option (List String))
    (g : Nat → Option (List (Nat × Nat)))
    (h : ∀ r out, f r out = (g r).map (fun L => out ++ L.map (fun p => s.specLine p.1 p.2))) :
    ∀ (L : List Nat) (console : List String),
      Employee.printLoop f L console =
        (preorderAll g L).map (fun M => console ++ M.map (fun p => s.specLine p.1 p.2)) := by
  intro L
  induction L with
  | nil => intro console; simp [Employee.printLoop, preorderAll]
  | cons c cs ih =>
    intro console
    have hunfold : Employee.printLoop f (c :: cs) console =
        match f c console with
        | none => none
        | some out => Employee.printLoop f cs out := by
      unfold Employee.printLoop
      rw [List.foldl_cons]
      show List.foldl _ (f c console) cs = _
      cases f c console with
      | none =>
        apply foldl_none_stays
        intro b
        rfl
      | some out => rfl
    rw [hunfold, h c console]
    cases hc : g c with
    | none => simp [preorderAll, hc]
    | some a =>
      simp only [Option.map_some']
      rw [ih]
      cases hcs : preorderAll g cs with
      | none => simp [preorderAll, hc, hcs]
      | some b => simp [preorderAll, hc, hcs, List.append_assoc]

/-- Method `print(numSpaces)` of an employee at depth `d`, called with `2 * d` blanks,
appends to the console the lines of the pre-order listing of its subtree. -/
theorem employee_print_eq (s : OrgStruct) (fuel : Nat) :
    ∀ (d e : Nat) (console : List String),
      Employee.print s fuel e (2 * d) console =
        (s.preorder fuel d e).map
          (fun L => console ++ L.map (fun p => s.specLine p.1 p.2)) := by
  induction fuel with
  | zero => intro d e console; rfl
  | succ fuel ih =>
    intro d e console
    simp only [Employee.print, preorder]
    rw [printLoop_eq s _ (s.preorder fuel (d + 1)) (fun r out => by
      rw [show 2 * d + 2 = 2 * (d + 1) by omega]; exact ih (d + 1) r out)]
    cases preorderAll (s.preorder fuel (d + 1)) (s.get e).reports with
    | none => rfl
    | some below =>
      simp only [Option.map_some', List.map_cons, List.append_assoc, List.singleton_append]
      rfl

/-- Method `print()` of the registry appends to the console exactly the output that the
specification describes, budget for budget. -/
theorem print_eq_specPrint (s : OrgStruct) (fuel : Nat) (console : List String) :
    s.print fuel console = (s.specPrint fuel).map (fun lines => console ++ lines) := by
  have key : ∀ (E : List Nat) (console : List String),
      E.foldl
        (fun acc employee =>
          match acc with
          | none => none
          | some out =>
            if (s.get employee).manager = none then Employee.print s fuel employee 0 out
            else some out)
        (some console) =
      (preorderAll (s.preorder fuel 0)
        (E.filter (fun r => decide ((s.get r).manager = none)))).map
        (fun M => console ++ M.map (fun p => s.specLine p.1 p.2)) := by
    intro E
    induction E with
    | nil => intro console; simp [preorderAll]
    | cons r E ih =>
      intro console
      rw [List.foldl_cons]
      by_cases hroot : (s.get r).manager = none
      · simp only [hroot, if_true, List.filter_cons, decide_True]
        have := employee_print_eq s fuel 0 r console
        rw [Nat.mul_zero] at this
        rw [this]
        cases hc : s.preorder fuel 0 r with
        | none =>
          simp only [Option.map_none', preorderAll, hc]
          apply foldl_none_stays
          intro b
          rfl
        | some a =>
          simp only [Option.map_some']
          rw [ih]
          cases hcs : preorderAll (s.preorder fuel 0)
              (E.filter (fun r => decide ((s.get r).manager = none))) with
          | none => simp [preorderAll, hc, hcs]
          | some b => simp [preorderAll, hc, hcs, List.append_assoc]
      · simp only [hroot, if_false, List.filter_cons, decide_False]
        exact ih console
  unfold print specPrint forestListing roots
  rw [key]
  cases preorderAll (s.preorder fuel 0)
      (s.employees.filter (fun r => decide ((s.get r).manager = none))) with
  | none => rfl
  | some visits => rfl

/-! ### In a forest the pre-order listing visits every tracked node exactly once -/

theorem preorderAll_spec (g : Nat → Option (List (Nat × Nat))) (S : Nat → Nat → Prop)
    (R : List Nat) (hR : R.Nodup)
    (hg : ∀ c ∈ R, ∃ L, g c = some L ∧ (L.map Prod.snd).Nodup ∧
      ∀ x, x ∈ L.map Prod.snd ↔ S c x)
    (hdisj : ∀ c ∈ R, ∀ c' ∈ R, c ≠ c' → ∀ x, ¬ (S c x ∧ S c' x)) :
    ∃ M, preorderAll g R = some M ∧ (M.map Prod.snd).Nodup ∧
      ∀ x, x ∈ M.map Prod.snd ↔ ∃ c ∈ R, S c x := by
  induction R with
  | nil => exact ⟨[], rfl, List.nodup_nil, fun x => by simp⟩
  | cons c cs ih =>
    rw [List.nodup_cons] at hR
    obtain ⟨L, hL, hLn, hLm⟩ := hg c (List.mem_cons_self _ _)
    obtain ⟨M, hM, hMn, hMm⟩ := ih hR.2
      (fun c' hc' => hg c' (List.mem_cons_of_mem _ hc'))
      (fun a ha b hb => hdisj a (List.mem_cons_of_mem _ ha) b (List.mem_cons_of_mem _ hb))
    refine ⟨L ++ M, by simp only [preorderAll, hL, hM], ?_, ?_⟩
    · rw [List.map_append, List.nodup_append]
      refine ⟨hLn, hMn, ?_⟩
      intro x hxL hxM
      obtain ⟨c', hc', hS⟩ := (hMm x).1 hxM
      have hne : c ≠ c' := fun h => hR.1 (h ▸ hc')
      exact hdisj c (List.mem_cons_self _ _) c' (List.mem_cons_of_mem _ hc') hne x
        ⟨(hLm x).1 hxL, hS⟩
    · intro x
      rw [List.map_append, List.mem_append, hLm x, hMm x]
      constructor
      · rintro (h | ⟨c', hc', h⟩)
        · exact ⟨c, List.mem_cons_self _ _, h⟩
        · exact ⟨c', List.mem_cons_of_mem _ hc', h⟩
      · rintro ⟨c', hc', h⟩
        rcases List.mem_cons.mp hc' with rfl | hc'
        · exact Or.inl h
        · exact Or.inr ⟨c', hc', h⟩

/-- The nodes at or below `e` are `e` and the nodes at or below a report of `e`. -/
theorem reaches_iff_self_or_report {s : OrgStruct} (hf : s.Forest) {e x : Nat}
    (he : e ∈ s.employees) (hx : x ∈ s.employees) :
    s.Reaches x e ↔ x = e ∨ ∃ c ∈ (s.get e).reports, s.Reaches x c := by
  have hce := hf.allChainsEnd
  have h2 := hf.managerListsNode
  have hmir := hf.1.2.2.1
  constructor
  · intro hr
    obtain ⟨k, hk⟩ := (reaches_iff hce hx e).1 hr
    cases k with
    | zero => left; simpa [ancestor] using hk
    | succ k =>
      right
      rw [ancestor_succ_last] at hk
      cases hkx : s.ancestor k x with
      | none => rw [hkx] at hk; cases hk
      | some c =>
        rw [hkx] at hk
        have hc : c ∈ s.employees := ancestor_tracked h2 hx hkx
        have hmem : c ∈ (s.get e).reports :=
          List.count_pos_iff.mp (by
            rw [(h2 c hc e (by simpa using hk)).2]; exact Nat.one_pos)
        exact ⟨c, hmem, reaches_of_ancestor hce hx hkx⟩
  · rintro (rfl | ⟨c, hc, hr⟩)
    · exact reaches_of_ancestor hce hx (show s.ancestor 0 x = some x from rfl)
    · obtain ⟨k, hk⟩ := (reaches_iff hce hx c).1 hr
      refine reaches_of_ancestor hce hx (show s.ancestor (k + 1) x = some e from ?_)
      rw [ancestor_succ_last, hk]
      exact (hmir e he c hc).2

theorem preorder_spec {s : OrgStruct} (hf : s.Forest) (fuel : Nat) :
    ∀ d e, e ∈ s.employees →
      (∀ x ∈ s.employees, ∀ k, s.ancestor k x = some e → k < fuel) →
      ∃ L, s.preorder fuel d e = some L ∧ (L.map Prod.snd).Nodup ∧
        ∀ x, x ∈ L.map Prod.snd ↔ (x ∈ s.employees ∧ s.Reaches x e) := by
  have hce := hf.allChainsEnd
  have h2 := hf.managerListsNode
  have hmir := hf.1.2.2.1
  induction fuel with
  | zero =>
    intro d e he hbound
    exact absurd (hbound e he 0 rfl) (Nat.lt_irrefl 0)
  | succ fuel ih =>
    intro d e he hbound
    obtain ⟨M, hM, hMn, hMm⟩ := preorderAll_spec (s.preorder fuel (d + 1))
      (fun c x => x ∈ s.employees ∧ s.Reaches x c) (s.get e).reports
      (reports_nodup h2 hmir he)
      (fun c hc => by
        have hcm := hmir e he c hc
        refine ih (d + 1) c hcm.1 ?_
        intro x hx k hk
        have : s.ancestor (k + 1) x = some e := by
          rw [ancestor_succ_last, hk]; exact hcm.2
        exact Nat.lt_of_succ_lt_succ (hbound x hx (k + 1) this))
      (fun c hc c' hc' hne x hboth => by
        obtain ⟨j, hj⟩ := (reaches_iff hce hboth.1.1 c).1 hboth.1.2
        obtain ⟨j', hj'⟩ := (reaches_iff hce hboth.1.1 c').1 hboth.2.2
        exact hne (hf.2.2.reports_disjoint he (hmir e he c hc).2 (hmir e he c' hc').2 hj hj'))
    refine ⟨(d, e) :: M, by simp only [preorder, hM], ?_, ?_⟩
    · rw [List.map_cons, List.nodup_cons]
      refine ⟨?_, hMn⟩
      intro hmem
      obtain ⟨c, hc, _, hr⟩ := (hMm e).1 hmem
      obtain ⟨k, hk⟩ := (reaches_iff hce he c).1 hr
      exact hf.2.2.not_ancestor_of_report he (hmir e he c hc).2 hk
    · intro x
      rw [List.map_cons, List.mem_cons, hMm x]
      constructor
      · rintro (rfl | ⟨c, hc, hx, hr⟩)
        · exact ⟨he, (reaches_iff_self_or_report hf he he).2 (Or.inl rfl)⟩
        · exact ⟨hx, (reaches_iff_self_or_report hf he hx).2 (Or.inr ⟨c, hc, hr⟩)⟩
      · rintro ⟨hx, hr⟩
        rcases (reaches_iff_self_or_report hf he hx).1 hr with h | ⟨c, hc, h⟩
        · exact Or.inl h
        · exact Or.inr ⟨c, hc, hx, h⟩

/-- Every tracked node of a forest lies at or below a root. -/
theorem exists_root {s : OrgStruct} (hf : s.Forest) {x : Nat} (hx : x ∈ s.employees) :
    ∃ r ∈ s.roots, s.Reaches x r := by
  have hce := hf.allChainsEnd
  have key : ∀ n, s.ancestor n x = none →
      ∃ k r, s.ancestor k x = some r ∧ (s.get r).manager = none := by
    intro n
    induction n with
    | zero => intro h; simp [ancestor] at h
    | succ n ih =>
      intro h
      cases hn : s.ancestor n x with
      | none => exact ih hn
      | some r =>
        rw [ancestor_succ_last, hn] at h
        exact ⟨n, r, hn, h⟩
  obtain ⟨k, r, hk, hroot⟩ := key _ (hce x hx)
  refine ⟨r, ?_, reaches_of_ancestor hce hx hk⟩
  unfold roots
  rw [List.mem_filter]
  exact ⟨ancestor_tracked hf.managerListsNode hx hk, by simpa using hroot⟩

theorem ancestor_of_root {s : OrgStruct} {r : Nat} (hroot : (s.get r).manager = none)
    {k y : Nat} (h : s.ancestor k r = some y) : y = r := by
  cases k with
  | zero => simpa [ancestor] using h.symm
  | succ k => simp [ancestor, hroot] at h

/-- In a forest the listing of the whole registry exists for every recursion budget of at
least the size of the store, and visits every tracked node exactly once. -/
theorem forestListing_spec {s : OrgStruct} (hf : s.Forest) {fuel : Nat}
    (hfuel : s.heap.length ≤ fuel) :
    ∃ V, s.forestListing fuel = some V ∧ (V.map Prod.snd).Perm s.employees := by
  have hce := hf.allChainsEnd
  have hnodup := employees_nodup hf.1.2.1
  have hrootmem : ∀ r, r ∈ s.roots → r ∈ s.employees ∧ (s.get r).manager = none := by
    intro r hr
    unfold roots at hr
    rw [List.mem_filter] at hr
    exact ⟨hr.1, by simpa using hr.2⟩
  obtain ⟨V, hV, hVn, hVm⟩ := preorderAll_spec (s.preorder fuel 0)
    (fun c x => x ∈ s.employees ∧ s.Reaches x c) s.roots
    (List.Nodup.filter _ hnodup)
    (fun r hr => preorder_spec hf fuel 0 r (hrootmem r hr).1 (fun x hx k hk => by
      by_contra hlt
      have := ancestor_none_mono s (hce x hx) (by omega : s.heap.length ≤ k)
      rw [hk] at this
      cases this))
    (fun r hr r' hr' hne x hboth => by
      obtain ⟨j, hj⟩ := (reaches_iff hce hboth.1.1 r).1 hboth.1.2
      obtain ⟨j', hj'⟩ := (reaches_iff hce hboth.1.1 r').1 hboth.2.2
      rcases Nat.le_total j j' with h | h
      · exact hne (ancestor_of_root (hrootmem r hr).2 (ancestor_sub hj hj' h)).symm
      · exact hne (ancestor_of_root (hrootmem r' hr').2 (ancestor_sub hj' hj h)))
  refine ⟨V, hV, (List.perm_ext_iff_of_nodup hVn hnodup).2 (fun x => ?_)⟩
  rw [hVm x]
  constructor
  · rintro ⟨_, _, hx, _⟩; exact hx
  · intro hx
    obtain ⟨r, hr, hreach⟩ := exists_root hf hx
    exact ⟨r, hr, hx, hreach⟩

/-! ### Different ids give different lines -/

theorem digitVal_digitChar (k : Nat) (hk : k < 10) : (Nat.digitChar k).toNat - 48 = k := by
  interval_cases k <;> rfl

theorem digitChar_ne_bracket (k : Nat) (hk : k < 10) : Nat.digitChar k ≠ '[' := by
  interval_cases k <;> decide

theorem toDigitsCore_mem (fuel : Nat) : ∀ (n : Nat) (ds : List Char) (c : Char),
    c ∈ Nat.toDigitsCore 10 fuel n ds → c ∈ ds ∨ ∃ k, k < 10 ∧ c = Nat.digitChar k := by
  induction fuel with
  | zero => intro n ds c h; exact Or.inl h
  | succ fuel ih =>
    intro n ds c h
    simp only [Nat.toDigitsCore] at h
    split at h
    · rcases List.mem_cons.mp h with h | h
      · exact Or.inr ⟨n % 10, Nat.mod_lt _ (by decide), h⟩
      · exact Or.inl h
    · rcases ih _ _ c h with h | h
      · rcases List.mem_cons.mp h with h | h
        · exact Or.inr ⟨n % 10, Nat.mod_lt _ (by decide), h⟩
        · exact Or.inl h
      · exact Or.inr h

theorem toDigitsCore_value (fuel : Nat) : ∀ (n : Nat), n < fuel →
    ∃ p, ∀ (a : Nat) (ds : List Char),
      (Nat.toDigitsCore 10 fuel n ds).foldl (fun acc c => 10 * acc + (c.toNat - 48)) a =
        ds.foldl (fun acc c => 10 * acc + (c.toNat - 48)) (a * p + n) := by
  induction fuel with
  | zero => intro n hn; omega
  | succ fuel ih =>
    intro n hn
    by_cases h0 : n / 10 = 0
    · refine ⟨10, fun a ds => ?_⟩
      simp only [Nat.toDigitsCore, h0, if_true, List.foldl_cons]
      have hlt : n < 10 := by omega
      rw [digitVal_digitChar _ (Nat.mod_lt _ (by decide)), Nat.mod_eq_of_lt hlt, Nat.mul_comm]
    · obtain ⟨p, hp⟩ := ih (n / 10) (by omega)
      refine ⟨10 * p, fun a ds => ?_⟩
      simp only [Nat.toDigitsCore, h0, if_false]
      rw [hp a, List.foldl_cons, digitVal_digitChar _ (Nat.mod_lt _ (by decide))]
      congr 1
      have := Nat.div_add_mod n 10
      have e : 10 * (a * p + n / 10) = a * (10 * p) + 10 * (n / 10) := by ring
      omega

theorem toDigits_injective {n m : Nat} (h : Nat.toDigits 10 n = Nat.toDigits 10 m) : n = m := by
  obtain ⟨p, hp⟩ := toDigitsCore_value (n + 1) n (Nat.lt_succ_self n)
  obtain ⟨q, hq⟩ := toDigitsCore_value (m + 1) m (Nat.lt_succ_self m)
  have h1 := hp 0 []
  have h2 := hq 0 []
  unfold Nat.toDigits at h
  rw [h] at h1
  rw [h1] at h2
  simpa using h2

theorem append_cons_inj_left {α : Type} (a : α) : ∀ (l1 l2 r1 r2 : List α),
    a ∉ l1 → a ∉ l2 → l1 ++ a :: r1 = l2 ++ a :: r2 → l1 = l2 := by
  intro l1
  induction l1 with
  | nil =>
    intro l2 r1 r2 _ h2 h
    cases l2 with
    | nil => rfl
    | cons b l2 =>
      simp only [List.nil_append, List.cons_append, List.cons.injEq] at h
      exact absurd (h.1 ▸ List.mem_cons_self _ _) h2
  | cons b l1 ih =>
    intro l2 r1 r2 h1 h2 h
    cases l2 with
    | nil =>
      simp only [List.nil_append, List.cons_append, List.cons.injEq] at h
      exact absurd (h.1 ▸ List.mem_cons_self _ _) h1
    | cons c l2 =>
      simp only [List.cons_append, List.cons.injEq] at h
      rw [h.1, ih l2 r1 r2 (fun hm => h1 (List.mem_cons_of_mem _ hm))
        (fun hm => h2 (List.mem_cons_of_mem _ hm)) h.2]

theorem toDigits_no_bracket (n : Nat) : '[' ∉ Nat.toDigits 10 n := by
  intro h
  rcases toDigitsCore_mem _ _ _ _ h with h | ⟨k, hk, h⟩
  · cases h
  · exact digitChar_ne_bracket k hk h.symm

/-- The line of a node determines its id. -/
theorem specLine_id_inj (s : OrgStruct) {d d' r r' : Nat}
    (h : s.specLine d r = s.specLine d' r') : (s.get r).id = (s.get r').id := by
  have hdata := congrArg (fun t => t.data.reverse) h
  have hd : ∀ n : Nat, (toString n).data = Nat.toDigits 10 n := fun _ => rfl
  simp only [specLine, String.data_append, List.reverse_append, hd] at hdata
  have hb : ("]" : String).data.reverse = [']'] := rfl
  have hs : (" [" : String).data.reverse = ['[', ' '] := rfl
  rw [hb, hs] at hdata
  simp only [List.singleton_append, List.cons_append, List.append_assoc, List.nil_append,
    List.cons.injEq, true_and] at hdata
  have := append_cons_inj_left '[' _ _ _ _
    (fun hm => toDigits_no_bracket _ (List.mem_reverse.mp hm))
    (fun hm => toDigits_no_bracket _ (List.mem_reverse.mp hm)) hdata
  exact toDigits_injective (List.reverse_injective this)

/-! ### A registry without roots -/

/-- After `move(1, 4)` on the three-node chain every tracked employee has a manager, so
`print()` finds no root and logs nothing, whatever the recursion budget. -/
theorem print_without_roots (fuel : Nat) :
    (stateOf (chain3.move 1 4)).print fuel [] = some [] := rfl

/-! ### The test registries are reachable -/

theorem chain3_reachable : chain3.Reachable :=
  Reachable.add _ 4 "Ralph" (some 3)
    (Reachable.add _ 3 "Tim" (some 1) (Reachable.add _ 1 "Bob" none Reachable.empty))

theorem chain3Kevin_reachable : chain3Kevin.Reachable :=
  Reachable.add _ 2 "Kevin" none chain3_reachable

end OrgChart.OrgStruct

/-! ## The claims -/

namespace OrgChart.OrgStruct

/-- C1: `add` with an id that is already tracked throws `DuplicateId` for every name and
every `managerId`, and leaves the whole store (the `employees` array and every object's
manager link and reports list) exactly as it was. -/
theorem add_duplicate_fails (s : OrgStruct) (id : Nat) (name : String)
    (managerId : Option Nat) (h : s.Tracked id) :
    s.add id name managerId = .error .DuplicateId s := by
  obtain ⟨r, hr, hid⟩ := h
  have : s.employees.any (fun employee => (s.get employee).id == id) = true := by
    rw [List.any_eq_true]
    exact ⟨r, hr, by simpa using hid⟩
  simp [add, this]

/-- Witness for C1: adding id 3 again to the three-node chain. -/
theorem add_duplicate_fails_witness :
    chain3.Tracked 3 ∧ chain3.add 3 "Tom" (some 4) = .error .DuplicateId chain3 :=
  ⟨by decide, add_duplicate_fails chain3 3 "Tom" (some 4) (by decide)⟩

/-- C2: `add` with an unused id and a `managerId` that is `null`, is the new id itself,
or resolves to no tracked node returns normally; the new store is the old one with one
new object, appended at the end of `employees`, carrying the given id and name, no
manager and no reports; every previously tracked node is unchanged. -/
theorem add_without_manager (s : OrgStruct) (id : Nat) (name : String)
    (managerId : Option Nat) (hwf : s.WF) (hid : ¬ s.Tracked id)
    (hm : managerId = none ∨ managerId = some id ∨
      s.getEmployeeFromId managerId = .error .NotFound) :
    ∃ s', s.add id name managerId = .ok () s' ∧
      s'.employees = s.employees ++ [s.heap.length] ∧
      s.heap.length ∉ s.employees ∧
      s'.get s.heap.length = ⟨id, name, none, []⟩ ∧
      s'.heap.length = s.heap.length + 1 ∧
      ∀ r, r < s.heap.length → s'.get r = s.get r := by
  have hlook : s.getEmployeeFromId managerId = .error .NotFound := by
    rcases hm with rfl | rfl | hm
    · exact getEmployeeFromId_of_untracked (by simp)
    · exact getEmployeeFromId_of_untracked
        (fun r hr hEq => hid ⟨r, hr, (Option.some.inj hEq).symm⟩)
    · exact hm
  refine ⟨s.push ⟨id, name, none, []⟩, ?_, rfl, ?_, get_push_new _ _, ?_, ?_⟩
  · simp [add, idCheck_eq_false hid, hlook]
  · exact fun hmem => Nat.lt_irrefl _ (hwf.1 _ hmem)
  · simp [push]
  · exact fun r hr => get_push_lt s _ r hr

/-- Witness for C2: a fourth employee whose manager id 9 is unknown. -/
theorem add_without_manager_witness :
    chain3.WF ∧ ¬ chain3.Tracked 7 ∧
    ∃ s', chain3.add 7 "Ann" (some 9) = .ok () s' ∧
      s'.employees = chain3.employees ++ [chain3.heap.length] ∧
      chain3.heap.length ∉ chain3.employees ∧
      s'.get chain3.heap.length = ⟨7, "Ann", none, []⟩ ∧
      s'.heap.length = chain3.heap.length + 1 ∧
      ∀ r, r < chain3.heap.length → s'.get r = chain3.get r :=
  ⟨by decide, by decide,
    add_without_manager chain3 7 "Ann" (some 9) (by decide) (by decide)
      (Or.inr (Or.inr rfl))⟩

/-- C3: `add` with an unused id and a `managerId` that resolves to the tracked node `m`
returns normally; the new object is appended to `employees`, its manager is `m`, the
reports of `m` are the old ones followed by the new node (which occurs there exactly
once), and every other object keeps its manager link and reports list (`m` keeps its
manager link as well). -/
theorem add_under_manager (s : OrgStruct) (id : Nat) (name : String)
    (managerId : Option Nat) (m : Nat) (hwf : s.WF) (hid : ¬ s.Tracked id)
    (hm : s.getEmployeeFromId managerId = .ok m) :
    ∃ s', s.add id name managerId = .ok () s' ∧
      s'.employees = s.employees ++ [s.heap.length] ∧
      s.heap.length ∉ s.employees ∧
      s'.heap.length = s.heap.length + 1 ∧
      s'.get s.heap.length = ⟨id, name, some m, []⟩ ∧
      (s'.get m).reports = (s.get m).reports ++ [s.heap.length] ∧
      (s'.get m).reports.count s.heap.length = 1 ∧
      (s'.get m).manager = (s.get m).manager ∧
      ∀ r, r < s.heap.length → r ≠ m → s'.get r = s.get r := by
  have hmlt : m < s.heap.length := hwf.tracked_lt (getEmployeeFromId_ok hm).1
  have hne : m ≠ s.heap.length := Nat.ne_of_lt hmlt
  have hnew := getEmployeeFromId_push_new hwf ⟨id, name, some m, []⟩ hid
  have hmlt' : m < (s.push ⟨id, name, some m, []⟩).heap.length := by
    have : (s.push ⟨id, name, some m, []⟩).heap.length = s.heap.length + 1 := by simp [push]
    omega
  have hgetm : ((s.push ⟨id, name, some m, []⟩).update m
      (fun x => x.addReport s.heap.length)).get m = (s.get m).addReport s.heap.length := by
    rw [get_update_self _ _ _ hmlt', get_push_lt _ _ _ hmlt]
  refine ⟨(s.push ⟨id, name, some m, []⟩).update m (fun x => x.addReport s.heap.length),
    ?_, rfl, ?_, ?_, ?_, ?_, ?_, ?_, ?_⟩
  · simp only [add, idCheck_eq_false hid, hm]
    simp only at hnew
    simp [hnew]
  · exact fun hmem => Nat.lt_irrefl _ (hwf.tracked_lt hmem)
  · simp [push]
  · rw [get_update_ne _ _ _ _ hne, get_push_new]
  · rw [hgetm]; rfl
  · rw [hgetm]
    simp only [Employee.addReport, List.count_append, List.count_singleton_self]
    have : (s.get m).reports.count s.heap.length = 0 :=
      List.count_eq_zero.mpr (fun hmem => Nat.lt_irrefl _ (hwf.reports_lt hmlt hmem))
    omega
  · rw [hgetm]; rfl
  · intro r hr hrm
    rw [get_update_ne _ _ _ _ (Ne.symm hrm), get_push_lt _ _ _ hr]

/-- Witness for C3: a new employee under Tim (id 3) in the three-node chain. -/
theorem add_under_manager_witness :
    chain3.WF ∧ ¬ chain3.Tracked 7 ∧ chain3.getEmployeeFromId (some 3) = .ok 1 ∧
    ∃ s', chain3.add 7 "Ann" (some 3) = .ok () s' ∧
      s'.employees = chain3.employees ++ [chain3.heap.length] ∧
      chain3.heap.length ∉ chain3.employees ∧
      s'.heap.length = chain3.heap.length + 1 ∧
      s'.get chain3.heap.length = ⟨7, "Ann", some 1, []⟩ ∧
      (s'.get 1).reports = (chain3.get 1).reports ++ [chain3.heap.length] ∧
      (s'.get 1).reports.count chain3.heap.length = 1 ∧
      (s'.get 1).manager = (chain3.get 1).manager ∧
      ∀ r, r < chain3.heap.length → r ≠ 1 → s'.get r = chain3.get r :=
  ⟨by decide, by decide, rfl,
    add_under_manager chain3 7 "Ann" (some 3) 1 (by decide) (by decide) rfl⟩

/-- C4: `move` with two ids that resolve to the tracked nodes `e` and `m` returns
normally; afterwards the manager of `e` is `m` and `e` is the last entry of the reports
of `m`; the `employees` array is unchanged, and every object other than `e`, the prior
manager of `e` and `m` is unchanged. -/
theorem move_reparents (s : OrgStruct) (employeeId newManagerId : Nat) (e m : Nat)
    (hwf : s.WF) (he : s.getEmployeeFromId (some employeeId) = .ok e)
    (hm : s.getEmployeeFromId (some newManagerId) = .ok m) :
    ∃ s', s.move employeeId newManagerId = .ok () s' ∧
      (s'.get e).manager = some m ∧
      (s'.get m).reports.getLast? = some e ∧
      s'.employees = s.employees ∧
      s'.heap.length = s.heap.length ∧
      ∀ r, r ≠ e → r ≠ m → (s.get e).manager ≠ some r → s'.get r = s.get r := by
  have helt : e < s.heap.length := hwf.tracked_lt (getEmployeeFromId_ok he).1
  have hmlt : m < s.heap.length := hwf.tracked_lt (getEmployeeFromId_ok hm).1
  refine ⟨((s.detach e).update e fun x => x.setManager (some m)).update m
      fun x => x.addReport e, by simp only [move, he, hm], ?_, ?_, ?_, ?_, ?_⟩
  · rw [get_update _ _ _ _ (by simpa using hmlt)]
    split
    · next h =>
      subst h
      rw [get_update_self _ _ _ (by simpa using hmlt)]
      rfl
    · rw [get_update_self _ _ _ (by simpa using helt)]
      rfl
  · rw [get_update_self _ _ _ (by simpa using hmlt)]
    simp [Employee.addReport]
  · simp
  · simp
  · intro r hre hrm hrp
    rw [get_update_ne _ _ _ _ (Ne.symm hrm), get_update_ne _ _ _ _ (Ne.symm hre)]
    exact get_detach_ne s e r hrp

/-- Witness for C4: moving Ralph (id 4) directly under Bob (id 1). -/
theorem move_reparents_witness :
    chain3.WF ∧ chain3.getEmployeeFromId (some 4) = .ok 2 ∧
    chain3.getEmployeeFromId (some 1) = .ok 0 ∧
    ∃ s', chain3.move 4 1 = .ok () s' ∧
      (s'.get 2).manager = some 0 ∧
      (s'.get 0).reports.getLast? = some 2 ∧
      s'.employees = chain3.employees ∧
      s'.heap.length = chain3.heap.length ∧
      ∀ r, r ≠ 2 → r ≠ 0 → (chain3.get 2).manager ≠ some r → s'.get r = chain3.get r :=
  ⟨by decide, rfl, rfl, move_reparents chain3 4 1 2 0 (by decide) rfl rfl⟩

/-- Counterexample for C5 as stated: in the three-node chain Tim (id 3) reports to Bob
(id 1); `move(3, 1)` moves Tim under the manager he already has, and Bob's reports still
contain Tim afterwards.  So "the prior manager no longer lists the node" fails when the
new manager is the prior manager. -/
theorem move_to_same_manager_counterexample :
    ¬ (∀ (s : OrgStruct) (employeeId newManagerId e m p : Nat),
        s.WF → s.UniqueIds → s.ManagerListsNode → s.RootsUnlisted →
        s.getEmployeeFromId (some employeeId) = .ok e →
        s.getEmployeeFromId (some newManagerId) = .ok m →
        (s.get e).manager = some p →
        e ∉ ((stateOf (s.move employeeId newManagerId)).get p).reports) := by
  intro h
  exact h chain3 3 1 1 0 0 (by decide) (by decide) (by decide) (by decide) rfl rfl rfl
    (by decide)

/-- C5 (amended): in a state where every manager lists its node exactly once, if `e` had
a prior manager `p` and the move is to a different node `m ≠ p`, then after `move` the
reports of `p` no longer contain `e`. -/
theorem move_leaves_prior_manager (s : OrgStruct) (employeeId newManagerId e m p : Nat)
    (hwf : s.WF) (h2 : s.ManagerListsNode)
    (he : s.getEmployeeFromId (some employeeId) = .ok e)
    (hm : s.getEmployeeFromId (some newManagerId) = .ok m)
    (hp : (s.get e).manager = some p) (hpm : p ≠ m) :
    ∃ s', s.move employeeId newManagerId = .ok () s' ∧ e ∉ (s'.get p).reports := by
  have hemem := (getEmployeeFromId_ok he).1
  have helt : e < s.heap.length := hwf.tracked_lt hemem
  have hplt : p < s.heap.length := hwf.manager_lt helt hp
  have hcount : (s.get p).reports.count e = 1 := (h2 e hemem p (by simp [hp])).2
  refine ⟨((s.detach e).update e fun x => x.setManager (some m)).update m
      fun x => x.addReport e, by simp only [move, he, hm], ?_⟩
  rw [get_update_ne _ _ _ _ (Ne.symm hpm),
    reports_update (s.detach e) e p (fun x => x.setManager (some m)) (fun _ => rfl),
    get_detach_manager s e p hp hplt]
  intro hmem
  have h0 : ((s.get p).reports.erase e).count e = 0 := by
    rw [List.count_erase_self, hcount]
  exact (List.count_eq_zero.mp h0) hmem

/-- Witness for C5 (amended): moving Ralph (id 4) from Tim to Bob (id 1). -/
theorem move_leaves_prior_manager_witness :
    chain3.WF ∧ chain3.ManagerListsNode ∧ (chain3.get 2).manager = some 1 ∧
    ∃ s', chain3.move 4 1 = .ok () s' ∧ 2 ∉ (s'.get 1).reports :=
  ⟨by decide, by decide, rfl,
    move_leaves_prior_manager chain3 4 1 2 0 1 (by decide) (by decide) rfl rfl rfl
      (by decide)⟩

/-- C6: `move` throws `NotFound` exactly when one of its two ids is not tracked, `remove`
throws `NotFound` exactly when its id is not tracked, `countReports` throws `NotFound`
when its id is not tracked; these methods throw nothing else, and whenever one of them
throws, the store (the `employees` array, every manager link and every reports list) is
the one before the call. -/
theorem notFound_leaves_state (s : OrgStruct) :
    (∀ employeeId newManagerId,
      ((∃ s', s.move employeeId newManagerId = .error .NotFound s') ↔
        (¬ s.Tracked employeeId ∨ ¬ s.Tracked newManagerId)) ∧
      ∀ err s', s.move employeeId newManagerId = .error err s' →
        err = .NotFound ∧ s' = s) ∧
    (∀ employeeId,
      ((∃ s', s.remove employeeId = .error .NotFound s') ↔ ¬ s.Tracked employeeId) ∧
      ∀ err s', s.remove employeeId = .error err s' → err = .NotFound ∧ s' = s) ∧
    (∀ employeeId fuel,
      (¬ s.Tracked employeeId →
        s.countReports fuel employeeId = some (.error .NotFound s)) ∧
      ∀ err s', s.countReports fuel employeeId = some (.error err s') →
        err = .NotFound ∧ s' = s) := by
  refine ⟨fun employeeId newManagerId => ?_, fun employeeId => ?_, fun employeeId fuel => ?_⟩
  · cases he : s.getEmployeeFromId (some employeeId) with
    | error err =>
      have hn := (getEmployeeFromId_error he).1
      have hnt : ¬ s.Tracked employeeId := fun ht => by
        obtain ⟨r, hr⟩ := getEmployeeFromId_of_tracked ht
        rw [he] at hr; cases hr
      subst hn
      refine ⟨⟨fun _ => Or.inl hnt, fun _ => ⟨s, by simp only [move, he]⟩⟩, ?_⟩
      intro err s' h
      simp only [move, he] at h
      cases h; exact ⟨rfl, rfl⟩
    | ok e =>
      have hte : s.Tracked employeeId := (tracked_iff_getEmployeeFromId s _).2 ⟨e, he⟩
      cases hm : s.getEmployeeFromId (some newManagerId) with
      | error err =>
        have hn := (getEmployeeFromId_error hm).1
        have hnt : ¬ s.Tracked newManagerId := fun ht => by
          obtain ⟨r, hr⟩ := getEmployeeFromId_of_tracked ht
          rw [hm] at hr; cases hr
        subst hn
        refine ⟨⟨fun _ => Or.inr hnt, fun _ => ⟨s, by simp only [move, he, hm]⟩⟩, ?_⟩
        intro err s' h
        simp only [move, he, hm] at h
        cases h; exact ⟨rfl, rfl⟩
      | ok m =>
        have htm : s.Tracked newManagerId := (tracked_iff_getEmployeeFromId s _).2 ⟨m, hm⟩
        refine ⟨⟨?_, ?_⟩, ?_⟩
        · rintro ⟨s', h⟩
          simp only [move, he, hm] at h
          cases h
        · rintro (h | h)
          · exact absurd hte h
          · exact absurd htm h
        · intro err s' h
          simp only [move, he, hm] at h
          cases h
  · cases he : s.getEmployeeFromId (some employeeId) with
    | error err =>
      have hn := (getEmployeeFromId_error he).1
      have hnt : ¬ s.Tracked employeeId := fun ht => by
        obtain ⟨r, hr⟩ := getEmployeeFromId_of_tracked ht
        rw [he] at hr; cases hr
      subst hn
      refine ⟨⟨fun _ => hnt, fun _ => ⟨s, by simp only [remove, he]⟩⟩, ?_⟩
      intro err s' h
      simp only [remove, he] at h
      cases h; exact ⟨rfl, rfl⟩
    | ok e =>
      have hte : s.Tracked employeeId := (tracked_iff_getEmployeeFromId s _).2 ⟨e, he⟩
      refine ⟨⟨?_, fun h => absurd hte h⟩, ?_⟩
      · rintro ⟨s', h⟩
        simp only [remove, he] at h
        cases h
      · intro err s' h
        simp only [remove, he] at h
        cases h
  · refine ⟨fun hnt => ?_, ?_⟩
    · simp only [countReports, getEmployeeFromId_untracked hnt]
    · intro err s' h
      cases he : s.getEmployeeFromId (some employeeId) with
      | error err' =>
        have hn := (getEmployeeFromId_error he).1
        simp only [countReports, he] at h
        cases h; exact ⟨hn, rfl⟩
      | ok e =>
        simp only [countReports, he] at h
        cases hc : s.recursiveCountHelper fuel e with
        | none => rw [hc] at h; cases h
        | some c => rw [hc] at h; cases h

/-- Witness for C6: id 9 is unknown in the three-node chain, so the three methods throw
`NotFound` and leave the chain as it is. -/
theorem notFound_leaves_state_witness :
    ¬ chain3.Tracked 9 ∧
    chain3.move 4 9 = .error .NotFound chain3 ∧
    chain3.remove 9 = .error .NotFound chain3 ∧
    chain3.countReports 5 9 = some (.error .NotFound chain3) := by
  have h := notFound_leaves_state chain3
  have h9 : ¬ chain3.Tracked 9 := by decide
  refine ⟨h9, ?_, ?_, (h.2.2 9 5).1 h9⟩
  · obtain ⟨s', hs'⟩ := ((h.1 4 9).1).2 (Or.inr h9)
    have := ((h.1 4 9).2 _ _ hs').2
    rw [this] at hs'; exact hs'
  · obtain ⟨s', hs'⟩ := ((h.2.1 9).1).2 h9
    have := ((h.2.1 9).2 _ _ hs').2
    rw [this] at hs'; exact hs'

/-- C7: in an acyclic registry where every manager lists its node exactly once, removing
a tracked `e` whose manager is `m` leaves `m` with its old reports minus `e` (no `e` is
left in that part), followed by the old reports of `e` in their order; and every entry of
the old reports of `e` now has manager `m`. -/
theorem remove_hands_reports_to_manager (s : OrgStruct) (employeeId e m : Nat)
    (hwf : s.WF) (h2 : s.ManagerListsNode) (hacyc : s.Acyclic)
    (he : s.getEmployeeFromId (some employeeId) = .ok e)
    (hm : (s.get e).manager = some m) :
    ∃ s', s.remove employeeId = .ok () s' ∧
      (s'.get m).reports = (s.get m).reports.erase e ++ (s.get e).reports ∧
      e ∉ (s.get m).reports.erase e ∧
      ∀ r ∈ (s.get e).reports, (s'.get r).manager = some m := by
  have hemem := (getEmployeeFromId_ok he).1
  have helt : e < s.heap.length := hwf.tracked_lt hemem
  have hne : m ≠ e := hacyc.manager_ne hemem hm
  have hget := get_unlink_managed s e m hwf helt hm hne
  refine ⟨{ s.unlink e with employees := (s.unlink e).employees.erase e },
    by simp only [remove, he], ?_, ?_, ?_⟩
  · show ((s.unlink e).get m).reports = _
    rw [hget m]
    split <;> simp [Employee.setManager, Employee.addReports, Employee.removeReport]
  · intro hmem
    have h0 : ((s.get m).reports.erase e).count e = 0 := by
      rw [List.count_erase_self, (h2 e hemem m (by simp [hm])).2]
    exact (List.count_eq_zero.mp h0) hmem
  · intro r hr
    show ((s.unlink e).get r).manager = _
    rw [hget r, if_pos hr]
    rfl

/-- Witness for C7: removing Tim (id 3), whose manager is Bob, from the three-node chain. -/
theorem remove_hands_reports_to_manager_witness :
    chain3.WF ∧ chain3.ManagerListsNode ∧ chain3.Acyclic ∧
    (chain3.get 1).manager = some 0 ∧
    ∃ s', chain3.remove 3 = .ok () s' ∧
      (s'.get 0).reports = (chain3.get 0).reports.erase 1 ++ (chain3.get 1).reports ∧
      1 ∉ (chain3.get 0).reports.erase 1 ∧
      ∀ r ∈ (chain3.get 1).reports, (s'.get r).manager = some 0 :=
  ⟨by decide, by decide, ChainsEnd.acyclic (by decide), rfl,
    remove_hands_reports_to_manager chain3 3 1 0 (by decide) (by decide)
      (ChainsEnd.acyclic (by decide)) rfl rfl⟩

/-- C8: in every registry state the program can reach (by calls of `add`, `move` and
`remove`; such a state has unique ids, and every entry of a tracked node's reports is a
tracked node managed by that node), removing a tracked root `e` leaves every entry of the
old reports of `e` without manager, still tracked and in no tracked node's reports list;
no reports list of any object changes. -/
theorem remove_root_orphans_reports (s : OrgStruct) (employeeId e : Nat)
    (hr : s.Reachable)
    (he : s.getEmployeeFromId (some employeeId) = .ok e)
    (hroot : (s.get e).manager = none) :
    ∃ s', s.remove employeeId = .ok () s' ∧
      (∀ r ∈ (s.get e).reports,
        (s'.get r).manager = none ∧ r ∈ s'.employees ∧
        ∀ q ∈ s'.employees, r ∉ (s'.get q).reports) ∧
      ∀ q, (s'.get q).reports = (s.get q).reports := by
  have hwf : s.WF := (Reachable.sound hr).1
  have h1 : s.UniqueIds := (Reachable.sound hr).2.1
  have hmirror : s.ReportsMirrorManagers := (Reachable.sound hr).2.2.1
  have hemem := (getEmployeeFromId_ok he).1
  have helt : e < s.heap.length := hwf.tracked_lt hemem
  have hget := get_unlink_root s e hwf helt hroot
  have hnodup := employees_nodup h1
  have hreports : ∀ q, ((s.unlink e).get q).reports = (s.get q).reports := by
    intro q
    rw [hget q]
    split <;> rfl
  refine ⟨{ s.unlink e with employees := (s.unlink e).employees.erase e },
    by simp only [remove, he], ?_, hreports⟩
  intro r hr
  have hrm := hmirror e hemem r hr
  have hre : r ≠ e := by
    rintro rfl
    rw [hroot] at hrm
    cases hrm.2
  refine ⟨?_, ?_, ?_⟩
  · show ((s.unlink e).get r).manager = none
    rw [hget r, if_pos hr]
    rfl
  · show r ∈ (s.unlink e).employees.erase e
    rw [unlink_employees]
    exact (List.mem_erase_of_ne hre).2 hrm.1
  · intro q hq hmem
    have hq' : q ∈ s.employees.erase e := by
      have : q ∈ (s.unlink e).employees.erase e := hq
      rwa [unlink_employees] at this
    have hqe : q ≠ e := fun h => (List.Nodup.mem_erase_iff hnodup).1 hq' |>.1 h
    have hqmem : q ∈ s.employees := List.mem_of_mem_erase hq'
    have hmem' : r ∈ (s.get q).reports := by
      rw [← hreports q]; exact hmem
    have := (hmirror q hqmem r hmem').2
    rw [hrm.2] at this
    exact hqe (Option.some.inj this).symm

/-- Witness for C8: Bob (id 1) is the root of the three-node chain. -/
theorem remove_root_orphans_reports_witness :
    chain3.Reachable ∧ (chain3.get 0).manager = none ∧
    ∃ s', chain3.remove 1 = .ok () s' ∧
      (∀ r ∈ (chain3.get 0).reports,
        (s'.get r).manager = none ∧ r ∈ s'.employees ∧
        ∀ q ∈ s'.employees, r ∉ (s'.get q).reports) ∧
      ∀ q, (s'.get q).reports = (chain3.get q).reports :=
  ⟨chain3_reachable, rfl, remove_root_orphans_reports chain3 1 0 chain3_reachable rfl rfl⟩

/-- C9: with unique ids, a `remove` of a tracked id returns normally; afterwards the id
no longer resolves (`NotFound`), and `employees` is the old array with exactly the removed
node deleted, the other nodes keeping their order. -/
theorem remove_untracks (s : OrgStruct) (employeeId e : Nat) (h1 : s.UniqueIds)
    (he : s.getEmployeeFromId (some employeeId) = .ok e) :
    ∃ s', s.remove employeeId = .ok () s' ∧
      s'.getEmployeeFromId (some employeeId) = .error .NotFound ∧
      s'.employees = s.employees.erase e ∧
      s'.employees = s.employees.filter (fun r => r != e) ∧
      s'.employees.length + 1 = s.employees.length := by
  have hemem := (getEmployeeFromId_ok he).1
  have heid : employeeId = (s.get e).id := Option.some.inj (getEmployeeFromId_ok he).2
  have hnodup := employees_nodup h1
  have hemp : ({ s.unlink e with employees := (s.unlink e).employees.erase e } :
      OrgStruct).employees = s.employees.erase e := by
    show (s.unlink e).employees.erase e = _
    rw [unlink_employees]
  refine ⟨{ s.unlink e with employees := (s.unlink e).employees.erase e },
    by simp only [remove, he], ?_, hemp, ?_, ?_⟩
  · apply getEmployeeFromId_of_untracked
    intro r hr hEq
    rw [hemp] at hr
    have hr' := (List.Nodup.mem_erase_iff hnodup).1 hr
    have hid : ((s.unlink e).get r).id = (s.get r).id := id_unlink s e r
    have hEq' : employeeId = ((s.unlink e).get r).id := Option.some.inj hEq
    rw [hid, heid] at hEq'
    exact hr'.1 (eq_of_id_eq h1 hr'.2 hemem hEq'.symm)
  · rw [hemp]; exact List.Nodup.erase_eq_filter hnodup e
  · rw [hemp, List.length_erase_of_mem hemem]
    have : 0 < s.employees.length := List.length_pos_of_mem hemem
    omega

/-- Witness for C9: removing Tim (id 3) from the three-node chain. -/
theorem remove_untracks_witness :
    chain3.UniqueIds ∧ chain3.getEmployeeFromId (some 3) = .ok 1 ∧
    ∃ s', chain3.remove 3 = .ok () s' ∧
      s'.getEmployeeFromId (some 3) = .error .NotFound ∧
      s'.employees = chain3.employees.erase 1 ∧
      s'.employees = chain3.employees.filter (fun r => r != 1) ∧
      s'.employees.length + 1 = chain3.employees.length :=
  ⟨by decide, rfl, remove_untracks chain3 3 1 (by decide) rfl⟩

/-- C10: in every registry state the program can reach that satisfies invariant 2 (every
manager is tracked and lists its node exactly once) and whose manager links are acyclic,
`countReports` of a tracked id returns, for every recursion budget of at least the size
of the store, exactly the number of tracked nodes other than `e` whose chain of manager
links reaches `e` (bounding the chain length loses nothing); it is 0 for a node with no
reports.  Invariants 1 and 3 hold in every reachable state. -/
theorem countReports_counts_descendants (s : OrgStruct) (employeeId e : Nat)
    (hr : s.Reachable) (h2 : s.ManagerListsNode) (hacyc : s.Acyclic)
    (he : s.getEmployeeFromId (some employeeId) = .ok e) :
    (∀ fuel, s.heap.length ≤ fuel →
      s.countReports fuel employeeId = some (.ok (s.descendantCount e) s)) ∧
    (∀ x ∈ s.employees, s.Reaches x e ↔ ∃ k, s.ancestor k x = some e) ∧
    ((s.get e).reports = [] → s.descendantCount e = 0) := by
  have hwf : s.WF := (Reachable.sound hr).1
  have h1 : s.UniqueIds := (Reachable.sound hr).2.1
  have hmirror : s.ReportsMirrorManagers := (Reachable.sound hr).2.2.1
  have hemem := (getEmployeeFromId_ok he).1
  have hce := hacyc.chainsEnd hwf h2
  have hsucc := subtreeSize_eq_succ h1 hemem
  refine ⟨?_, fun x hx => reaches_iff hce hx e, ?_⟩
  · intro fuel hfuel
    have hhelper := recursiveCountHelper_eq hwf h1 h2 hmirror hacyc fuel e hemem
      (fun x hx k hk => by
        by_contra hlt
        have := ancestor_none_mono s (hce x hx) (by omega : s.heap.length ≤ k)
        rw [hk] at this
        cases this)
    simp only [countReports, he, hhelper, hsucc, Nat.add_sub_cancel]
  · intro hnil
    have := subtreeSize_eq hwf h1 h2 hmirror hacyc hemem
    rw [hnil, hsucc] at this
    simpa using this

/-- Witness for C10: after `add(1,"Bob")`, `add(3,"Tim",1)`, `add(4,"Ralph",3)` the
counts for the ids 1, 3 and 4 are 2, 1 and 0. -/
theorem countReports_counts_descendants_witness :
    chain3.Reachable ∧ chain3.ManagerListsNode ∧ chain3.Acyclic ∧
    chain3.countReports 3 1 = some (.ok 2 chain3) ∧
    chain3.countReports 3 3 = some (.ok 1 chain3) ∧
    chain3.countReports 3 4 = some (.ok 0 chain3) := by
  have h2 : chain3.ManagerListsNode := by decide
  have hacyc : chain3.Acyclic := ChainsEnd.acyclic (by decide)
  have d0 : chain3.descendantCount 0 = 2 := by decide
  have d1 : chain3.descendantCount 1 = 1 := by decide
  have d2 : chain3.descendantCount 2 = 0 := by decide
  refine ⟨chain3_reachable, h2, hacyc, ?_, ?_, ?_⟩
  · have h := (countReports_counts_descendants chain3 1 0 chain3_reachable h2 hacyc rfl).1 3
      (by decide)
    rwa [d0] at h
  · have h := (countReports_counts_descendants chain3 3 1 chain3_reachable h2 hacyc rfl).1 3
      (by decide)
    rwa [d1] at h
  · have h := (countReports_counts_descendants chain3 4 2 chain3_reachable h2 hacyc rfl).1 3
      (by decide)
    rwa [d2] at h

/-- C12: in every registry state reachable from the empty registry by calls of `add`,
`move` and `remove`, returning or throwing, the ids of the tracked employees are pairwise
distinct. -/
theorem reachable_unique_ids (s : OrgStruct) (h : s.Reachable) : s.UniqueIds :=
  (Reachable.sound h).2.1

/-- Witness for C12: the three-node chain is reachable by three calls of `add`. -/
theorem reachable_unique_ids_witness : chain3.Reachable ∧ chain3.UniqueIds :=
  have hr : chain3.Reachable :=
    Reachable.add _ 4 "Ralph" (some 3)
      (Reachable.add _ 3 "Tim" (some 1) (Reachable.add _ 1 "Bob" none Reachable.empty))
  ⟨hr, reachable_unique_ids chain3 hr⟩

/-- C20: in every registry state reachable by calls of `add`, `move` and `remove` (cycles
and self-managed nodes included), every entry of a tracked node's reports list is a
tracked node, so the `#isEmployee` check of the count helper holds for it; and for every
tracked node and every recursion budget the guarded count of the code equals the
unguarded count that the specification describes (both run out of budget together). -/
theorem reachable_reports_tracked (s : OrgStruct) (h : s.Reachable) :
    (∀ q ∈ s.employees, ∀ x ∈ (s.get q).reports,
      x ∈ s.employees ∧ s.isEmployee x = true) ∧
    ∀ fuel, ∀ e ∈ s.employees, s.recursiveCountHelper fuel e = s.specCount fuel e := by
  have hmir := (Reachable.sound h).2.2.1
  refine ⟨fun q hq x hx => ?_, fun fuel => recursiveCountHelper_eq_specCount hmir fuel⟩
  have := (hmir q hq x hx).1
  exact ⟨this, (isEmployee_iff s x).2 this⟩

/-- Witness for C20: the three-node chain, reachable by three calls of `add`. -/
theorem reachable_reports_tracked_witness :
    chain3.Reachable ∧
    (∀ q ∈ chain3.employees, ∀ x ∈ (chain3.get q).reports,
      x ∈ chain3.employees ∧ chain3.isEmployee x = true) ∧
    ∀ fuel, ∀ e ∈ chain3.employees,
      chain3.recursiveCountHelper fuel e = chain3.specCount fuel e :=
  have hr : chain3.Reachable :=
    Reachable.add _ 4 "Ralph" (some 3)
      (Reachable.add _ 3 "Tim" (some 1) (Reachable.add _ 1 "Bob" none Reachable.empty))
  ⟨hr, reachable_reports_tracked chain3 hr⟩

/-- C19: in a valid store, for every untracked id, every name and every `managerId`
(resolving or not), `add(id, name, managerId)` followed by `remove(id)` returns normally
both times and gives back the original registry: the same `employees` array, and every
object that existed before with its manager link and reports list as before. -/
theorem add_then_remove (s : OrgStruct) (id : Nat) (name : String) (managerId : Option Nat)
    (hwf : s.WF) (hid : ¬ s.Tracked id) :
    ∃ s1 s2, s.add id name managerId = .ok () s1 ∧ s1.remove id = .ok () s2 ∧
      s2.employees = s.employees ∧ ∀ r, r < s.heap.length → s2.get r = s.get r := by
  have hnew : s.heap.length ∉ s.employees := fun h => Nat.lt_irrefl _ (hwf.tracked_lt h)
  rcases stateOf_add_cases s hwf id name managerId with h | ⟨_, h⟩ | ⟨m, _, hm, h⟩
  · exfalso
    have hroot : ∀ err, s.getEmployeeFromId managerId = .error err →
        stateOf (s.add id name managerId) ≠ s := by
      intro err herr hEq
      have := (getEmployeeFromId_error herr).1
      subst this
      rw [add_ok_root name hid herr] at hEq
      have := congrArg (fun t => t.heap.length) hEq
      simp [stateOf, push] at this
    cases hm : s.getEmployeeFromId managerId with
    | error err => exact hroot err hm h
    | ok m =>
      rw [add_ok_attach name hwf hid hm] at h
      have := congrArg (fun t => t.heap.length) h
      simp [stateOf, attach_heap_length] at this
  · have hlook := getEmployeeFromId_push_new hwf ⟨id, name, none, []⟩ hid
    refine ⟨_, _, h, remove_ok hlook, ?_, ?_⟩
    · rw [removeState_employees, push_employees]
      exact erase_append_new _ _ hnew
    · intro r hr
      have hwf1 := wf_push_root hwf id name
      rw [get_removeState, get_unlink_root _ _ hwf1 (by rw [push_heap_length]; omega)
        (by rw [get_push_new]), get_push_new]
      simp only [List.not_mem_nil, if_false]
      exact get_push_lt _ _ _ hr
  · have hmlt := hwf.tracked_lt (getEmployeeFromId_mem hm)
    have hlook := getEmployeeFromId_attach_new hwf id name m hid
    have hwf1 := wf_attach hwf id name hmlt
    have hgetn : (s.attach id name m).get s.heap.length = ⟨id, name, some m, []⟩ := by
      rw [get_attach s id name m _ hmlt (Nat.le_refl _), if_pos rfl]
    refine ⟨_, _, h, remove_ok hlook, ?_, ?_⟩
    · rw [removeState_employees, attach_employees]
      exact erase_append_new _ _ hnew
    · intro r hr
      rw [get_removeState, get_unlink_managed _ _ m hwf1
        (by rw [attach_heap_length]; omega) (by rw [hgetn]) (Nat.ne_of_lt hmlt), hgetn]
      simp only [List.not_mem_nil, if_false]
      split
      · next hrm =>
        subst hrm
        rw [get_attach s id name r r hmlt (Nat.le_of_lt hmlt), if_neg (Nat.ne_of_lt hmlt),
          if_pos rfl]
        have hnot : s.heap.length ∉ (s.get r).reports :=
          fun h' => Nat.lt_irrefl _ (hwf.reports_lt hmlt h')
        cases hg : s.get r with
        | mk i n mg rs =>
          rw [hg] at hnot
          simp only [Employee.addReport, Employee.removeReport, Employee.addReports,
            List.append_nil, Employee.mk.injEq, true_and]
          exact erase_append_new _ _ hnot
      · next hrm =>
        rw [get_attach s id name m r hmlt (Nat.le_of_lt hr), if_neg (Nat.ne_of_lt hr),
          if_neg hrm]

/-- Witness for C19: adding Ann (id 7) under Tim (id 3) and removing her again. -/
theorem add_then_remove_witness :
    chain3.WF ∧ ¬ chain3.Tracked 7 ∧
    ∃ s1 s2, chain3.add 7 "Ann" (some 3) = .ok () s1 ∧ s1.remove 7 = .ok () s2 ∧
      s2.employees = chain3.employees ∧ ∀ r, r < chain3.heap.length → s2.get r = chain3.get r :=
  ⟨by decide, by decide, add_then_remove chain3 7 "Ann" (some 3) (by decide) (by decide)⟩

/-- C16: `move` performs no descendant check: it returns normally whenever both ids are
tracked.  A cycle can result: from the reachable three-node chain, `move(1, 4)` puts Bob
under his own descendant Ralph, after which Bob is his own ancestor; and on any tracked
root `e`, `move(e, e)` makes `e` its own manager and an entry of its own reports. -/
theorem move_can_create_cycle :
    (∀ (s : OrgStruct) (employeeId newManagerId : Nat), s.Tracked employeeId →
      s.Tracked newManagerId → ∃ s', s.move employeeId newManagerId = .ok () s') ∧
    (∃ s : OrgStruct, s.Reachable ∧ ∃ (employeeId newManagerId : Nat) (s' : OrgStruct),
      s.move employeeId newManagerId = .ok () s' ∧
      ∃ x ∈ s'.employees, ∃ k, 0 < k ∧ s'.ancestor k x = some x) ∧
    (∀ (s : OrgStruct) (employeeId e : Nat), s.WF →
      s.getEmployeeFromId (some employeeId) = .ok e → (s.get e).manager = none →
      ∃ s', s.move employeeId employeeId = .ok () s' ∧
        (s'.get e).manager = some e ∧ e ∈ (s'.get e).reports ∧ ¬ s'.Acyclic) := by
  refine ⟨?_, ?_, ?_⟩
  · intro s a b ha hb
    obtain ⟨e, he⟩ := getEmployeeFromId_of_tracked ha
    obtain ⟨m, hm⟩ := getEmployeeFromId_of_tracked hb
    exact ⟨_, move_ok he hm⟩
  · refine ⟨chain3, ?_, 1, 4, _, rfl, 0, by decide, 3, by decide, by decide⟩
    exact Reachable.add _ 4 "Ralph" (some 3)
      (Reachable.add _ 3 "Tim" (some 1) (Reachable.add _ 1 "Bob" none Reachable.empty))
  · intro s a e hwf he hroot
    have hemem := getEmployeeFromId_mem he
    have helt := hwf.tracked_lt hemem
    have hmgr : ((s.relink e e).get e).manager = some e := by
      rw [manager_relink s e e e helt, if_pos rfl]
    refine ⟨_, move_ok he he, hmgr, ?_, ?_⟩
    · rw [reports_relink s e e e hwf helt helt, if_pos rfl]
      exact List.mem_append_right _ (List.mem_singleton_self e)
    · intro hacyc
      exact hacyc e (by rw [relink_employees]; exact hemem) 1 Nat.one_pos
        (by rw [ancestor_one]; exact hmgr)

/-- Witness for C16: in the registry holding only Bob, `move(1, 1)` makes Bob his own
manager. -/
theorem move_can_create_cycle_witness :
    (stateOf (OrgStruct.empty.add 1 "Bob" none)).WF ∧
    ∃ s', (stateOf (OrgStruct.empty.add 1 "Bob" none)).move 1 1 = .ok () s' ∧
      (s'.get 0).manager = some 0 ∧ 0 ∈ (s'.get 0).reports ∧ ¬ s'.Acyclic :=
  ⟨by decide,
    move_can_create_cycle.2.2 (stateOf (OrgStruct.empty.add 1 "Bob" none)) 1 0 (by decide)
      rfl rfl⟩

/-- Counterexample for C13 as stated, in two registries that satisfy invariants 1-3.
In `selfManaged` Ann is her own manager; `remove(1)` hands Ben over to Ann herself and
then untracks Ann, so Ben's manager is no longer tracked.  In `staleLink` the reports of
Q already hold X; `move(3, 2)` appends X once more, so Q lists X twice.  Invariant 2
fails after both calls. -/
theorem invariants_not_preserved_counterexample :
    (selfManaged.WF ∧ selfManaged.UniqueIds ∧ selfManaged.ManagerListsNode ∧
      selfManaged.RootsUnlisted ∧
      ∃ s', selfManaged.remove 1 = .ok () s' ∧ ¬ s'.ManagerListsNode) ∧
    (staleLink.WF ∧ staleLink.UniqueIds ∧ staleLink.ManagerListsNode ∧
      staleLink.RootsUnlisted ∧
      ∃ s', staleLink.move 3 2 = .ok () s' ∧ ¬ s'.ManagerListsNode) :=
  ⟨⟨by decide, by decide, by decide, by decide, _, rfl, by decide⟩,
    ⟨by decide, by decide, by decide, by decide, _, rfl, by decide⟩⟩

/-- C13 (amended): in a registry with unique ids that satisfies invariant 2 and whose
reports lists mirror the manager links (every entry of a tracked node's reports is a
tracked node managed by that node), the state after any successful `add` or `move`, and
after any successful `remove` of a node that is not its own manager, again satisfies
invariants 2 and 3 and the mirror property. -/
theorem invariants_preserved (s : OrgStruct) (hwf : s.WF) (h1 : s.UniqueIds)
    (h2 : s.ManagerListsNode) (hmir : s.ReportsMirrorManagers) :
    (∀ id name managerId s', s.add id name managerId = .ok () s' →
      s'.ManagerListsNode ∧ s'.RootsUnlisted ∧ s'.ReportsMirrorManagers) ∧
    (∀ employeeId newManagerId s', s.move employeeId newManagerId = .ok () s' →
      s'.ManagerListsNode ∧ s'.RootsUnlisted ∧ s'.ReportsMirrorManagers) ∧
    (∀ employeeId e s', s.getEmployeeFromId (some employeeId) = .ok e →
      (s.get e).manager ≠ some e → s.remove employeeId = .ok () s' →
      s'.ManagerListsNode ∧ s'.RootsUnlisted ∧ s'.ReportsMirrorManagers) := by
  have hs := sound_of_invariants hwf h1 h2 hmir
  have hmt := ((managerListsNode_iff s).1 h2).1
  have pack : ∀ t : OrgStruct, t.Sound → t.ManagersTracked →
      t.ManagerListsNode ∧ t.RootsUnlisted ∧ t.ReportsMirrorManagers :=
    fun t ht hmt' => ⟨(managerListsNode_iff t).2 ⟨hmt', ht.2.2.2⟩,
      rootsUnlisted_of_mirror ht.2.2.1, ht.2.2.1⟩
  refine ⟨?_, ?_, ?_⟩
  · intro id name managerId s' hadd
    rcases stateOf_add_cases s hwf id name managerId with h | ⟨hid, h⟩ | ⟨m, hid, hm, h⟩
    · rw [hadd] at h
      have : s' = s := h
      subst this
      exact pack _ hs hmt
    · rw [hadd] at h
      cases h
      exact pack _ (sound_push_root hs id name hid) (managersTracked_push_root hwf hmt id name)
    · rw [hadd] at h
      cases h
      exact pack _ (sound_attach hs id name (getEmployeeFromId_mem hm) hid)
        (managersTracked_attach hwf hmt id name (getEmployeeFromId_mem hm))
  · intro a b s' hmove
    rcases stateOf_move_cases s a b with h | ⟨e, m, he, hm, h⟩
    · rw [hmove] at h
      have : s' = s := h
      subst this
      exact pack _ hs hmt
    · rw [hmove] at h
      cases h
      exact pack _ (sound_relink hs (getEmployeeFromId_mem he) (getEmployeeFromId_mem hm))
        (managersTracked_relink hwf hmt (getEmployeeFromId_mem he) (getEmployeeFromId_mem hm))
  · intro a e s' he hself hrem
    rw [remove_ok he] at hrem
    cases hrem
    exact pack _ (sound_removeState hs (getEmployeeFromId_mem he))
      (managersTracked_removeState hs hmt (getEmployeeFromId_mem he) hself)

/-- Witness for C13 (amended): removing Tim (id 3) from the three-node chain. -/
theorem invariants_preserved_witness :
    chain3.WF ∧ chain3.UniqueIds ∧ chain3.ManagerListsNode ∧ chain3.ReportsMirrorManagers ∧
    chain3.getEmployeeFromId (some 3) = .ok 1 ∧ (chain3.get 1).manager ≠ some 1 ∧
    (chain3.removeState 1).ManagerListsNode ∧ (chain3.removeState 1).RootsUnlisted ∧
    (chain3.removeState 1).ReportsMirrorManagers :=
  ⟨by decide, by decide, by decide, by decide, rfl, by decide,
    (invariants_preserved chain3 (by decide) (by decide) (by decide) (by decide)).2.2 3 1
      (chain3.removeState 1) rfl (by decide) rfl⟩

/-- Counterexample for C14 as stated, in two registries that satisfy invariants 1-3.
After `remove(1)` in `selfManaged`, the tracked Ben still has the removed Ann as manager.
After `remove(3)` in `staleLink`, the reports of the tracked Q still hold the removed
X. -/
theorem remove_leaves_links_counterexample :
    (selfManaged.WF ∧ selfManaged.UniqueIds ∧ selfManaged.ManagerListsNode ∧
      selfManaged.RootsUnlisted ∧ selfManaged.getEmployeeFromId (some 1) = .ok 0 ∧
      ∃ s', selfManaged.remove 1 = .ok () s' ∧ 1 ∈ s'.employees ∧
        (s'.get 1).manager = some 0) ∧
    (staleLink.WF ∧ staleLink.UniqueIds ∧ staleLink.ManagerListsNode ∧
      staleLink.RootsUnlisted ∧ staleLink.getEmployeeFromId (some 3) = .ok 2 ∧
      ∃ s', staleLink.remove 3 = .ok () s' ∧ 1 ∈ s'.employees ∧
        2 ∈ (s'.get 1).reports) :=
  ⟨⟨by decide, by decide, by decide, by decide, rfl, _, rfl, by decide, by decide⟩,
    ⟨by decide, by decide, by decide, by decide, rfl, _, rfl, by decide, by decide⟩⟩

/-- C14 (amended): in a registry with unique ids that satisfies invariant 2 and whose
reports lists mirror the manager links, removing a tracked node `e` that is not its own
manager excises every link to it: `e` is no longer tracked, no tracked node has `e` as
its manager and no tracked node's reports list contains `e`. -/
theorem remove_excises_links (s : OrgStruct) (employeeId e : Nat) (hwf : s.WF)
    (h1 : s.UniqueIds) (h2 : s.ManagerListsNode) (hmir : s.ReportsMirrorManagers)
    (he : s.getEmployeeFromId (some employeeId) = .ok e)
    (hself : (s.get e).manager ≠ some e) :
    ∃ s', s.remove employeeId = .ok () s' ∧ e ∉ s'.employees ∧
      ∀ x ∈ s'.employees, (s'.get x).manager ≠ some e ∧ e ∉ (s'.get x).reports := by
  have hemem := getEmployeeFromId_mem he
  have helt := hwf.tracked_lt hemem
  refine ⟨_, remove_ok he, ?_, ?_⟩
  · rw [removeState_employees]
    exact fun h => ((mem_erase_iff_of_unique h1).1 h).1 rfl
  · intro x hx
    rw [removeState_employees] at hx
    obtain ⟨hxe, hx⟩ := (mem_erase_iff_of_unique h1).1 hx
    refine ⟨?_, ?_⟩
    · by_cases hxin : x ∈ (s.get e).reports
      · rw [manager_removeState_of_mem s e x hwf helt hself hxin]
        exact hself
      · rw [manager_removeState_of_not_mem s e x hwf helt hxin]
        intro hm
        have hc := (h2 x hx e (by simp [hm])).2
        exact hxin (List.count_pos_iff.mp (by rw [hc]; exact Nat.one_pos))
    · rw [reports_removeState s e x hwf helt]
      simp only [if_neg hxe]
      have hnot_e : e ∉ (s.get e).reports := fun h => hself (hmir e hemem e h).2
      split
      · next hp =>
        intro hmem
        rcases List.mem_append.mp hmem with hmem | hmem
        · have hc : (s.get x).reports.count e = 1 := (h2 e hemem x (by simp [hp])).2
          have h0 : ((s.get x).reports.erase e).count e = 0 := by
            rw [List.count_erase_self, hc]
          exact (List.count_eq_zero.mp h0) hmem
        · exact hnot_e hmem
      · next hp => exact fun hmem => hp (hmir x hx e hmem).2

/-- Witness for C14 (amended): removing Tim (id 3) from the three-node chain. -/
theorem remove_excises_links_witness :
    chain3.WF ∧ chain3.UniqueIds ∧ chain3.ManagerListsNode ∧ chain3.ReportsMirrorManagers ∧
    (chain3.get 1).manager ≠ some 1 ∧
    ∃ s', chain3.remove 3 = .ok () s' ∧ 1 ∉ s'.employees ∧
      ∀ x ∈ s'.employees, (s'.get x).manager ≠ some 1 ∧ 1 ∉ (s'.get x).reports :=
  ⟨by decide, by decide, by decide, by decide, by decide,
    remove_excises_links chain3 3 1 (by decide) (by decide) (by decide) (by decide) rfl
      (by decide)⟩

/-- C17: in every registry state reached from the empty registry by calls of `add`,
`remove` and only those calls `move(e, m)` in which `m` is neither `e` nor below `e`, the
manager links are acyclic, and for every tracked id the traversal of `countReports`
terminates: with any recursion budget of at least the size of the store it returns a
count. -/
theorem guarded_moves_keep_forest (s : OrgStruct) (h : s.ReachableGuarded) :
    s.Acyclic ∧
    ∀ employeeId, s.Tracked employeeId → ∀ fuel, s.heap.length ≤ fuel →
      ∃ n, s.countReports fuel employeeId = some (.ok n s) := by
  have hf := ReachableGuarded.forest h
  refine ⟨hf.2.2, fun employeeId ht fuel hfuel => ?_⟩
  obtain ⟨e, he⟩ := getEmployeeFromId_of_tracked ht
  exact ⟨_, countReports_of_forest hf he hfuel⟩

/-- Witness for C17: the three-node chain is reached by three calls of `add`. -/
theorem guarded_moves_keep_forest_witness :
    chain3.ReachableGuarded ∧ chain3.Acyclic ∧
    ∀ employeeId, chain3.Tracked employeeId → ∀ fuel, chain3.heap.length ≤ fuel →
      ∃ n, chain3.countReports fuel employeeId = some (.ok n chain3) :=
  have hr : chain3.ReachableGuarded :=
    ReachableGuarded.add _ 4 "Ralph" (some 3)
      (ReachableGuarded.add _ 3 "Tim" (some 1)
        (ReachableGuarded.add _ 1 "Bob" none ReachableGuarded.empty))
  ⟨hr, guarded_moves_keep_forest chain3 hr⟩

/-- C11: in every registry state the program can reach that satisfies invariant 2 and
whose manager links are acyclic, for tracked nodes `e` and `m` such that neither is at or
below the other (so they are distinct), `move(e, m)` returns normally and afterwards
`countReports(m)` is its value before the move plus 1 plus `countReports(e)`, while
`countReports(e)` is unchanged (for every recursion budget of at least the size of the
store).  Invariants 1 and 3 hold in every reachable state. -/
theorem move_adds_subtree_count (s : OrgStruct) (employeeId newManagerId e m : Nat)
    (hr : s.Reachable) (h2 : s.ManagerListsNode) (hacyc : s.Acyclic)
    (he : s.getEmployeeFromId (some employeeId) = .ok e)
    (hm : s.getEmployeeFromId (some newManagerId) = .ok m)
    (hguard : ¬ s.Reaches m e) (hguard' : ¬ s.Reaches e m) :
    ∃ s', s.move employeeId newManagerId = .ok () s' ∧
      ∀ fuel, s.heap.length ≤ fuel →
        ∃ cm ce, s.countReports fuel newManagerId = some (.ok cm s) ∧
          s.countReports fuel employeeId = some (.ok ce s) ∧
          s'.countReports fuel newManagerId = some (.ok (cm + 1 + ce) s') ∧
          s'.countReports fuel employeeId = some (.ok ce s') := by
  have h1 : s.UniqueIds := (Reachable.sound hr).2.1
  have hf : s.Forest := ⟨Reachable.sound hr, ((managerListsNode_iff s).1 h2).1, hacyc⟩
  have hemem := getEmployeeFromId_mem he
  have hmmem := getEmployeeFromId_mem hm
  have hft := forest_relink hf hemem hmmem hguard
  refine ⟨_, move_ok he hm, fun fuel hfuel => ?_⟩
  have he' : (s.relink e m).getEmployeeFromId (some employeeId) = .ok e := by
    rw [getEmployeeFromId_relink]; exact he
  have hm' : (s.relink e m).getEmployeeFromId (some newManagerId) = .ok m := by
    rw [getEmployeeFromId_relink]; exact hm
  have hfuel' : (s.relink e m).heap.length ≤ fuel := by rw [relink_heap_length]; exact hfuel
  have hse := subtreeSize_relink_employee hf hemem hmmem hguard
  have hsm := subtreeSize_relink_manager hf hemem hmmem hguard hguard'
  have hde : (s.relink e m).descendantCount e = s.descendantCount e := by
    have a := subtreeSize_eq_succ hft.1.2.1 (show e ∈ (s.relink e m).employees by
      rw [relink_employees]; exact hemem)
    have b := subtreeSize_eq_succ h1 hemem
    omega
  have hdm : (s.relink e m).descendantCount m = s.descendantCount m + 1 + s.descendantCount e := by
    have a := subtreeSize_eq_succ hft.1.2.1 (show m ∈ (s.relink e m).employees by
      rw [relink_employees]; exact hmmem)
    have b := subtreeSize_eq_succ h1 hmmem
    have c := subtreeSize_eq_succ h1 hemem
    omega
  refine ⟨s.descendantCount m, s.descendantCount e, countReports_of_forest hf hm hfuel,
    countReports_of_forest hf he hfuel, ?_, ?_⟩
  · rw [countReports_of_forest hft hm' hfuel', hdm]
  · rw [countReports_of_forest hft he' hfuel', hde]

/-- Witness for C11: Bob(1) -> Tim(3) -> Ralph(4) plus the root Kevin(2); after
`move(3, 2)` the count for Kevin is 2 and Bob has no reports. -/
theorem move_adds_subtree_count_witness :
    chain3Kevin.Reachable ∧ chain3Kevin.ManagerListsNode ∧ chain3Kevin.Acyclic ∧
    ¬ chain3Kevin.Reaches 3 1 ∧ ¬ chain3Kevin.Reaches 1 3 ∧
    (stateOf (chain3Kevin.move 3 2)).countReports 4 2 =
      some (.ok 2 (stateOf (chain3Kevin.move 3 2))) ∧
    ((stateOf (chain3Kevin.move 3 2)).get 0).reports = [] ∧
    ∃ s', chain3Kevin.move 3 2 = .ok () s' ∧
      ∀ fuel, chain3Kevin.heap.length ≤ fuel →
        ∃ cm ce, chain3Kevin.countReports fuel 2 = some (.ok cm chain3Kevin) ∧
          chain3Kevin.countReports fuel 3 = some (.ok ce chain3Kevin) ∧
          s'.countReports fuel 2 = some (.ok (cm + 1 + ce) s') ∧
          s'.countReports fuel 3 = some (.ok ce s') :=
  ⟨chain3Kevin_reachable, by decide, ChainsEnd.acyclic (by decide), by decide, by decide,
    by decide, by decide,
    move_adds_subtree_count chain3Kevin 3 2 1 3 chain3Kevin_reachable (by decide)
      (ChainsEnd.acyclic (by decide)) rfl rfl (by decide) (by decide)⟩

/-- C15: in every registry state the program can reach that satisfies invariant 2 and
whose manager links are acyclic, `print()` returns (for every recursion budget of at
least the size of the store) and the lines it emits are the concatenation, over the
nodes without manager in `employees` order, of the pre-order depth-first listing of each
root's subtree (children in stored `reports` order), the line of a node at depth `d`
being `2 * d` blanks followed by `name [id]`.  Budget for budget the code and this
description agree.  Invariants 1 and 3 hold in every reachable state. -/
theorem print_renders_forest (s : OrgStruct) (hr : s.Reachable)
    (h2 : s.ManagerListsNode) (hacyc : s.Acyclic) :
    (∀ fuel, s.heap.length ≤ fuel →
      ∃ lines, s.print fuel [] = some lines ∧ s.specPrint fuel = some lines) ∧
    ∀ fuel console,
      s.print fuel console = (s.specPrint fuel).map (fun lines => console ++ lines) := by
  have hf : s.Forest := ⟨Reachable.sound hr, ((managerListsNode_iff s).1 h2).1, hacyc⟩
  refine ⟨fun fuel hfuel => ?_, print_eq_specPrint s⟩
  obtain ⟨V, hV, _⟩ := forestListing_spec hf hfuel
  have hspec : s.specPrint fuel = some (V.map (fun p => s.specLine p.1 p.2)) := by
    simp only [specPrint, hV]
  refine ⟨_, ?_, hspec⟩
  rw [print_eq_specPrint, hspec]
  simp

/-- Witness for C15: the chain Bob -> Tim -> Ralph with the further root Kevin. -/
theorem print_renders_forest_witness :
    chain3Kevin.Reachable ∧ chain3Kevin.ManagerListsNode ∧ chain3Kevin.Acyclic ∧
    chain3Kevin.print 4 [] = some ["Bob [1]", "  Tim [3]", "    Ralph [4]", "Kevin [2]"] ∧
    ∃ lines, chain3Kevin.print 4 [] = some lines ∧ chain3Kevin.specPrint 4 = some lines :=
  ⟨chain3Kevin_reachable, by decide, ChainsEnd.acyclic (by decide), by decide,
    (print_renders_forest chain3Kevin chain3Kevin_reachable (by decide)
      (ChainsEnd.acyclic (by decide))).1 4 (by decide)⟩

/-- C18: in every registry state the program can reach that satisfies invariant 2 and
whose manager links are acyclic, `print()` returns (for every recursion budget of at
least the size of the store) one line per tracked node: the lines are the lines of a
listing that is a rearrangement of `employees`, their number is the number of employees,
and the line of every tracked node occurs exactly once in the output.  Invariants 1 and
3 hold in every reachable state. -/
theorem print_one_line_per_node (s : OrgStruct) (hr : s.Reachable)
    (h2 : s.ManagerListsNode) (hacyc : s.Acyclic)
    (fuel : Nat) (hfuel : s.heap.length ≤ fuel) :
    ∃ (lines : List String) (visits : List (Nat × Nat)), s.print fuel [] = some lines ∧
      lines = visits.map (fun p => s.specLine p.1 p.2) ∧
      (visits.map Prod.snd).Perm s.employees ∧
      lines.length = s.employees.length ∧
      ∀ r ∈ s.employees, ∃ d, (d, r) ∈ visits ∧ lines.count (s.specLine d r) = 1 := by
  have h1 : s.UniqueIds := (Reachable.sound hr).2.1
  have hf : s.Forest := ⟨Reachable.sound hr, ((managerListsNode_iff s).1 h2).1, hacyc⟩
  obtain ⟨V, hV, hperm⟩ := forestListing_spec hf hfuel
  have hspec : s.specPrint fuel = some (V.map (fun p => s.specLine p.1 p.2)) := by
    simp only [specPrint, hV]
  have hnodup : (V.map Prod.snd).Nodup := (List.Perm.nodup_iff hperm).2 (employees_nodup h1)
  refine ⟨V.map (fun p => s.specLine p.1 p.2), V, by rw [print_eq_specPrint, hspec]; simp,
    rfl, hperm, ?_, ?_⟩
  · rw [List.length_map, ← List.length_map V Prod.snd]
    exact hperm.length_eq
  · intro r hr
    have hrV : r ∈ V.map Prod.snd := (List.Perm.mem_iff hperm).2 hr
    obtain ⟨p, hp, hpr⟩ := List.mem_map.mp hrV
    obtain ⟨d, r'⟩ := p
    have hr' : r' = r := hpr
    subst hr'
    refine ⟨d, hp, ?_⟩
    have hone : (V.map Prod.snd).count r' = 1 := List.count_eq_one_of_mem hnodup hrV
    rw [List.count_eq_countP, List.countP_map] at hone ⊢
    rw [← hone]
    apply List.countP_congr
    intro q hq
    simp only [Function.comp, beq_iff_eq]
    constructor
    · intro hline
      have hqmem : q.2 ∈ s.employees :=
        (List.Perm.mem_iff hperm).1 (List.mem_map.mpr ⟨q, hq, rfl⟩)
      exact eq_of_id_eq h1 hqmem hr (specLine_id_inj s hline)
    · intro hq2
      have : q = (d, r') := List.inj_on_of_nodup_map hnodup hq hp hq2
      rw [this]

/-- Witness for C18: the chain Bob -> Tim -> Ralph with the further root Kevin. -/
theorem print_one_line_per_node_witness :
    chain3Kevin.Reachable ∧ chain3Kevin.ManagerListsNode ∧ chain3Kevin.Acyclic ∧
    chain3Kevin.heap.length ≤ 4 ∧
    ∃ (lines : List String) (visits : List (Nat × Nat)),
      chain3Kevin.print 4 [] = some lines ∧
      lines = visits.map (fun p => chain3Kevin.specLine p.1 p.2) ∧
      (visits.map Prod.snd).Perm chain3Kevin.employees ∧
      lines.length = chain3Kevin.employees.length ∧
      ∀ r ∈ chain3Kevin.employees,
        ∃ d, (d, r) ∈ visits ∧ lines.count (chain3Kevin.specLine d r) = 1 :=
  ⟨chain3Kevin_reachable, by decide, ChainsEnd.acyclic (by decide), by decide,
    print_one_line_per_node chain3Kevin chain3Kevin_reachable (by decide)
      (ChainsEnd.acyclic (by decide)) 4 (by decide)⟩

end OrgChart.OrgStruct
